import Mathlib

/-
Verification of the PathMover control-point graph generator
(layout_gen/generate_control_points_v16.py) against its specification.

Python floats in this program only ever hold exact small fractions
(integer-valued coordinates, the pitch constants 5.0 and 2.0, and the
1e-9 epsilon appearing in comparisons), so float arithmetic is exact and
is modelled by exact fractions.  The scalar type Fq below represents such
a value as num / (d + 1); it performs no gcd normalization, so all of its
operations reduce in the kernel, and it is bridged to the mathematical
rationals by Fq.q for proofs.  All values the generator ever stores are
integral (d = 0), for which structural equality coincides with numeric
equality, matching Python dictionary-key semantics for float keys.
-/

set_option maxRecDepth 40000

/-- An exact fraction num / (d+1): the model of a Python float value in this
program.  The denominator is d + 1, hence always positive. -/
structure Fq where
  num : ℤ
  d : ℕ
deriving DecidableEq

def Fq.den (a : Fq) : ℕ := a.d + 1

def Fq.ofInt (n : ℤ) : Fq := ⟨n, 0⟩

def Fq.ofNat (n : ℕ) : Fq := ⟨(n : ℤ), 0⟩

def Fq.add (a b : Fq) : Fq := ⟨a.num * b.den + b.num * a.den, a.d * b.d + a.d + b.d⟩

def Fq.sub (a b : Fq) : Fq := ⟨a.num * b.den - b.num * a.den, a.d * b.d + a.d + b.d⟩

def Fq.mul (a b : Fq) : Fq := ⟨a.num * b.num, a.d * b.d + a.d + b.d⟩

def Fq.absv (a : Fq) : Fq := ⟨|a.num|, a.d⟩

def Fq.lt (a b : Fq) : Prop := a.num * b.den < b.num * a.den

def Fq.le (a b : Fq) : Prop := a.num * b.den ≤ b.num * a.den

instance (a b : Fq) : Decidable (Fq.lt a b) := by unfold Fq.lt; infer_instance

instance (a b : Fq) : Decidable (Fq.le a b) := by unfold Fq.le; infer_instance

/-- The epsilon tolerance 1e-9 used throughout the generator. -/
def Fq.eps : Fq := ⟨1, 999999999⟩

/-- Interpretation of an Fq value as a mathematical rational. -/
def Fq.q (a : Fq) : ℚ := (a.num : ℚ) / (a.den : ℚ)

theorem Fq.den_pos (a : Fq) : (0 : ℚ) < (a.den : ℚ) := by
  have h : (0:ℕ) < a.den := Nat.succ_pos _
  exact_mod_cast h

theorem Fq.den_add (a b : Fq) : ((a.add b).den : ℚ) = (a.den : ℚ) * (b.den : ℚ) := by
  simp only [Fq.den, Fq.add]
  push_cast
  ring

theorem Fq.den_sub (a b : Fq) : ((a.sub b).den : ℚ) = (a.den : ℚ) * (b.den : ℚ) := by
  simp only [Fq.den, Fq.sub]
  push_cast
  ring

theorem Fq.den_mul (a b : Fq) : ((a.mul b).den : ℚ) = (a.den : ℚ) * (b.den : ℚ) := by
  simp only [Fq.den, Fq.mul]
  push_cast
  ring

theorem Fq.q_add (a b : Fq) : (a.add b).q = a.q + b.q := by
  have ha := a.den_pos
  have hb := b.den_pos
  rw [Fq.q, Fq.q, Fq.q, Fq.den_add a b]
  have hnum : (((a.add b).num : ℚ)) = (a.num : ℚ) * b.den + (b.num : ℚ) * a.den := by
    simp only [Fq.add]
    push_cast
    ring
  rw [hnum, div_add_div _ _ (ne_of_gt ha) (ne_of_gt hb)]
  ring_nf

theorem Fq.q_sub (a b : Fq) : (a.sub b).q = a.q - b.q := by
  have ha := a.den_pos
  have hb := b.den_pos
  rw [Fq.q, Fq.q, Fq.q, Fq.den_sub a b]
  have hnum : (((a.sub b).num : ℚ)) = (a.num : ℚ) * b.den - (b.num : ℚ) * a.den := by
    simp only [Fq.sub]
    push_cast
    ring
  rw [hnum, div_sub_div _ _ (ne_of_gt ha) (ne_of_gt hb)]
  ring_nf

theorem Fq.q_mul (a b : Fq) : (a.mul b).q = a.q * b.q := by
  rw [Fq.q, Fq.q, Fq.q, Fq.den_mul a b]
  have hnum : (((a.mul b).num : ℚ)) = (a.num : ℚ) * (b.num : ℚ) := by
    simp only [Fq.mul]
    push_cast
    ring
  rw [hnum, div_mul_div_comm]

theorem Fq.q_absv (a : Fq) : a.absv.q = |a.q| := by
  rw [Fq.q, Fq.q]
  have hd : (a.absv.den : ℚ) = (a.den : ℚ) := rfl
  have hn : ((a.absv.num : ℚ)) = |(a.num : ℚ)| := by
    simp only [Fq.absv]
    push_cast
    rfl
  rw [hd, hn, abs_div, abs_of_pos a.den_pos]

theorem Fq.lt_iff (a b : Fq) : a.lt b ↔ a.q < b.q := by
  rw [Fq.q, Fq.q, div_lt_div_iff₀ a.den_pos b.den_pos, Fq.lt]
  constructor
  · intro h; exact_mod_cast h
  · intro h; exact_mod_cast h

theorem Fq.le_iff (a b : Fq) : a.le b ↔ a.q ≤ b.q := by
  rw [Fq.q, Fq.q, div_le_div_iff₀ a.den_pos b.den_pos, Fq.le]
  constructor
  · intro h; exact_mod_cast h
  · intro h; exact_mod_cast h

theorem Fq.q_ofInt (n : ℤ) : (Fq.ofInt n).q = (n : ℚ) := by
  rw [Fq.q]
  simp [Fq.ofInt, Fq.den]

theorem Fq.q_ofNat (n : ℕ) : (Fq.ofNat n).q = (n : ℚ) := by
  rw [Fq.q]
  simp [Fq.ofNat, Fq.den]

theorem Fq.q_eps : Fq.eps.q = 1 / 1000000000 := by
  rw [Fq.q]
  norm_num [Fq.eps, Fq.den]

theorem Fq.q_inj (a b : Fq) (h : a = b) : a.q = b.q := by rw [h]

theorem Fq.eq_iff_q (a b : Fq) (ha : a.d = 0) (hb : b.d = 0) : a = b ↔ a.q = b.q := by
  constructor
  · intro h; rw [h]
  · intro h
    have hqa : a.q = (a.num : ℚ) := by rw [Fq.q]; simp [Fq.den, ha]
    have hqb : b.q = (b.num : ℚ) := by rw [Fq.q]; simp [Fq.den, hb]
    have : (a.num : ℚ) = (b.num : ℚ) := by rw [← hqa, ← hqb, h]
    have hnum : a.num = b.num := by exact_mod_cast this
    cases a; cases b
    simp_all

theorem Fq.q_int (a : Fq) (ha : a.d = 0) : a.q = (a.num : ℚ) := by
  rw [Fq.q]
  simp [Fq.den, ha]

/-- Python round() (banker's rounding, half to even) followed by int():
the model of int(round(v)). -/
def pyRound (v : Fq) : ℤ :=
  let f : ℤ := v.num / (v.den : ℤ)
  let r : Fq := v.sub (Fq.ofInt f)
  if r.lt ⟨1, 1⟩ then f else if Fq.lt ⟨1, 1⟩ r then f + 1 else if f % 2 = 0 then f + 0 else f + 1

theorem Fq.floor_eq (v : Fq) : v.num / (v.den : ℤ) = Int.floor v.q := by
  rw [Fq.q, Rat.floor_intCast_div_natCast]

theorem pyRound_int (v : Fq) (n : ℤ) (h : v.q = (n : ℚ)) : pyRound v = n := by
  rw [pyRound]
  have hf : v.num / (v.den : ℤ) = n := by
    rw [Fq.floor_eq, h, Int.floor_intCast]
  simp only [hf]
  have hr : (v.sub (Fq.ofInt n)).q = 0 := by
    rw [Fq.q_sub, Fq.q_ofInt, h, sub_self]
  have hlt : (v.sub (Fq.ofInt n)).lt ⟨1, 1⟩ := by
    rw [Fq.lt_iff, hr]
    rw [Fq.q]
    norm_num [Fq.den]
  rw [if_pos hlt]

theorem pyRound_ofInt (n : ℤ) : pyRound (Fq.ofInt n) = n :=
  pyRound_int _ n (Fq.q_ofInt n)

theorem pyRound_ofNat (n : ℕ) : pyRound (Fq.ofNat n) = (n : ℤ) :=
  pyRound_int _ n (Fq.q_ofNat n)

/- ---------------------------------------------------------------------
Generic association-list machinery.

Python dictionaries are modelled as association lists in insertion order.
Assignment d[k] = v replaces the value in place when the key is present
and appends otherwise, exactly as upsert does below.
--------------------------------------------------------------------- -/

def upsert {α β : Type} [DecidableEq α] (m : List (α × β)) (k : α) (f : β → β) (dflt : β) :
    List (α × β) :=
  match m with
  | [] => [(k, f dflt)]
  | kv :: t => if kv.1 = k then (k, f kv.2) :: t else kv :: upsert t k f dflt

def aget {α β : Type} [DecidableEq α] (m : List (α × β)) (k : α) : Option β :=
  match m with
  | [] => none
  | kv :: t => if kv.1 = k then some kv.2 else aget t k

def keysOf {α β : Type} (m : List (α × β)) : List α := m.map Prod.fst

def NodupKeys {α β : Type} (m : List (α × β)) : Prop := (keysOf m).Nodup

theorem aget_nil {α β : Type} [DecidableEq α] (k : α) : aget ([] : List (α × β)) k = none := rfl

theorem aget_cons {α β : Type} [DecidableEq α] (kv : α × β) (m : List (α × β)) (k : α) :
    aget (kv :: m) k = if kv.1 = k then some kv.2 else aget m k := rfl

theorem upsert_get_same {α β : Type} [DecidableEq α] (m : List (α × β)) (k : α) (f : β → β)
    (dflt : β) : aget (upsert m k f dflt) k = some (f ((aget m k).getD dflt)) := by
  induction m with
  | nil => simp [upsert, aget]
  | cons kv t ih =>
    by_cases hk : kv.1 = k
    · rw [upsert, if_pos hk, aget_cons, aget_cons, if_pos hk]
      simp
    · rw [upsert, if_neg hk, aget_cons, if_neg hk, aget_cons, if_neg hk]
      exact ih

theorem upsert_get_other {α β : Type} [DecidableEq α] (m : List (α × β)) (k k' : α) (f : β → β)
    (dflt : β) (h : k' ≠ k) : aget (upsert m k f dflt) k' = aget m k' := by
  induction m with
  | nil =>
    rw [upsert, aget_cons, aget_nil, if_neg]
    simp only
    exact Ne.symm h
  | cons kv t ih =>
    by_cases hk : kv.1 = k
    · rw [upsert, if_pos hk, aget_cons, aget_cons]
      have h1 : ¬ (k = k') := Ne.symm h
      rw [if_neg (by simpa using h1), if_neg (by rw [hk]; simpa using h1)]
    · rw [upsert, if_neg hk, aget_cons, aget_cons]
      by_cases hkv : kv.1 = k'
      · rw [if_pos hkv, if_pos hkv]
      · rw [if_neg hkv, if_neg hkv]
        exact ih

theorem upsert_mem {α β : Type} [DecidableEq α] (m : List (α × β)) (k : α) (f : β → β)
    (dflt : β) (k' : α) (v' : β) (h : (k', v') ∈ upsert m k f dflt) :
    (k', v') ∈ m ∨ (k' = k ∧ (v' = f dflt ∨ ∃ v, (k, v) ∈ m ∧ v' = f v)) := by
  induction m with
  | nil =>
    rw [upsert] at h
    rcases List.mem_singleton.mp h with h2
    right
    refine ⟨?_, Or.inl ?_⟩
    · exact congrArg Prod.fst h2
    · exact congrArg Prod.snd h2
  | cons kv t ih =>
    by_cases hk : kv.1 = k
    · rw [upsert, if_pos hk] at h
      rcases List.mem_cons.mp h with h1 | h1
      · right
        refine ⟨congrArg Prod.fst h1, Or.inr ⟨kv.2, ?_, congrArg Prod.snd h1⟩⟩
        rw [← hk]
        exact List.mem_cons_self kv t
      · exact Or.inl (List.mem_cons_of_mem kv h1)
    · rw [upsert, if_neg hk] at h
      rcases List.mem_cons.mp h with h1 | h1
      · exact Or.inl (h1 ▸ List.mem_cons_self kv t)
      · rcases ih h1 with h2 | h2
        · exact Or.inl (List.mem_cons_of_mem kv h2)
        · rcases h2 with ⟨he, h3⟩
          rcases h3 with h3 | ⟨v, hv, he2⟩
          · exact Or.inr ⟨he, Or.inl h3⟩
          · exact Or.inr ⟨he, Or.inr ⟨v, List.mem_cons_of_mem kv hv, he2⟩⟩

theorem upsert_keys_sub {α β : Type} [DecidableEq α] (m : List (α × β)) (k : α) (f : β → β)
    (dflt : β) (k' : α) (h : k' ∈ keysOf (upsert m k f dflt)) : k' ∈ keysOf m ∨ k' = k := by
  rcases List.mem_map.mp h with ⟨kv, hkv, heq⟩
  rcases upsert_mem m k f dflt kv.1 kv.2 hkv with h1 | h1
  · exact Or.inl (by rw [← heq]; exact List.mem_map.mpr ⟨kv, h1, rfl⟩)
  · exact Or.inr (by rw [← heq]; exact h1.1)

theorem upsert_preserves_mem {α β : Type} [DecidableEq α] (m : List (α × β)) (k : α) (f : β → β)
    (dflt : β) (k' : α) (v' : β) (h : (k', v') ∈ m) (hne : k' ≠ k) :
    (k', v') ∈ upsert m k f dflt := by
  induction m with
  | nil => cases h
  | cons kv t ih =>
    by_cases hk : kv.1 = k
    · rw [upsert, if_pos hk]
      rcases List.mem_cons.mp h with h1 | h1
      · exfalso
        apply hne
        rw [← hk, ← h1]
      · exact List.mem_cons_of_mem _ h1
    · rw [upsert, if_neg hk]
      rcases List.mem_cons.mp h with h1 | h1
      · exact h1 ▸ List.mem_cons_self _ _
      · exact List.mem_cons_of_mem _ (ih h1)

theorem upsert_nodupkeys {α β : Type} [DecidableEq α] (m : List (α × β)) (k : α) (f : β → β)
    (dflt : β) (h : NodupKeys m) : NodupKeys (upsert m k f dflt) := by
  induction m with
  | nil => simp [upsert, NodupKeys, keysOf]
  | cons kv t ih =>
    rw [NodupKeys, keysOf, List.map_cons, List.nodup_cons] at h
    by_cases hk : kv.1 = k
    · rw [upsert, if_pos hk, NodupKeys, keysOf, List.map_cons, List.nodup_cons]
      exact ⟨by rw [← hk]; exact h.1, h.2⟩
    · rw [upsert, if_neg hk, NodupKeys, keysOf, List.map_cons, List.nodup_cons]
      constructor
      · intro hmem
        rcases upsert_keys_sub t k f dflt kv.1 hmem with h1 | h1
        · exact h.1 h1
        · exact hk h1
      · exact ih h.2

theorem nodupkeys_functional {α β : Type} (m : List (α × β)) (h : NodupKeys m) (k : α)
    (v1 v2 : β) (h1 : (k, v1) ∈ m) (h2 : (k, v2) ∈ m) : v1 = v2 := by
  induction m with
  | nil => cases h1
  | cons kv t ih =>
    rw [NodupKeys, keysOf, List.map_cons, List.nodup_cons] at h
    rcases List.mem_cons.mp h1 with ha | ha <;> rcases List.mem_cons.mp h2 with hb | hb
    · exact congrArg Prod.snd (ha.trans hb.symm)
    · exfalso
      apply h.1
      have : kv.1 = k := by rw [← ha]
      rw [this]
      exact List.mem_map.mpr ⟨(k, v2), hb, rfl⟩
    · exfalso
      apply h.1
      have : kv.1 = k := by rw [← hb]
      rw [this]
      exact List.mem_map.mpr ⟨(k, v1), ha, rfl⟩
    · exact ih h.2 ha hb

theorem foldl_preserve {α β : Type} {P : β → Prop} (l : List α) (f : β → α → β) (b : β)
    (hb : P b) (hf : ∀ b' a, P b' → a ∈ l → P (f b' a)) : P (l.foldl f b) := by
  induction l generalizing b with
  | nil => exact hb
  | cons x t ih =>
    rw [List.foldl_cons]
    exact ih (f b x) (hf b x hb (List.mem_cons_self x t)) (fun b' a hp ha => hf b' a hp (List.mem_cons_of_mem x ha))

theorem mem_of_foldl_upsertlike {α β : Type} {P : β → Prop} (l : List α) (f : β → α → β) (b : β)
    (hmono : ∀ b' a, a ∈ l → P b' → P (f b' a)) (hb : P b) : P (l.foldl f b) :=
  foldl_preserve l f b hb (fun b' a hp ha => hmono b' a ha hp)

/-- Inclusive integer range a..b as a list (empty when b < a), modelling
Python range(a, b+1). -/
def rangeIncl (a b : ℕ) : List ℕ := (List.range (b + 1 - a)).map (fun i => i + a)

theorem mem_rangeIncl (a b x : ℕ) : x ∈ rangeIncl a b ↔ a ≤ x ∧ x ≤ b := by
  rw [rangeIncl]
  constructor
  · intro h
    rcases List.mem_map.mp h with ⟨i, hi, heq⟩
    rw [List.mem_range] at hi
    omega
  · intro ⟨h1, h2⟩
    apply List.mem_map.mpr
    exact ⟨x - a, List.mem_range.mpr (by omega), by omega⟩

/- ---------------------------------------------------------------------
Samplers (generate_control_points_v16.py lines 64-87).

sample_positions_including_end mirrors the float sampler: swap so that
start ≤ end, emit start, advance by step while x + step ≤ end + 1e-9,
and append end unless the last emitted value is within 1e-9 of it.
The while loop is modelled with explicit fuel; sampleFuel is provably
enough iterations whenever step is positive (the only case in which the
Python loop terminates at all).
--------------------------------------------------------------------- -/

def Fq.eqv (a b : Fq) : Prop := a.num * b.den = b.num * a.den

instance (a b : Fq) : Decidable (Fq.eqv a b) := by unfold Fq.eqv; infer_instance

theorem Fq.eqv_iff (a b : Fq) : a.eqv b ↔ a.q = b.q := by
  rw [Fq.q, Fq.q, div_eq_div_iff (ne_of_gt a.den_pos) (ne_of_gt b.den_pos), Fq.eqv]
  constructor
  · intro h; exact_mod_cast h
  · intro h; exact_mod_cast h

def sampleLoop (xEnd step : Fq) : ℕ → Fq → List Fq
  | 0, _ => []
  | fuel + 1, x =>
    if (x.add step).le (xEnd.add Fq.eps) then
      (x.add step) :: sampleLoop xEnd step fuel (x.add step)
    else []

def sampleFuel (s e step : Fq) : ℕ :=
  ((((e.add Fq.eps).sub s).num * (step.den : ℤ)).natAbs) + 1

def sample_positions_including_end (x_start x_end step : Fq) : List Fq :=
  let s := if x_end.lt x_start then x_end else x_start
  let e := if x_end.lt x_start then x_start else x_end
  let xs := s :: sampleLoop e step (sampleFuel s e step) s
  if Fq.eps.lt ((xs.getLastD s).sub e).absv then xs ++ [e] else xs

def sampleIntLoop (yEnd step : ℤ) : ℕ → ℤ → List ℤ
  | 0, _ => []
  | fuel + 1, y =>
    if y + step ≤ yEnd then (y + step) :: sampleIntLoop yEnd step fuel (y + step) else []

def sample_int_positions_including_end (start e step : ℤ) : List ℤ :=
  let s := if e < start then e else start
  let e2 := if e < start then start else e
  let ys := s :: sampleIntLoop e2 step ((e2 - s).toNat + 1) s
  if ys.getLastD s ≠ e2 then ys ++ [e2] else ys

theorem sampleLoop_chain (e step : Fq) (fuel : ℕ) (x : Fq) :
    List.Chain' (fun a b => b = a.add step) (x :: sampleLoop e step fuel x) := by
  induction fuel generalizing x with
  | zero => simp [sampleLoop]
  | succ n ih =>
    rw [sampleLoop]
    by_cases h : (x.add step).le (e.add Fq.eps)
    · rw [if_pos h]
      exact List.Chain'.cons rfl (ih (x.add step))
    · rw [if_neg h]
      simp

theorem sampleLoop_le (e step : Fq) (fuel : ℕ) (x : Fq) (z : Fq)
    (hz : z ∈ sampleLoop e step fuel x) : z.q ≤ (e.add Fq.eps).q := by
  induction fuel generalizing x with
  | zero => cases hz
  | succ n ih =>
    rw [sampleLoop] at hz
    by_cases h : (x.add step).le (e.add Fq.eps)
    · rw [if_pos h] at hz
      rcases List.mem_cons.mp hz with h1 | h1
      · rw [h1, ← Fq.le_iff]; exact h
      · exact ih (x.add step) h1
    · rw [if_neg h] at hz
      cases hz

theorem sampleLoop_last (e step : Fq) (hstep : 0 < step.q) (fuel : ℕ) : ∀ (x : Fq),
    (e.add Fq.eps).q - x.q ≤ (fuel : ℚ) * step.q →
    (e.add Fq.eps).q < ((x :: sampleLoop e step fuel x).getLastD x).q + step.q := by
  induction fuel with
  | zero =>
    intro x hfuel
    have hx : ((x :: sampleLoop e step 0 x).getLastD x) = x := rfl
    rw [hx]
    push_cast at hfuel
    rw [zero_mul] at hfuel
    linarith
  | succ n ih =>
    intro x hfuel
    rw [sampleLoop]
    by_cases h : (x.add step).le (e.add Fq.eps)
    · rw [if_pos h, List.getLastD_cons, List.getLastD_cons]
      have hq : (x.add step).q = x.q + step.q := Fq.q_add x step
      have h2 : (e.add Fq.eps).q - (x.add step).q ≤ (n : ℚ) * step.q := by
        rw [hq]
        push_cast at hfuel
        linarith
      have hres := ih (x.add step) h2
      rw [List.getLastD_cons] at hres
      exact hres
    · rw [if_neg h]
      have hx : (((x :: []) : List Fq).getLastD x) = x := rfl
      rw [hx]
      rw [Fq.le_iff, not_le, Fq.q_add x step] at h
      linarith

theorem sampleFuel_enough (s e step : Fq) (hstep : 0 < step.q) :
    (e.add Fq.eps).q - s.q ≤ ((sampleFuel s e step : ℕ) : ℚ) * step.q := by
  have hq : ((e.add Fq.eps).sub s).q = (e.add Fq.eps).q - s.q := Fq.q_sub _ _
  set D := (e.add Fq.eps).sub s with hD
  have hfuel_pos : (0:ℚ) < ((sampleFuel s e step : ℕ) : ℚ) := by
    have h1 : (0:ℕ) < sampleFuel s e step := Nat.succ_pos _
    exact_mod_cast h1
  rcases le_or_lt D.q 0 with h0 | h0
  · have h0' : (e.add Fq.eps).q - s.q ≤ 0 := by rw [← hq]; exact h0
    nlinarith
  · have hnum_pos : 0 < D.num := by
      by_contra hn
      push_neg at hn
      have hle : D.q ≤ 0 := by
        rw [Fq.q]
        apply div_nonpos_of_nonpos_of_nonneg
        · exact_mod_cast hn
        · exact le_of_lt D.den_pos
      linarith
    have hstep_num : 1 ≤ step.num := by
      by_contra hn
      push_neg at hn
      have hmm : step.num ≤ 0 := by omega
      have hle : step.q ≤ 0 := by
        rw [Fq.q]
        apply div_nonpos_of_nonpos_of_nonneg
        · exact_mod_cast hmm
        · exact le_of_lt step.den_pos
      linarith
    have habs : ((D.num * (step.den : ℤ)).natAbs : ℤ) = D.num * step.den := by
      apply Int.natAbs_of_nonneg
      positivity
    have hfuel_ge : (D.num : ℚ) * (step.den : ℚ) ≤ ((sampleFuel s e step : ℕ) : ℚ) := by
      have h2 : (D.num * (step.den : ℤ)).natAbs ≤ sampleFuel s e step := by
        rw [sampleFuel, ← hD]
        omega
      have h2q : (((D.num * (step.den : ℤ)).natAbs : ℕ) : ℚ) ≤ ((sampleFuel s e step : ℕ) : ℚ) := by
        exact_mod_cast h2
      have h3 : (((D.num * (step.den : ℤ)).natAbs : ℕ) : ℚ) = |(D.num : ℚ) * (step.den : ℚ)| := by
        rw [Int.cast_natAbs]
        push_cast
        ring_nf
      rw [h3] at h2q
      have h5 : (D.num : ℚ) * (step.den : ℚ) ≤ |(D.num : ℚ) * (step.den : ℚ)| := le_abs_self _
      linarith
    have hstep_q : step.q = (step.num : ℚ) / (step.den : ℚ) := rfl
    have hden_pos := step.den_pos
    have hnum_q : (1:ℚ) ≤ (step.num : ℚ) := by exact_mod_cast hstep_num
    have hDq : D.q = (D.num : ℚ) / (D.den : ℚ) := rfl
    have hDden_ge : (1:ℚ) ≤ (D.den : ℚ) := by
      have h1 : (1:ℕ) ≤ D.den := by simp [Fq.den]
      exact_mod_cast h1
    have hDnum_pos : (0:ℚ) < (D.num : ℚ) := by exact_mod_cast hnum_pos
    have hqle : D.q ≤ (D.num : ℚ) := by
      rw [hDq, div_le_iff₀ D.den_pos]
      nlinarith
    have hchain : (D.num : ℚ) ≤ ((sampleFuel s e step : ℕ) : ℚ) * step.q := by
      have h1 : (D.num : ℚ) * (step.den : ℚ) * step.q ≤ ((sampleFuel s e step : ℕ) : ℚ) * step.q :=
        mul_le_mul_of_nonneg_right hfuel_ge (le_of_lt hstep)
      have h2 : (D.num : ℚ) * (step.den : ℚ) * step.q = (D.num : ℚ) * (step.num : ℚ) := by
        rw [hstep_q]
        field_simp
        ring
      have h3 : (D.num : ℚ) ≤ (D.num : ℚ) * (step.num : ℚ) := by nlinarith
      linarith
    rw [← hq]
    linarith

theorem Fq.eps_q_pos : 0 < Fq.eps.q := by
  rw [Fq.q_eps]
  norm_num

theorem getLastD_eq_or_mem {α : Type} : ∀ (l : List α) (d : α), l.getLastD d = d ∨ l.getLastD d ∈ l := by
  intro l
  induction l with
  | nil => intro d; exact Or.inl rfl
  | cons y t ih =>
    intro d
    rw [List.getLastD_cons]
    rcases ih y with h | h
    · refine Or.inr ?_
      rw [h]
      exact List.mem_cons_self y t
    · exact Or.inr (List.mem_cons_of_mem y h)

theorem getLastD_mem_cons {α : Type} (x : α) (l : List α) : (x :: l).getLastD x ∈ x :: l := by
  rw [List.getLastD_cons]
  rcases getLastD_eq_or_mem l x with h | h
  · rw [h]
    exact List.mem_cons_self x l
  · exact List.mem_cons_of_mem x h

theorem getLastQ_cons_eq {α : Type} : ∀ (l : List α) (x : α),
    (x :: l).getLast? = some ((x :: l).getLastD x) := by
  intro l
  induction l with
  | nil => intro x; rfl
  | cons y t ih =>
    intro x
    rw [List.getLast?_cons_cons, ih y]
    simp only [List.getLastD_cons]

theorem sample_spec (x_start x_end step : Fq) (h1 : x_start.lt x_end)
    (h2 : (Fq.ofInt 0).lt step) :
    (sample_positions_including_end x_start x_end step).head? = some x_start ∧
    List.Chain' (fun a b => a.lt b ∧ (b.sub a).le step)
      (sample_positions_including_end x_start x_end step) ∧
    (((sample_positions_including_end x_start x_end step).getLastD x_start).sub x_end).absv.le
      Fq.eps := by
  have hstep : 0 < step.q := by
    rw [Fq.lt_iff, Fq.q_ofInt] at h2
    exact_mod_cast h2
  have hse : x_start.q < x_end.q := (Fq.lt_iff _ _).mp h1
  have hswap : ¬ x_end.lt x_start := by
    rw [Fq.lt_iff, not_lt]
    exact le_of_lt hse
  have hqadd : (x_end.add Fq.eps).q = x_end.q + Fq.eps.q := Fq.q_add _ _
  set L := sampleLoop x_end step (sampleFuel x_start x_end step) x_start with hL
  set lastv := ((x_start :: L).getLastD x_start) with hlastv
  have hchain0 : List.Chain' (fun a b => b = a.add step) (x_start :: L) :=
    sampleLoop_chain x_end step (sampleFuel x_start x_end step) x_start
  have hchain : List.Chain' (fun a b => a.lt b ∧ (b.sub a).le step) (x_start :: L) := by
    apply List.Chain'.imp _ hchain0
    intro a b hab
    constructor
    · rw [Fq.lt_iff, hab, Fq.q_add]
      linarith
    · rw [Fq.le_iff, hab, Fq.q_sub, Fq.q_add]
      linarith
  have hlast_gt : (x_end.add Fq.eps).q < lastv.q + step.q := by
    rw [hlastv, hL]
    exact sampleLoop_last x_end step hstep _ x_start
      (sampleFuel_enough x_start x_end step hstep)
  have hlast_le : lastv.q ≤ x_end.q + Fq.eps.q := by
    rcases List.mem_cons.mp (hlastv ▸ getLastD_mem_cons x_start L) with h | h
    · rw [h]
      have := Fq.eps_q_pos
      linarith
    · have := sampleLoop_le x_end step (sampleFuel x_start x_end step) x_start lastv h
      rw [hqadd] at this
      exact this
  have hunfold : sample_positions_including_end x_start x_end step =
      (if Fq.eps.lt ((( x_start :: L).getLastD x_start).sub x_end).absv
       then (x_start :: L) ++ [x_end] else (x_start :: L)) := by
    rw [sample_positions_including_end]
    simp only [if_neg hswap]
  by_cases hc : Fq.eps.lt (lastv.sub x_end).absv
  · have habs : Fq.eps.q < |lastv.q - x_end.q| := by
      have := (Fq.lt_iff _ _).mp hc
      rwa [Fq.q_absv, Fq.q_sub] at this
    have hlast_lt_end : lastv.q < x_end.q := by
      rcases abs_cases (lastv.q - x_end.q) with ⟨heq, hge⟩ | ⟨heq, hlt⟩
      · rw [heq] at habs
        have := Fq.eps_q_pos
        linarith
      · linarith
    rw [hunfold, if_pos (hlastv ▸ hc)]
    refine ⟨rfl, ?_, ?_⟩
    · rw [List.chain'_append]
      refine ⟨hchain, by simp, ?_⟩
      intro x hx y hy
      rw [getLastQ_cons_eq] at hx
      have hx2 : x = lastv := by
        rw [hlastv]
        exact Option.some_injective _ hx.symm |>.symm ▸ (by injection hx)
      simp only [List.head?_cons, Option.mem_def, Option.some.injEq] at hy
      rw [hx2, ← hy]
      constructor
      · rw [Fq.lt_iff]
        exact hlast_lt_end
      · rw [Fq.le_iff, Fq.q_sub]
        have := Fq.eps_q_pos
        linarith
    · have hl2 : (((x_start :: L) ++ [x_end]).getLastD x_start) = x_end := by
        rw [List.getLastD_concat]
      rw [hl2]
      rw [Fq.le_iff, Fq.q_absv, Fq.q_sub, sub_self, abs_zero]
      exact le_of_lt Fq.eps_q_pos
  · rw [hunfold, if_neg (hlastv ▸ hc)]
    refine ⟨rfl, hchain, ?_⟩
    have := (not_iff_not.mpr (Fq.lt_iff Fq.eps ((lastv.sub x_end).absv))).mp hc
    rw [not_lt] at this
    rw [Fq.le_iff, Fq.q_absv, Fq.q_sub]
    rwa [Fq.q_absv, Fq.q_sub] at this

theorem sampleIntLoop_chain (e step : ℤ) (fuel : ℕ) (x : ℤ) :
    List.Chain' (fun a b => b = a + step) (x :: sampleIntLoop e step fuel x) := by
  induction fuel generalizing x with
  | zero => simp [sampleIntLoop]
  | succ n ih =>
    rw [sampleIntLoop]
    by_cases h : x + step ≤ e
    · rw [if_pos h]
      exact List.Chain'.cons rfl (ih (x + step))
    · rw [if_neg h]
      simp

theorem sampleIntLoop_le (e step : ℤ) (fuel : ℕ) (x : ℤ) (z : ℤ)
    (hz : z ∈ sampleIntLoop e step fuel x) : z ≤ e := by
  induction fuel generalizing x with
  | zero => cases hz
  | succ n ih =>
    rw [sampleIntLoop] at hz
    by_cases h : x + step ≤ e
    · rw [if_pos h] at hz
      rcases List.mem_cons.mp hz with h1 | h1
      · omega
      · exact ih (x + step) h1
    · rw [if_neg h] at hz
      cases hz

theorem sampleIntLoop_last (e step : ℤ) (hstep : 0 < step) (fuel : ℕ) : ∀ (x : ℤ),
    e - x ≤ (fuel : ℤ) * step →
    e < ((x :: sampleIntLoop e step fuel x).getLastD x) + step := by
  induction fuel with
  | zero =>
    intro x hfuel
    have hx : ((x :: sampleIntLoop e step 0 x).getLastD x) = x := rfl
    rw [hx]
    omega
  | succ n ih =>
    intro x hfuel
    rw [sampleIntLoop]
    by_cases h : x + step ≤ e
    · rw [if_pos h, List.getLastD_cons, List.getLastD_cons]
      have h2 : e - (x + step) ≤ (n : ℤ) * step := by
        push_cast at hfuel
        nlinarith
      have hres := ih (x + step) h2
      rw [List.getLastD_cons] at hres
      exact hres
    · rw [if_neg h]
      have hx : (((x :: []) : List ℤ).getLastD x) = x := rfl
      rw [hx]
      omega

theorem sample_int_spec (a e step : ℤ) (h1 : a < e) (h2 : 0 < step) :
    (sample_int_positions_including_end a e step).head? = some a ∧
    List.Chain' (fun u v => u < v ∧ v - u ≤ step)
      (sample_int_positions_including_end a e step) ∧
    (sample_int_positions_including_end a e step).getLastD a = e := by
  have hswap : ¬ e < a := by omega
  set fuel := (e - a).toNat + 1 with hfuel
  set L := sampleIntLoop e step fuel a with hL
  set lastv := ((a :: L).getLastD a) with hlastv
  have hchain0 := sampleIntLoop_chain e step fuel a
  have hchain : List.Chain' (fun u v => u < v ∧ v - u ≤ step) (a :: L) := by
    apply List.Chain'.imp _ hchain0
    intro u v huv
    omega
  have hfuel_ok : e - a ≤ (fuel : ℤ) * step := by
    rw [hfuel]
    push_cast
    have h3 : e - a ≤ ((e - a).toNat : ℤ) := Int.self_le_toNat _
    have ht : (0:ℤ) ≤ ((e - a).toNat : ℤ) := Int.ofNat_nonneg _
    have h5 : ((e - a).toNat : ℤ) * 1 ≤ ((e - a).toNat : ℤ) * step :=
      mul_le_mul_of_nonneg_left (by omega) ht
    have h6 : (((e - a).toNat : ℤ) + 1) * step = ((e - a).toNat : ℤ) * step + step := by ring
    linarith
  have hlast_gt : e < lastv + step := by
    rw [hlastv, hL]
    exact sampleIntLoop_last e step h2 fuel a hfuel_ok
  have hlast_le : lastv ≤ e := by
    rcases List.mem_cons.mp (hlastv ▸ getLastD_mem_cons a L) with h | h
    · omega
    · exact sampleIntLoop_le e step fuel a lastv h
  have hunfold : sample_int_positions_including_end a e step =
      (if ((a :: L).getLastD a) ≠ e then (a :: L) ++ [e] else (a :: L)) := by
    rw [sample_int_positions_including_end]
    simp only [if_neg hswap]
  by_cases hc : lastv ≠ e
  · rw [hunfold, if_pos (hlastv ▸ hc)]
    refine ⟨rfl, ?_, ?_⟩
    · rw [List.chain'_append]
      refine ⟨hchain, by simp, ?_⟩
      intro x hx y hy
      rw [getLastQ_cons_eq] at hx
      have hx2 : x = lastv := by
        rw [hlastv]
        have h7 : some ((a :: L).getLastD a) = some x := hx
        exact (Option.some_inj.mp h7).symm
      simp only [List.head?_cons, Option.mem_def, Option.some.injEq] at hy
      rw [hx2, ← hy]
      omega
    · rw [List.getLastD_concat]
  · rw [hunfold, if_neg (hlastv ▸ hc)]
    push_neg at hc
    exact ⟨rfl, hchain, hc⟩

/- ---------------------------------------------------------------------
Data model of the generator (generate_control_points_v16.py).

Node ids are the structured image of the Python f-string id formats;
the zero-padded formats with distinct prefixes make the Python strings
in bijection with these constructors (pidStr below reproduces the exact
strings for the final id sort).
--------------------------------------------------------------------- -/

inductive PId where
  | BL (r c : ℕ)
  | PUH (r i : ℕ)
  | GYH (y i : ℕ)
  | OR (r s i : ℕ)
  | GN (r s i : ℕ)
  | PUVUP (x r1 i : ℕ)
  | PUVDN (x r1 i : ℕ)
  | GYV (x r1 i : ℕ)
deriving DecidableEq

inductive PMeta where
  | cell (row col : ℕ)
  | hRow (row : ℕ)
  | hBand (bandY : ℕ)
  | seg (row segIdx c1 c2 : ℕ)
  | vert (col r1 r2 : ℕ)
deriving DecidableEq

def PMeta.kind : PMeta → String
  | .cell _ _ => "cell"
  | .hRow _ => "h"
  | .hBand _ => "h"
  | .seg _ _ _ _ => "seg"
  | .vert _ _ _ => "v"

structure PointData where
  x : Fq
  y : Fq
  region : String
  meta : PMeta
  inout : Bool
  next : List PId
deriving DecidableEq

def mkPoint (x y : Fq) (region : String) (meta : PMeta) : PointData :=
  ⟨x, y, region, meta, false, []⟩

abbrev Points : Type := List (PId × PointData)

abbrev CoordRegion : Type := List ((Fq × Fq) × String)

/-- The model of the Excel worksheet: per-cell color signature (the result
of color_id, None when the cell has no solid fill), the used extent, and
the merged-cell ranges with their bounds (min_col, min_row, max_col, max_row). -/
structure Workbook where
  maxRow : ℕ
  maxCol : ℕ
  color : ℕ → ℕ → Option String
  merged : List (ℕ × ℕ × ℕ × ℕ)

/-- openpyxl column_index_from_string on an upper-case letter sequence. -/
def colIndexOf (s : List Char) : ℕ := s.foldl (fun a ch => a * 26 + (ch.toNat - 64)) 0

def colE : ℕ := colIndexOf ['E']

def colAIL : ℕ := colIndexOf ['A', 'I', 'L']

def colAIP : ℕ := colIndexOf ['A', 'I', 'P']

def colAIS : ℕ := colIndexOf ['A', 'I', 'S']

def colAIT : ℕ := colIndexOf ['A', 'I', 'T']

def colAIU : ℕ := colIndexOf ['A', 'I', 'U']

def colAIV : ℕ := colIndexOf ['A', 'I', 'V']

def colAIY : ℕ := colIndexOf ['A', 'I', 'Y']

def colAJB : ℕ := colIndexOf ['A', 'J', 'B']

def colAJE : ℕ := colIndexOf ['A', 'J', 'E']

def rBlue : String := "blue"

def rPurple : String := "purple"

def rGrey : String := "grey"

def rOrange : String := "orange"

def rGreen : String := "green"

def contiguous_segments_for_color (wb : Workbook) (row : ℕ) (colorSig : String)
    (colMin colMax : ℕ) : List (ℕ × ℕ) :=
  let st := (rangeIncl colMin colMax).foldl
    (fun (st : List (ℕ × ℕ) × Option ℕ) c =>
      if wb.color row c = some colorSig then
        match st.2 with
        | none => (st.1, some c)
        | some s => (st.1, some s)
      else
        match st.2 with
        | none => (st.1, none)
        | some s => (st.1 ++ [(s, c - 1)], none))
    ([], none)
  match st.2 with
  | some s => st.1 ++ [(s, colMax)]
  | none => st.1

/- ---------------------------------------------------------------------
Node-generation phase (lines 177-310): blue cells first, then purple
horizontal rows, grey horizontal bands, orange segments, green segments,
and the fixed vertical strips.  Every non-blue creation is guarded by
the coord_region check that skips coordinates already claimed by blue.
--------------------------------------------------------------------- -/

abbrev GenState : Type := Points × CoordRegion

def dinsert (pts : Points) (pid : PId) (pd : PointData) : Points :=
  upsert pts pid (fun _ => pd) pd

def cset (cr : CoordRegion) (k : Fq × Fq) (v : String) : CoordRegion :=
  upsert cr k (fun _ => v) v

def cget (cr : CoordRegion) (k : Fq × Fq) : Option String := aget cr k

def blueCellStep (wb : Workbook) (blueSig : String) (r : ℕ) (st : GenState) (c : ℕ) : GenState :=
  if wb.color r c = some blueSig then
    let x := Fq.ofNat (c - 1)
    let y := Fq.ofNat r
    (dinsert st.1 (PId.BL r c) (mkPoint x y rBlue (PMeta.cell r c)),
     cset st.2 (x, y) rBlue)
  else st

def blueScan (wb : Workbook) (blueSig : String) (cols : List ℕ) (st : GenState) : GenState :=
  (rangeIncl 1 wb.maxRow).foldl (fun st r => cols.foldl (blueCellStep wb blueSig r) st) st

def purple_rows : List ℕ :=
  rangeIncl 13 16 ++ rangeIncl 22 25 ++ rangeIncl 226 229 ++ rangeIncl 235 238

def purplePointStep (r : ℕ) (st : GenState) (ix : ℕ × Fq) : GenState :=
  let y := Fq.ofNat r
  let key := (ix.2, y)
  if cget st.2 key = some rBlue then st
  else (dinsert st.1 (PId.PUH r ix.1) (mkPoint ix.2 y rPurple (PMeta.hRow r)),
        cset st.2 key rPurple)

def purpleRowStep (wb : Workbook) (purpleSig : String) (st : GenState) (r : ℕ) : GenState :=
  if wb.color r colE ≠ some purpleSig then st
  else
    let xs := sample_positions_including_end (Fq.ofNat (colE - 1)) (Fq.ofNat (colAIL - 1))
      (Fq.ofInt 5)
    xs.enum.foldl (purplePointStep r) st

def purplePhase (wb : Workbook) (purpleSig : String) (st : GenState) : GenState :=
  purple_rows.foldl (purpleRowStep wb purpleSig) st

structure GreyBand where
  rowMin : ℕ
  rowMax : ℕ
  y : ℕ

def grey_bands : List GreyBand := [⟨17, 21, 19⟩, ⟨230, 234, 232⟩]

def greyPointStep (bandY : ℕ) (st : GenState) (ix : ℕ × Fq) : GenState :=
  let y := Fq.ofNat bandY
  let key := (ix.2, y)
  if cget st.2 key = some rBlue then st
  else (dinsert st.1 (PId.GYH bandY ix.1) (mkPoint ix.2 y rGrey (PMeta.hBand bandY)),
        cset st.2 key rGrey)

def greyBandStep (wb : Workbook) (st : GenState) (band : GreyBand) : GenState :=
  let maxX := wb.merged.foldl (fun (mx : Option ℕ) mr =>
    if mr.2.1 = band.rowMin ∧ mr.2.2.2 = band.rowMax then
      if mr.1 ≥ colAIS then mx
      else
        match mx with
        | none => some (mr.2.2.1 - 1)
        | some m => some (max m (mr.2.2.1 - 1))
    else mx) none
  match maxX with
  | none => st
  | some mx =>
    let xs := sample_positions_including_end (Fq.ofNat 4) (Fq.ofNat mx) (Fq.ofInt 2)
    xs.enum.foldl (greyPointStep band.y) st

def greyPhase (wb : Workbook) (st : GenState) : GenState :=
  grey_bands.foldl (greyBandStep wb) st

def segPointStep (regionStr : String) (mkId : ℕ → ℕ → ℕ → PId) (r sIdx c1 c2 : ℕ)
    (st : GenState) (ix : ℕ × Fq) : GenState :=
  let y := Fq.ofNat r
  let key := (ix.2, y)
  if cget st.2 key = some rBlue then st
  else (dinsert st.1 (mkId r sIdx ix.1) (mkPoint ix.2 y regionStr (PMeta.seg r sIdx c1 c2)),
        cset st.2 key regionStr)

def segSegStep (regionStr : String) (mkId : ℕ → ℕ → ℕ → PId) (r : ℕ) (st : GenState)
    (sseg : ℕ × (ℕ × ℕ)) : GenState :=
  let sIdx := sseg.1 + 1
  let xs := sample_positions_including_end (Fq.ofNat (sseg.2.1 - 1)) (Fq.ofNat (sseg.2.2 - 1))
    (Fq.ofInt 5)
  xs.enum.foldl (segPointStep regionStr mkId r sIdx sseg.2.1 sseg.2.2) st

def segRowStep (wb : Workbook) (sig : String) (regionStr : String) (mkId : ℕ → ℕ → ℕ → PId)
    (st : GenState) (r : ℕ) : GenState :=
  let segs := contiguous_segments_for_color wb r sig 1 (min wb.maxCol (colAIS - 1))
  segs.enum.foldl (segSegStep regionStr mkId r) st

def segPhase (wb : Workbook) (sig : String) (regionStr : String) (mkId : ℕ → ℕ → ℕ → PId)
    (st : GenState) : GenState :=
  (rangeIncl 1 wb.maxRow).foldl (segRowStep wb sig regionStr mkId) st

def vertical_ranges : List (ℕ × ℕ) := [(28, 101), (150, 223)]

def vertPointStep (mkId : ℕ → ℕ → ℕ → PId) (regionStr : String) (x col r1 r2 : ℕ)
    (st : GenState) (iy : ℕ × ℤ) : GenState :=
  let key := (Fq.ofNat x, Fq.ofInt iy.2)
  if cget st.2 key = some rBlue then st
  else (dinsert st.1 (mkId x r1 iy.1)
          (mkPoint (Fq.ofNat x) (Fq.ofInt iy.2) regionStr (PMeta.vert col r1 r2)),
        cset st.2 key regionStr)

def vertRangeStep (mkId : ℕ → ℕ → ℕ → PId) (regionStr : String) (stepV : ℤ) (x col : ℕ)
    (st : GenState) (rr : ℕ × ℕ) : GenState :=
  let ys := sample_int_positions_including_end (rr.1 : ℤ) (rr.2 : ℤ) stepV
  ys.enum.foldl (vertPointStep mkId regionStr x col rr.1 rr.2) st

def vertColStep (mkId : ℕ → ℕ → ℕ → PId) (regionStr : String) (stepV : ℤ) (st : GenState)
    (col : ℕ) : GenState :=
  vertical_ranges.foldl (vertRangeStep mkId regionStr stepV (col - 1) col) st

def add_vertical_points (colFrom colTo : ℕ) (mkId : ℕ → ℕ → ℕ → PId) (regionStr : String)
    (stepV : ℤ) (st : GenState) : GenState :=
  (rangeIncl colFrom colTo).foldl (vertColStep mkId regionStr stepV) st

def genPhase (wb : Workbook) (purpleSig blueSig orangeSig greenSig : String) : GenState :=
  let st0 : GenState := ([], [])
  let st1 := blueScan wb blueSig (rangeIncl 1 (colAIS - 1)) st0
  let st2 := blueScan wb blueSig (rangeIncl colAIS colAIV) st1
  let st3 := purplePhase wb purpleSig st2
  let st4 := greyPhase wb st3
  let st5 := segPhase wb orangeSig rOrange PId.OR st4
  let st6 := segPhase wb greenSig rGreen PId.GN st5
  let st7 := add_vertical_points colAIS colAIT PId.PUVUP rPurple 5 st6
  let st8 := add_vertical_points colAIU colAIV PId.PUVDN rPurple 5 st7
  let st9 := add_vertical_points colAJB colAJE PId.PUVDN rPurple 5 st8
  add_vertical_points colAIY colAIY PId.GYV rGrey 2 st9

/- ---------------------------------------------------------------------
Claim C1 analysis.

The generation phase enforces priority only for blue: each non-blue
region skips a coordinate exactly when coord_region maps it to blue.
Two non-blue regions can therefore both generate a node at one exact
coordinate; wb0 below is a witness workbook on which the purple row 13
and a green segment both sample (9.0, 13.0).
--------------------------------------------------------------------- -/

def sigP : String := "P"

def sigB : String := "B"

def sigO : String := "O"

def sigG : String := "G"

/-- A five-cell workbook: the four anchor cells (E13 purple, A28 blue,
E28 orange, E120 green) plus one green cell J13, whose segment samples
x = 9 in row 13 - the same exact coordinate as the second purple sample
of row 13. -/
def wb0 : Workbook :=
  { maxRow := 13
    maxCol := 12
    color := fun r c =>
      if r = 13 ∧ c = 5 then some sigP
      else if r = 28 ∧ c = 1 then some sigB
      else if r = 28 ∧ c = 5 then some sigO
      else if r = 120 ∧ c = 5 then some sigG
      else if r = 13 ∧ c = 10 then some sigG
      else none
    merged := [] }

/-- Boolean check of the frozen claim's at-most-one-node-per-coordinate
property over the generated point list. -/
def coordsDistinctB : Points → Bool
  | [] => true
  | kp :: rest =>
    (rest.all (fun kq => decide (¬(kp.2.x = kq.2.x ∧ kp.2.y = kq.2.y)))) && coordsDistinctB rest

theorem coordsDistinctB_false_of (pts : Points) (a b : PId) (pa pb : PointData)
    (ha : (a, pa) ∈ pts) (hb : (b, pb) ∈ pts) (hne : a ≠ b) (hx : pa.x = pb.x)
    (hy : pa.y = pb.y) : coordsDistinctB pts = false := by
  induction pts with
  | nil => cases ha
  | cons kp rest ih =>
    rw [coordsDistinctB]
    rcases List.mem_cons.mp ha with ha1 | ha1 <;> rcases List.mem_cons.mp hb with hb1 | hb1
    · exfalso
      apply hne
      have h1 : a = kp.1 := congrArg Prod.fst ha1
      have h2 : b = kp.1 := congrArg Prod.fst hb1
      rw [h1, h2]
    · apply Bool.and_eq_false_iff.mpr
      left
      apply List.all_eq_false.mpr
      refine ⟨(b, pb), hb1, ?_⟩
      have hpa : kp.2 = pa := congrArg Prod.snd ha1.symm
      show ¬ (decide (¬(kp.2.x = pb.x ∧ kp.2.y = pb.y)) = true)
      rw [hpa]
      intro hcon
      exact (of_decide_eq_true hcon) ⟨hx, hy⟩
    · apply Bool.and_eq_false_iff.mpr
      left
      apply List.all_eq_false.mpr
      refine ⟨(a, pa), ha1, ?_⟩
      have hpb : kp.2 = pb := congrArg Prod.snd hb1.symm
      show ¬ (decide (¬(kp.2.x = pa.x ∧ kp.2.y = pa.y)) = true)
      rw [hpb]
      intro hcon
      exact (of_decide_eq_true hcon) ⟨hx.symm, hy.symm⟩
    · apply Bool.and_eq_false_iff.mpr
      right
      exact ih ha1 hb1

theorem upsert_mem_self {α β : Type} [DecidableEq α] (m : List (α × β)) (k : α) (v : β) :
    (k, v) ∈ upsert m k (fun _ => v) v := by
  induction m with
  | nil => exact List.mem_singleton.mpr rfl
  | cons kv t ih =>
    by_cases hk : kv.1 = k
    · rw [upsert, if_pos hk]
      exact List.mem_cons_self _ _
    · rw [upsert, if_neg hk]
      exact List.mem_cons_of_mem _ ih

theorem dinsert_mem_self (pts : Points) (pid : PId) (pd : PointData) :
    (pid, pd) ∈ dinsert pts pid pd := upsert_mem_self pts pid pd

theorem dinsert_preserves (pts : Points) (pid : PId) (pd : PointData) (k : PId) (v : PointData)
    (h : (k, v) ∈ pts) (hne : k ≠ pid) : (k, v) ∈ dinsert pts pid pd :=
  upsert_preserves_mem pts pid _ pd k v h hne

theorem enumFrom_fst_ge {α : Type} : ∀ (l : List α) (n : ℕ) (p : ℕ × α),
    p ∈ List.enumFrom n l → n ≤ p.1 := by
  intro l
  induction l with
  | nil => intro n p hp; cases hp
  | cons x t ih =>
    intro n p hp
    rw [List.enumFrom] at hp
    rcases List.mem_cons.mp hp with h | h
    · rw [h]
    · have := ih (n + 1) p h
      omega

/-- coord_region never maps any coordinate to blue (true whenever the blue
scans contributed nothing). -/
def NoBlueCR (cr : CoordRegion) : Prop := ∀ k, ¬ cget cr k = some rBlue

theorem noBlueCR_nil : NoBlueCR [] := by
  intro k
  rw [cget, aget_nil]
  simp

theorem noBlueCR_cset (cr : CoordRegion) (k : Fq × Fq) (v : String) (h : NoBlueCR cr)
    (hv : v ≠ rBlue) : NoBlueCR (cset cr k v) := by
  intro k'
  by_cases hk : k' = k
  · rw [hk, cget, cset, upsert_get_same]
    simp only [Option.some_inj]
    exact hv
  · rw [cget, cset, upsert_get_other _ _ _ _ _ hk]
    exact h k'

theorem blueScan_nop (wb : Workbook) (blueSig : String) (cols : List ℕ) (st : GenState)
    (h : ∀ r ∈ rangeIncl 1 wb.maxRow, ∀ c ∈ cols, ¬ wb.color r c = some blueSig) :
    blueScan wb blueSig cols st = st := by
  rw [blueScan]
  apply @foldl_preserve _ _ (fun s => s = st) _ _ _ rfl
  intro st' r hst hr
  rw [hst]
  apply @foldl_preserve _ _ (fun s => s = st) _ _ _ rfl
  intro st2 c hst2 hc
  rw [hst2, blueCellStep, if_neg (h r hr c hc)]

theorem greyPhase_nop (wb : Workbook) (st : GenState) (h : wb.merged = []) :
    greyPhase wb st = st := by
  rw [greyPhase]
  apply @foldl_preserve _ _ (fun s => s = st) _ _ _ rfl
  intro st' band hst _
  rw [hst, greyBandStep, h]
  rfl

theorem segPhase_nop (wb : Workbook) (sig : String) (regionStr : String)
    (mkId : ℕ → ℕ → ℕ → PId) (st : GenState)
    (h : ∀ r ∈ rangeIncl 1 wb.maxRow,
      contiguous_segments_for_color wb r sig 1 (min wb.maxCol (colAIS - 1)) = []) :
    segPhase wb sig regionStr mkId st = st := by
  rw [segPhase]
  apply @foldl_preserve _ _ (fun s => s = st) _ _ _ rfl
  intro st' r hst hr
  rw [hst, segRowStep, h r hr]
  rfl

theorem sample_second (x_start x_end step : Fq) (hswap : ¬ x_end.lt x_start)
    (hle : (x_start.add step).le (x_end.add Fq.eps)) :
    ∃ t, sample_positions_including_end x_start x_end step =
      x_start :: (x_start.add step) :: t := by
  rw [sample_positions_including_end]
  simp only [if_neg hswap]
  rw [sampleFuel, sampleLoop, if_pos hle]
  by_cases hc : Fq.eps.lt
      (((x_start :: (x_start.add step) ::
          sampleLoop x_end step
            ((((x_end.add Fq.eps).sub x_start).num * ((step.den : ℕ) : ℤ)).natAbs)
            (x_start.add step)).getLastD x_start).sub x_end).absv
  · rw [if_pos hc]
    exact ⟨_, by rw [List.cons_append, List.cons_append]⟩
  · rw [if_neg hc]
    exact ⟨_, rfl⟩

def pPurple9 : PointData := mkPoint ⟨9, 0⟩ ⟨13, 0⟩ rPurple (PMeta.hRow 13)

def pGreen9 : PointData := mkPoint ⟨9, 0⟩ ⟨13, 0⟩ rGreen (PMeta.seg 13 1 10 10)

theorem aget_some_mem {α β : Type} [DecidableEq α] (m : List (α × β)) (k : α) (v : β)
    (h : aget m k = some v) : (k, v) ∈ m := by
  induction m with
  | nil => rw [aget_nil] at h; cases h
  | cons kv t ih =>
    rw [aget_cons] at h
    by_cases hk : kv.1 = k
    · rw [if_pos hk] at h
      have hv : kv.2 = v := Option.some_inj.mp h
      have : kv = (k, v) := Prod.ext hk hv
      rw [← this]
      exact List.mem_cons_self _ _
    · rw [if_neg hk] at h
      exact List.mem_cons_of_mem _ (ih h)

theorem noBlueCR_of_vals (cr : CoordRegion) (h : ∀ e ∈ cr, ¬ e.2 = rBlue) : NoBlueCR cr := by
  intro k hcon
  exact h (k, rBlue) (aget_some_mem cr k rBlue hcon) rfl

theorem enum_cons_cons {α : Type} (a b : α) (t : List α) :
    (a :: b :: t).enum = (0, a) :: (1, b) :: List.enumFrom 2 t := rfl

theorem purplePointStep_preserves (r : ℕ) (st : GenState) (ix : ℕ × Fq) (k : PId)
    (v : PointData) (h : (k, v) ∈ st.1) (hk : ¬ PId.PUH r ix.1 = k) (hnb : NoBlueCR st.2) :
    (k, v) ∈ (purplePointStep r st ix).1 ∧ NoBlueCR (purplePointStep r st ix).2 := by
  rw [purplePointStep]
  by_cases hg : cget st.2 (ix.2, Fq.ofNat r) = some rBlue
  · rw [if_pos hg]
    exact ⟨h, hnb⟩
  · rw [if_neg hg]
    refine ⟨dinsert_preserves _ _ _ _ _ h (fun hc => hk hc.symm), ?_⟩
    exact noBlueCR_cset _ _ _ hnb (by decide)

/-- After processing purple row 13 on the empty state, the node PUH_R013_0001
at exact coordinate (9.0, 13.0) has been generated, and coord_region holds no
blue entry. -/
theorem purple_row13_wb0 :
    (PId.PUH 13 1, pPurple9) ∈ (purpleRowStep wb0 sigP (([], []) : GenState) 13).1 ∧
    NoBlueCR (purpleRowStep wb0 sigP (([], []) : GenState) 13).2 := by
  rw [purpleRowStep]
  rw [if_neg (by decide)]
  have hswap : ¬ (Fq.ofNat (colAIL - 1)).lt (Fq.ofNat (colE - 1)) := by decide
  have hle : ((Fq.ofNat (colE - 1)).add (Fq.ofInt 5)).le ((Fq.ofNat (colAIL - 1)).add Fq.eps) := by
    decide
  obtain ⟨t, hxs⟩ := sample_second _ _ _ hswap hle
  show (PId.PUH 13 1, pPurple9) ∈ (List.foldl (purplePointStep 13) (([], []) : GenState)
      (sample_positions_including_end (Fq.ofNat (colE - 1)) (Fq.ofNat (colAIL - 1))
        (Fq.ofInt 5)).enum).1 ∧
    NoBlueCR (List.foldl (purplePointStep 13) (([], []) : GenState)
      (sample_positions_including_end (Fq.ofNat (colE - 1)) (Fq.ofNat (colAIL - 1))
        (Fq.ofInt 5)).enum).2
  rw [hxs, enum_cons_cons, List.foldl_cons, List.foldl_cons]
  set S2 := purplePointStep 13 (purplePointStep 13 (([], []) : GenState)
    (0, Fq.ofNat (colE - 1))) (1, (Fq.ofNat (colE - 1)).add (Fq.ofInt 5)) with hS2
  have hS2val : S2 = ([(PId.PUH 13 0, mkPoint ⟨4, 0⟩ ⟨13, 0⟩ rPurple (PMeta.hRow 13)),
      (PId.PUH 13 1, pPurple9)],
      [((⟨4, 0⟩, ⟨13, 0⟩), rPurple), ((⟨9, 0⟩, ⟨13, 0⟩), rPurple)]) := by
    rw [hS2]
    decide
  apply @foldl_preserve _ _ (fun s : GenState => (PId.PUH 13 1, pPurple9) ∈ s.1 ∧ NoBlueCR s.2)
  · constructor
    · rw [hS2val]
      exact List.mem_cons_of_mem _ (List.mem_cons_self _ _)
    · rw [hS2val]
      apply noBlueCR_of_vals
      intro e he
      rcases List.mem_cons.mp he with h1 | h1
      · rw [h1]; decide
      · rcases List.mem_cons.mp h1 with h2 | h2
        · rw [h2]; decide
        · cases h2
  · intro st' ix hst hix
    have hi : 2 ≤ ix.1 := enumFrom_fst_ge t 2 ix hix
    exact purplePointStep_preserves 13 st' ix _ _ hst.1
      (fun hc => by
        have : ix.1 = 1 := by injection hc
        omega) hst.2

theorem purpleRowStep_preserves (wb : Workbook) (purpleSig : String) (st : GenState) (r : ℕ)
    (k : PId) (v : PointData) (h : (k, v) ∈ st.1) (hnb : NoBlueCR st.2)
    (hk : ∀ i, ¬ PId.PUH r i = k) :
    (k, v) ∈ (purpleRowStep wb purpleSig st r).1 ∧ NoBlueCR (purpleRowStep wb purpleSig st r).2 := by
  rw [purpleRowStep]
  by_cases hc : wb.color r colE ≠ some purpleSig
  · rw [if_pos hc]
    exact ⟨h, hnb⟩
  · rw [if_neg hc]
    apply @foldl_preserve _ _ (fun s : GenState => (k, v) ∈ s.1 ∧ NoBlueCR s.2) _ _ _ ⟨h, hnb⟩
    intro st' ix hst _
    exact purplePointStep_preserves r st' ix _ _ hst.1 (hk ix.1) hst.2

/-- Full purple phase on wb0 from the empty state: the row-13 node at
(9.0, 13.0) is present and coord_region has no blue entry. -/
theorem purple_wb0 :
    (PId.PUH 13 1, pPurple9) ∈ (purplePhase wb0 sigP (([], []) : GenState)).1 ∧
    NoBlueCR (purplePhase wb0 sigP (([], []) : GenState)).2 := by
  rw [purplePhase]
  have hpr : purple_rows =
      13 :: [14, 15, 16, 22, 23, 24, 25, 226, 227, 228, 229, 235, 236, 237, 238] := by decide
  rw [hpr, List.foldl_cons]
  apply @foldl_preserve _ _
    (fun s : GenState => (PId.PUH 13 1, pPurple9) ∈ s.1 ∧ NoBlueCR s.2) _ _ _
  · exact purple_row13_wb0
  · intro st' r hst hr
    apply purpleRowStep_preserves wb0 sigP st' r _ _ hst.1 hst.2
    intro i hc
    injection hc with h1 h2
    rw [h1] at hr
    revert hr
    decide

theorem segPointStep_preserves (regionStr : String) (mkId : ℕ → ℕ → ℕ → PId) (r sIdx c1 c2 : ℕ)
    (st : GenState) (ix : ℕ × Fq) (k : PId) (v : PointData) (h : (k, v) ∈ st.1)
    (hk : ¬ mkId r sIdx ix.1 = k) (hnb : NoBlueCR st.2) (hreg : ¬ regionStr = rBlue) :
    (k, v) ∈ (segPointStep regionStr mkId r sIdx c1 c2 st ix).1 ∧
    NoBlueCR (segPointStep regionStr mkId r sIdx c1 c2 st ix).2 := by
  rw [segPointStep]
  by_cases hg : cget st.2 (ix.2, Fq.ofNat r) = some rBlue
  · rw [if_pos hg]
    exact ⟨h, hnb⟩
  · rw [if_neg hg]
    exact ⟨dinsert_preserves _ _ _ _ _ h (fun hc => hk hc.symm), noBlueCR_cset _ _ _ hnb hreg⟩

theorem segRowStep_preserves (wb : Workbook) (sig : String) (regionStr : String)
    (mkId : ℕ → ℕ → ℕ → PId) (st : GenState) (r : ℕ) (k : PId) (v : PointData)
    (h : (k, v) ∈ st.1) (hnb : NoBlueCR st.2) (hk : ∀ s i, ¬ mkId r s i = k)
    (hreg : ¬ regionStr = rBlue) :
    (k, v) ∈ (segRowStep wb sig regionStr mkId st r).1 ∧
    NoBlueCR (segRowStep wb sig regionStr mkId st r).2 := by
  rw [segRowStep]
  apply @foldl_preserve _ _ (fun s : GenState => (k, v) ∈ s.1 ∧ NoBlueCR s.2) _ _ _ ⟨h, hnb⟩
  intro st' sseg hst _
  rw [segSegStep]
  apply @foldl_preserve _ _ (fun s : GenState => (k, v) ∈ s.1 ∧ NoBlueCR s.2) _ _ _ hst
  intro st2 ix hst2 _
  exact segPointStep_preserves _ _ _ _ _ _ st2 ix k v hst2.1 (hk _ ix.1) hst2.2 hreg

theorem vertPointStep_preserves (mkId : ℕ → ℕ → ℕ → PId) (regionStr : String) (x col r1 r2 : ℕ)
    (st : GenState) (iy : ℕ × ℤ) (k : PId) (v : PointData) (h : (k, v) ∈ st.1)
    (hk : ¬ mkId x r1 iy.1 = k) (hnb : NoBlueCR st.2) (hreg : ¬ regionStr = rBlue) :
    (k, v) ∈ (vertPointStep mkId regionStr x col r1 r2 st iy).1 ∧
    NoBlueCR (vertPointStep mkId regionStr x col r1 r2 st iy).2 := by
  rw [vertPointStep]
  by_cases hg : cget st.2 (Fq.ofNat x, Fq.ofInt iy.2) = some rBlue
  · rw [if_pos hg]
    exact ⟨h, hnb⟩
  · rw [if_neg hg]
    exact ⟨dinsert_preserves _ _ _ _ _ h (fun hc => hk hc.symm), noBlueCR_cset _ _ _ hnb hreg⟩

theorem add_vertical_preserves (colFrom colTo : ℕ) (mkId : ℕ → ℕ → ℕ → PId)
    (regionStr : String) (stepV : ℤ) (st : GenState) (k : PId) (v : PointData)
    (h : (k, v) ∈ st.1) (hnb : NoBlueCR st.2) (hk : ∀ x r1 i, ¬ mkId x r1 i = k)
    (hreg : ¬ regionStr = rBlue) :
    (k, v) ∈ (add_vertical_points colFrom colTo mkId regionStr stepV st).1 ∧
    NoBlueCR (add_vertical_points colFrom colTo mkId regionStr stepV st).2 := by
  rw [add_vertical_points]
  apply @foldl_preserve _ _ (fun s : GenState => (k, v) ∈ s.1 ∧ NoBlueCR s.2) _ _ _ ⟨h, hnb⟩
  intro st' col hst _
  rw [vertColStep]
  apply @foldl_preserve _ _ (fun s : GenState => (k, v) ∈ s.1 ∧ NoBlueCR s.2) _ _ _ hst
  intro st2 rr hst2 _
  rw [vertRangeStep]
  apply @foldl_preserve _ _ (fun s : GenState => (k, v) ∈ s.1 ∧ NoBlueCR s.2) _ _ _ hst2
  intro st3 iy hst3 _
  exact vertPointStep_preserves _ _ _ _ _ _ st3 iy k v hst3.1 (hk _ _ iy.1) hst3.2 hreg

theorem segRowStep_nop (wb : Workbook) (sig : String) (regionStr : String)
    (mkId : ℕ → ℕ → ℕ → PId) (st : GenState) (r : ℕ)
    (h : contiguous_segments_for_color wb r sig 1 (min wb.maxCol (colAIS - 1)) = []) :
    segRowStep wb sig regionStr mkId st r = st := by
  rw [segRowStep, h]
  rfl

/-- Processing green row 13 of wb0 generates GN_R013_S01_0000 at the exact
coordinate (9.0, 13.0), while preserving existing points and the absence of
blue coord_region entries. -/
theorem green_row13_wb0 (st : GenState) (hnb : NoBlueCR st.2) :
    (PId.GN 13 1 0, pGreen9) ∈ (segRowStep wb0 sigG rGreen PId.GN st 13).1 ∧
    NoBlueCR (segRowStep wb0 sigG rGreen PId.GN st 13).2 ∧
    ∀ k v, (k, v) ∈ st.1 → (∀ s i, ¬ PId.GN 13 s i = k) →
      (k, v) ∈ (segRowStep wb0 sigG rGreen PId.GN st 13).1 := by
  have hsegs : contiguous_segments_for_color wb0 13 sigG 1 (min wb0.maxCol (colAIS - 1)) =
      [(10, 10)] := by decide
  have hxs : sample_positions_including_end (Fq.ofNat (10 - 1)) (Fq.ofNat (10 - 1))
      (Fq.ofInt 5) = [⟨9, 0⟩] := by decide
  have hrw : segRowStep wb0 sigG rGreen PId.GN st 13 =
      segPointStep rGreen PId.GN 13 1 10 10 st (0, ⟨9, 0⟩) := by
    rw [segRowStep, hsegs]
    show List.foldl (segSegStep rGreen PId.GN 13) st [(0, (10, 10))] =
      segPointStep rGreen PId.GN 13 1 10 10 st (0, ⟨9, 0⟩)
    rw [List.foldl_cons, List.foldl_nil, segSegStep]
    show List.foldl (segPointStep rGreen PId.GN 13 1 10 10) st
      (sample_positions_including_end (Fq.ofNat (10 - 1)) (Fq.ofNat (10 - 1))
        (Fq.ofInt 5)).enum = _
    rw [hxs]
    rfl
  have hguard : ¬ cget st.2 (⟨9, 0⟩, Fq.ofNat 13) = some rBlue := hnb _
  have hstep : segPointStep rGreen PId.GN 13 1 10 10 st (0, ⟨9, 0⟩) =
      (dinsert st.1 (PId.GN 13 1 0) pGreen9, cset st.2 (⟨9, 0⟩, Fq.ofNat 13) rGreen) := by
    rw [segPointStep]
    rw [if_neg hguard]
    rfl
  refine ⟨?_, ?_, ?_⟩
  · rw [hrw, hstep]
    exact dinsert_mem_self _ _ _
  · rw [hrw, hstep]
    exact noBlueCR_cset _ _ _ hnb (by decide)
  · intro k v hkv hk
    rw [hrw, hstep]
    exact dinsert_preserves _ _ _ _ _ hkv (fun hc => hk 1 0 hc.symm)

/-- C1 counterexample core fact: on wb0, after the full node-generation
phase, two distinct nodes (one purple, one green) occupy the exact
coordinate (9.0, 13.0). -/
theorem genPhase_wb0_two_nodes :
    (PId.PUH 13 1, pPurple9) ∈ (genPhase wb0 sigP sigB sigO sigG).1 ∧
    (PId.GN 13 1 0, pGreen9) ∈ (genPhase wb0 sigP sigB sigO sigG).1 := by
  have hblue1 : ∀ r ∈ rangeIncl 1 wb0.maxRow, ∀ c ∈ rangeIncl 1 (colAIS - 1),
      ¬ wb0.color r c = some sigB := by
    intro r hr c hc
    rw [mem_rangeIncl] at hr
    have hr13 : r ≤ 13 := hr.2
    show ¬ (if r = 13 ∧ c = 5 then some sigP
        else if r = 28 ∧ c = 1 then some sigB
        else if r = 28 ∧ c = 5 then some sigO
        else if r = 120 ∧ c = 5 then some sigG
        else if r = 13 ∧ c = 10 then some sigG
        else none) = some sigB
    split_ifs with h1 h2 h3 h4 h5
    · intro hcon
      exact absurd (Option.some_inj.mp hcon) (by decide)
    · omega
    · omega
    · omega
    · intro hcon
      exact absurd (Option.some_inj.mp hcon) (by decide)
    · intro hcon
      cases hcon
  have hblue2 : ∀ r ∈ rangeIncl 1 wb0.maxRow, ∀ c ∈ rangeIncl colAIS colAIV,
      ¬ wb0.color r c = some sigB := by
    intro r hr c hc
    rw [mem_rangeIncl] at hr
    rw [mem_rangeIncl] at hc
    have hr13 : r ≤ 13 := hr.2
    have hc2 : 929 ≤ c := hc.1
    show ¬ (if r = 13 ∧ c = 5 then some sigP
        else if r = 28 ∧ c = 1 then some sigB
        else if r = 28 ∧ c = 5 then some sigO
        else if r = 120 ∧ c = 5 then some sigG
        else if r = 13 ∧ c = 10 then some sigG
        else none) = some sigB
    split_ifs with h1 h2 h3 h4 h5
    · omega
    · omega
    · omega
    · omega
    · omega
    · intro hcon
      cases hcon
  have horange : ∀ r ∈ rangeIncl 1 wb0.maxRow,
      contiguous_segments_for_color wb0 r sigO 1 (min wb0.maxCol (colAIS - 1)) = [] := by decide
  have hgreen12 : ∀ r ∈ rangeIncl 1 12,
      contiguous_segments_for_color wb0 r sigG 1 (min wb0.maxCol (colAIS - 1)) = [] := by decide
  have hgen : genPhase wb0 sigP sigB sigO sigG =
      add_vertical_points colAIY colAIY PId.GYV rGrey 2
        (add_vertical_points colAJB colAJE PId.PUVDN rPurple 5
          (add_vertical_points colAIU colAIV PId.PUVDN rPurple 5
            (add_vertical_points colAIS colAIT PId.PUVUP rPurple 5
              (segPhase wb0 sigG rGreen PId.GN
                (purplePhase wb0 sigP ([], [])))))) := by
    rw [genPhase]
    rw [blueScan_nop wb0 sigB _ _ hblue1, blueScan_nop wb0 sigB _ _ hblue2]
    rw [greyPhase_nop wb0 _ rfl]
    rw [segPhase_nop wb0 sigO rOrange PId.OR _ horange]
  obtain ⟨hmemP, hnb3⟩ := purple_wb0
  set st3 := purplePhase wb0 sigP (([], []) : GenState) with hst3
  have hsplit : rangeIncl 1 wb0.maxRow = rangeIncl 1 12 ++ [13] := by decide
  have hseg : segPhase wb0 sigG rGreen PId.GN st3 = segRowStep wb0 sigG rGreen PId.GN st3 13 := by
    rw [segPhase, hsplit, List.foldl_append]
    have h12 : List.foldl (segRowStep wb0 sigG rGreen PId.GN) st3 (rangeIncl 1 12) = st3 := by
      apply @foldl_preserve _ _ (fun s : GenState => s = st3) _ _ _ rfl
      intro st' r hst hr
      rw [hst]
      exact segRowStep_nop _ _ _ _ _ _ (hgreen12 r hr)
    rw [h12, List.foldl_cons, List.foldl_nil]
  obtain ⟨hmemG, hnb6, hpres⟩ := green_row13_wb0 st3 hnb3
  have hmemP6 : (PId.PUH 13 1, pPurple9) ∈ (segRowStep wb0 sigG rGreen PId.GN st3 13).1 :=
    hpres _ _ hmemP (fun s i hc => by cases hc)
  rw [hgen, hseg]
  have hv1 := add_vertical_preserves colAIS colAIT PId.PUVUP rPurple 5 _ _ _ hmemP6 hnb6
    (fun x r1 i hc => by cases hc) (by decide)
  have hv1g := add_vertical_preserves colAIS colAIT PId.PUVUP rPurple 5 _ _ _ hmemG hnb6
    (fun x r1 i hc => by cases hc) (by decide)
  have hv2 := add_vertical_preserves colAIU colAIV PId.PUVDN rPurple 5 _ _ _ hv1.1 hv1.2
    (fun x r1 i hc => by cases hc) (by decide)
  have hv2g := add_vertical_preserves colAIU colAIV PId.PUVDN rPurple 5 _ _ _ hv1g.1 hv1g.2
    (fun x r1 i hc => by cases hc) (by decide)
  have hv3 := add_vertical_preserves colAJB colAJE PId.PUVDN rPurple 5 _ _ _ hv2.1 hv2.2
    (fun x r1 i hc => by cases hc) (by decide)
  have hv3g := add_vertical_preserves colAJB colAJE PId.PUVDN rPurple 5 _ _ _ hv2g.1 hv2g.2
    (fun x r1 i hc => by cases hc) (by decide)
  have hv4 := add_vertical_preserves colAIY colAIY PId.GYV rGrey 2 _ _ _ hv3.1 hv3.2
    (fun x r1 i hc => by cases hc) (by decide)
  have hv4g := add_vertical_preserves colAIY colAIY PId.GYV rGrey 2 _ _ _ hv3g.1 hv3g.2
    (fun x r1 i hc => by cases hc) (by decide)
  exact ⟨hv4.1, hv4g.1⟩

/- ---------------------------------------------------------------------
The amended C1 property: the generation phase enforces priority for the
blue region only.  No node of another region is ever created at a
coordinate occupied by a blue node, and blue nodes never share a
coordinate; nothing prevents two non-blue regions from sharing one.
--------------------------------------------------------------------- -/

def BluePriority (pts : Points) : Prop :=
  ∀ a pa b pb, (a, pa) ∈ pts → (b, pb) ∈ pts → ¬ a = b → pa.x = pb.x → pa.y = pb.y →
    ¬ pa.region = rBlue ∧ ¬ pb.region = rBlue

def BlueMarked (pts : Points) (cr : CoordRegion) : Prop :=
  ∀ a pa, (a, pa) ∈ pts → pa.region = rBlue → cget cr (pa.x, pa.y) = some rBlue

theorem Fq.ofNat_inj (m n : ℕ) (h : Fq.ofNat m = Fq.ofNat n) : m = n := by
  have h1 : (m : ℤ) = (n : ℤ) := congrArg Fq.num h
  exact_mod_cast h1

def GInv (st : GenState) : Prop :=
  BluePriority st.1 ∧ BlueMarked st.1 st.2 ∧ NodupKeys st.1

theorem guardedInsert_inv (st : GenState) (pid : PId) (p : PointData)
    (hreg : ¬ p.region = rBlue) (hguard : ¬ cget st.2 (p.x, p.y) = some rBlue)
    (hinv : GInv st) :
    GInv (dinsert st.1 pid p, cset st.2 (p.x, p.y) p.region) := by
  obtain ⟨hbp, hbm, hnk⟩ := hinv
  refine ⟨?_, ?_, upsert_nodupkeys _ _ _ _ hnk⟩
  · intro a pa b pb ha hb hne hx hy
    rcases upsert_mem _ _ _ _ _ _ ha with ha1 | ⟨hak, hav⟩ <;>
      rcases upsert_mem _ _ _ _ _ _ hb with hb1 | ⟨hbk, hbv⟩
    · exact hbp a pa b pb ha1 hb1 hne hx hy
    · have hpb : pb = p := by
        rcases hbv with h1 | ⟨v, _, h1⟩ <;> exact h1
      have hpa_nb : ¬ pa.region = rBlue := by
        intro hblue
        apply hguard
        have := hbm a pa ha1 hblue
        rw [hpb] at hx hy
        rw [← hx, ← hy]
        exact this
      rw [hpb]
      exact ⟨hpa_nb, hreg⟩
    · have hpa : pa = p := by
        rcases hav with h1 | ⟨v, _, h1⟩ <;> exact h1
      have hpb_nb : ¬ pb.region = rBlue := by
        intro hblue
        apply hguard
        have := hbm b pb hb1 hblue
        rw [hpa] at hx hy
        rw [hx, hy]
        exact this
      rw [hpa]
      exact ⟨hreg, hpb_nb⟩
    · exfalso
      exact hne (hak.trans hbk.symm)
  · intro a pa ha hblue
    rcases upsert_mem _ _ _ _ _ _ ha with ha1 | ⟨hak, hav⟩
    · have hold := hbm a pa ha1 hblue
      by_cases hk : ((pa.x, pa.y) : Fq × Fq) = (p.x, p.y)
      · exfalso
        apply hguard
        rw [← hk]
        exact hold
      · rw [cget, cset, upsert_get_other _ _ _ _ _ hk]
        exact hold
    · exfalso
      apply hreg
      have hpa : pa = p := by
        rcases hav with h1 | ⟨v, _, h1⟩ <;> exact h1
      rw [← hpa]
      exact hblue

theorem rPurple_ne_rBlue : ¬ rPurple = rBlue := by decide

theorem rGrey_ne_rBlue : ¬ rGrey = rBlue := by decide

theorem purplePointStep_inv (r : ℕ) (st : GenState) (ix : ℕ × Fq) (hinv : GInv st) :
    GInv (purplePointStep r st ix) := by
  rw [purplePointStep]
  by_cases hg : cget st.2 (ix.2, Fq.ofNat r) = some rBlue
  · rw [if_pos hg]
    exact hinv
  · rw [if_neg hg]
    exact guardedInsert_inv st _ (mkPoint ix.2 (Fq.ofNat r) rPurple (PMeta.hRow r))
      rPurple_ne_rBlue hg hinv

theorem greyPointStep_inv (bandY : ℕ) (st : GenState) (ix : ℕ × Fq) (hinv : GInv st) :
    GInv (greyPointStep bandY st ix) := by
  rw [greyPointStep]
  by_cases hg : cget st.2 (ix.2, Fq.ofNat bandY) = some rBlue
  · rw [if_pos hg]
    exact hinv
  · rw [if_neg hg]
    exact guardedInsert_inv st _ (mkPoint ix.2 (Fq.ofNat bandY) rGrey (PMeta.hBand bandY))
      rGrey_ne_rBlue hg hinv

theorem segPointStep_inv (regionStr : String) (mkId : ℕ → ℕ → ℕ → PId) (r sIdx c1 c2 : ℕ)
    (st : GenState) (ix : ℕ × Fq) (hreg : ¬ regionStr = rBlue) (hinv : GInv st) :
    GInv (segPointStep regionStr mkId r sIdx c1 c2 st ix) := by
  rw [segPointStep]
  by_cases hg : cget st.2 (ix.2, Fq.ofNat r) = some rBlue
  · rw [if_pos hg]
    exact hinv
  · rw [if_neg hg]
    exact guardedInsert_inv st _ (mkPoint ix.2 (Fq.ofNat r) regionStr (PMeta.seg r sIdx c1 c2))
      hreg hg hinv

theorem vertPointStep_inv (mkId : ℕ → ℕ → ℕ → PId) (regionStr : String) (x col r1 r2 : ℕ)
    (st : GenState) (iy : ℕ × ℤ) (hreg : ¬ regionStr = rBlue) (hinv : GInv st) :
    GInv (vertPointStep mkId regionStr x col r1 r2 st iy) := by
  rw [vertPointStep]
  by_cases hg : cget st.2 (Fq.ofNat x, Fq.ofInt iy.2) = some rBlue
  · rw [if_pos hg]
    exact hinv
  · rw [if_neg hg]
    exact guardedInsert_inv st _
      (mkPoint (Fq.ofNat x) (Fq.ofInt iy.2) regionStr (PMeta.vert col r1 r2)) hreg hg hinv

theorem purplePhase_inv (wb : Workbook) (purpleSig : String) (st : GenState) (hinv : GInv st) :
    GInv (purplePhase wb purpleSig st) := by
  rw [purplePhase]
  apply @foldl_preserve _ _ GInv _ _ _ hinv
  intro st' r hst _
  rw [purpleRowStep]
  by_cases hc : wb.color r colE ≠ some purpleSig
  · rw [if_pos hc]
    exact hst
  · rw [if_neg hc]
    apply @foldl_preserve _ _ GInv _ _ _ hst
    intro st2 ix hst2 _
    exact purplePointStep_inv r st2 ix hst2

theorem greyPhase_inv (wb : Workbook) (st : GenState) (hinv : GInv st) :
    GInv (greyPhase wb st) := by
  rw [greyPhase]
  apply @foldl_preserve _ _ GInv _ _ _ hinv
  intro st' band hst _
  rw [greyBandStep]
  cases hmx : wb.merged.foldl _ none with
  | none => exact hst
  | some mx =>
    apply @foldl_preserve _ _ GInv _ _ _ hst
    intro st2 ix hst2 _
    exact greyPointStep_inv band.y st2 ix hst2

theorem segPhase_inv (wb : Workbook) (sig : String) (regionStr : String)
    (mkId : ℕ → ℕ → ℕ → PId) (st : GenState) (hreg : ¬ regionStr = rBlue) (hinv : GInv st) :
    GInv (segPhase wb sig regionStr mkId st) := by
  rw [segPhase]
  apply @foldl_preserve _ _ GInv _ _ _ hinv
  intro st' r hst _
  rw [segRowStep]
  apply @foldl_preserve _ _ GInv _ _ _ hst
  intro st2 sseg hst2 _
  rw [segSegStep]
  apply @foldl_preserve _ _ GInv _ _ _ hst2
  intro st3 ix hst3 _
  exact segPointStep_inv regionStr mkId r _ _ _ st3 ix hreg hst3

theorem add_vertical_inv (colFrom colTo : ℕ) (mkId : ℕ → ℕ → ℕ → PId) (regionStr : String)
    (stepV : ℤ) (st : GenState) (hreg : ¬ regionStr = rBlue) (hinv : GInv st) :
    GInv (add_vertical_points colFrom colTo mkId regionStr stepV st) := by
  rw [add_vertical_points]
  apply @foldl_preserve _ _ GInv _ _ _ hinv
  intro st' col hst _
  rw [vertColStep]
  apply @foldl_preserve _ _ GInv _ _ _ hst
  intro st2 rr hst2 _
  rw [vertRangeStep]
  apply @foldl_preserve _ _ GInv _ _ _ hst2
  intro st3 iy hst3 _
  exact vertPointStep_inv mkId regionStr _ _ rr.1 rr.2 st3 iy hreg hst3

def BInv (st : GenState) : Prop :=
  (∀ a pa, (a, pa) ∈ st.1 → ∃ r c, a = PId.BL r c ∧ 1 ≤ c ∧ pa.x = Fq.ofNat (c - 1) ∧
    pa.y = Fq.ofNat r ∧ pa.region = rBlue) ∧
  BlueMarked st.1 st.2 ∧ NodupKeys st.1

theorem blueCellStep_binv (wb : Workbook) (blueSig : String) (r : ℕ) (st : GenState) (c : ℕ)
    (hc : 1 ≤ c) (h : BInv st) : BInv (blueCellStep wb blueSig r st c) := by
  rw [blueCellStep]
  by_cases hcol : wb.color r c = some blueSig
  · rw [if_pos hcol]
    show BInv (dinsert st.1 (PId.BL r c) (mkPoint (Fq.ofNat (c - 1)) (Fq.ofNat r) rBlue
      (PMeta.cell r c)), cset st.2 (Fq.ofNat (c - 1), Fq.ofNat r) rBlue)
    obtain ⟨hshape, hbm, hnk⟩ := h
    refine ⟨?_, ?_, upsert_nodupkeys _ _ _ _ hnk⟩
    · intro a pa ha
      rcases upsert_mem _ _ _ _ _ _ ha with ha1 | ⟨hak, hav⟩
      · exact hshape a pa ha1
      · have hpa : pa = mkPoint (Fq.ofNat (c - 1)) (Fq.ofNat r) rBlue (PMeta.cell r c) := by
          rcases hav with h1 | ⟨v, _, h1⟩ <;> exact h1
        exact ⟨r, c, hak, hc, by rw [hpa]; rfl, by rw [hpa]; rfl, by rw [hpa]; rfl⟩

    · intro a pa ha hblue
      rcases upsert_mem _ _ _ _ _ _ ha with ha1 | ⟨hak, hav⟩
      · have hold := hbm a pa ha1 hblue
        by_cases hk : ((pa.x, pa.y) : Fq × Fq) = (Fq.ofNat (c - 1), Fq.ofNat r)
        · rw [hk, cget, cset, upsert_get_same]
        · rw [cget, cset, upsert_get_other _ _ _ _ _ hk]
          exact hold
      · have hpa : pa = mkPoint (Fq.ofNat (c - 1)) (Fq.ofNat r) rBlue (PMeta.cell r c) := by
          rcases hav with h1 | ⟨v, _, h1⟩ <;> exact h1
        rw [hpa]
        show aget (upsert st.2 (Fq.ofNat (c - 1), Fq.ofNat r) (fun _ => rBlue) rBlue)
          (Fq.ofNat (c - 1), Fq.ofNat r) = some rBlue
        rw [upsert_get_same]
  · rw [if_neg hcol]
    exact h

theorem blueScan_binv (wb : Workbook) (blueSig : String) (cols : List ℕ) (st : GenState)
    (hcols : ∀ c ∈ cols, 1 ≤ c) (h : BInv st) : BInv (blueScan wb blueSig cols st) := by
  rw [blueScan]
  apply @foldl_preserve _ _ BInv _ _ _ h
  intro st' r hst _
  apply @foldl_preserve _ _ BInv _ _ _ hst
  intro st2 c hst2 hcm
  exact blueCellStep_binv wb blueSig r st2 c (hcols c hcm) hst2

theorem BInv_to_GInv (st : GenState) (h : BInv st) : GInv st := by
  obtain ⟨hshape, hbm, hnk⟩ := h
  refine ⟨?_, hbm, hnk⟩
  intro a pa b pb ha hb hne hx hy
  exfalso
  obtain ⟨r, c, hak, hc1, hax, hay, _⟩ := hshape a pa ha
  obtain ⟨r', c', hbk, hc1b, hbx, hby, _⟩ := hshape b pb hb
  apply hne
  have hcc : c - 1 = c' - 1 := Fq.ofNat_inj _ _ (by rw [← hax, ← hbx, hx])
  have hrr : r = r' := Fq.ofNat_inj _ _ (by rw [← hay, ← hby, hy])
  have hcc2 : c = c' := by omega
  rw [hak, hbk, hrr, hcc2]

theorem BInv_nil : BInv (([], []) : GenState) := by
  refine ⟨?_, ?_, ?_⟩
  · intro a pa ha
    cases ha
  · intro a pa ha
    cases ha
  · simp [NodupKeys, keysOf]

theorem genPhase_inv (wb : Workbook) (ps bs os gs : String) :
    GInv (genPhase wb ps bs os gs) := by
  rw [genPhase]
  have h1 : BInv (blueScan wb bs (rangeIncl 1 (colAIS - 1)) ([], [])) := by
    apply blueScan_binv _ _ _ _ _ BInv_nil
    intro c hcm
    exact ((mem_rangeIncl _ _ _).mp hcm).1
  have h2 : BInv (blueScan wb bs (rangeIncl colAIS colAIV)
      (blueScan wb bs (rangeIncl 1 (colAIS - 1)) ([], []))) := by
    apply blueScan_binv _ _ _ _ _ h1
    intro c hcm
    have := ((mem_rangeIncl _ _ _).mp hcm).1
    have hh : 1 ≤ colAIS := by decide
    omega
  have hg2 := BInv_to_GInv _ h2
  have hg3 := purplePhase_inv wb ps _ hg2
  have hg4 := greyPhase_inv wb _ hg3
  have hg5 := segPhase_inv wb os rOrange PId.OR _ (by decide) hg4
  have hg6 := segPhase_inv wb gs rGreen PId.GN _ (by decide) hg5
  have hg7 := add_vertical_inv colAIS colAIT PId.PUVUP rPurple 5 _ rPurple_ne_rBlue hg6
  have hg8 := add_vertical_inv colAIU colAIV PId.PUVDN rPurple 5 _ rPurple_ne_rBlue hg7
  have hg9 := add_vertical_inv colAJB colAJE PId.PUVDN rPurple 5 _ rPurple_ne_rBlue hg8
  exact add_vertical_inv colAIY colAIY PId.GYV rGrey 2 _ rGrey_ne_rBlue hg9

/-- Boolean check of the amended C1 property over a point list: any two
nodes at the same exact coordinate are both non-blue. -/
def bluePriorityB : Points → Bool
  | [] => true
  | kp :: rest =>
    (rest.all (fun kq => decide (kp.2.x = kq.2.x ∧ kp.2.y = kq.2.y →
      ¬ kp.2.region = rBlue ∧ ¬ kq.2.region = rBlue))) && bluePriorityB rest

theorem bluePriorityB_of (pts : Points) (hn : NodupKeys pts) (hbp : BluePriority pts) :
    bluePriorityB pts = true := by
  induction pts with
  | nil => rfl
  | cons kp rest ih =>
    rw [bluePriorityB, Bool.and_eq_true]
    rw [NodupKeys, keysOf, List.map_cons, List.nodup_cons] at hn
    constructor
    · apply List.all_eq_true.mpr
      intro kq hkq
      apply decide_eq_true
      intro ⟨hx, hy⟩
      have hne : ¬ kp.1 = kq.1 := by
        intro hcon
        apply hn.1
        rw [hcon]
        exact List.mem_map.mpr ⟨kq, hkq, rfl⟩
      exact hbp kp.1 kp.2 kq.1 kq.2 (List.mem_cons_self _ _)
        (List.mem_cons_of_mem _ hkq) hne hx hy
    · apply ih hn.2
      intro a pa b pb ha hb hne hx hy
      exact hbp a pa b pb (List.mem_cons_of_mem _ ha) (List.mem_cons_of_mem _ hb) hne hx hy

/-- C1 counterexample: the frozen claim asserts at most one node per exact
coordinate with full region-priority resolution; on the workbook wb0 the
generation phase creates both a purple node and a green node at the exact
coordinate (9.0, 13.0), because non-blue regions only check for blue
occupancy.  The at-most-one-node-per-coordinate checker therefore returns
false after the node-generation phase. -/
theorem c1_counterexample : coordsDistinctB (genPhase wb0 sigP sigB sigO sigG).1 = false := by
  obtain ⟨h1, h2⟩ := genPhase_wb0_two_nodes
  exact coordsDistinctB_false_of _ _ _ _ _ h1 h2 (by decide) rfl rfl

/-- C1 (amended): after the node-generation phase, priority is enforced for
the blue region only: no node of any other region occupies the exact
coordinate of a blue node (lower-priority regions skip coordinates already
claimed by blue, which is generated first), and no two blue nodes share a
coordinate; two non-blue regions may both occupy one coordinate. -/
theorem c1_blue_priority (wb : Workbook) (ps bs os gs : String) :
    bluePriorityB (genPhase wb ps bs os gs).1 = true := by
  have h := genPhase_inv wb ps bs os gs
  exact bluePriorityB_of _ h.2.2 h.1

/- ---------------------------------------------------------------------
Claim C2: sampler postcondition.
--------------------------------------------------------------------- -/

/-- C2 counterexample: the claim asserts the float sampler's last element
equals end exactly.  With start 0 < end 2 and pitch 1 - 1e-10 > 0, the last
accumulated value 2 - 2e-10 lies within the 1e-9 tolerance of end, so end is
not appended and the returned last element differs numerically from end. -/
theorem c2_counterexample :
    (Fq.ofInt 0).lt (Fq.ofInt 2) ∧ (Fq.ofInt 0).lt (⟨9999999999, 9999999999⟩ : Fq) ∧
    ¬ ((sample_positions_including_end (Fq.ofInt 0) (Fq.ofInt 2)
        (⟨9999999999, 9999999999⟩ : Fq)).getLastD (Fq.ofInt 0)).eqv (Fq.ofInt 2) := by decide

/-- C2 (amended): for start < end and pitch > 0, both samplers return a
sequence that starts at start, is strictly increasing, and has every
consecutive gap at most pitch; the float variant's last element equals end
up to the 1e-9 tolerance (exactly end whenever no accumulated point falls
within 1e-9 of end), while the integer variant's last element equals end
exactly. -/
theorem c2_sampler_spec (x_start x_end step : Fq) (a e st : ℤ)
    (h1 : x_start.lt x_end) (h2 : (Fq.ofInt 0).lt step) (h3 : a < e) (h4 : 0 < st) :
    ((sample_positions_including_end x_start x_end step).head? = some x_start ∧
     List.Chain' (fun u v => u.lt v ∧ (v.sub u).le step)
       (sample_positions_including_end x_start x_end step) ∧
     (((sample_positions_including_end x_start x_end step).getLastD x_start).sub x_end).absv.le
       Fq.eps) ∧
    ((sample_int_positions_including_end a e st).head? = some a ∧
     List.Chain' (fun u v => u < v ∧ v - u ≤ st) (sample_int_positions_including_end a e st) ∧
     (sample_int_positions_including_end a e st).getLastD a = e) :=
  ⟨sample_spec x_start x_end step h1 h2, sample_int_spec a e st h3 h4⟩

/-- Witness for c2_sampler_spec at start 0, end 2, pitch 1 (both variants). -/
theorem c2_sampler_spec_witness :
    ((Fq.ofInt 0).lt (Fq.ofInt 2) ∧ (Fq.ofInt 0).lt (Fq.ofInt 1) ∧ (0:ℤ) < 2 ∧ (0:ℤ) < 1) ∧
    (((sample_positions_including_end (Fq.ofInt 0) (Fq.ofInt 2) (Fq.ofInt 1)).head? =
        some (Fq.ofInt 0) ∧
      List.Chain' (fun u v => u.lt v ∧ (v.sub u).le (Fq.ofInt 1))
        (sample_positions_including_end (Fq.ofInt 0) (Fq.ofInt 2) (Fq.ofInt 1)) ∧
      (((sample_positions_including_end (Fq.ofInt 0) (Fq.ofInt 2) (Fq.ofInt 1)).getLastD
          (Fq.ofInt 0)).sub (Fq.ofInt 2)).absv.le Fq.eps) ∧
     ((sample_int_positions_including_end 0 2 1).head? = some 0 ∧
      List.Chain' (fun u v => u < v ∧ v - u ≤ 1) (sample_int_positions_including_end 0 2 1) ∧
      (sample_int_positions_including_end 0 2 1).getLastD 0 = 2)) :=
  ⟨by decide, c2_sampler_spec (Fq.ofInt 0) (Fq.ofInt 2) (Fq.ofInt 1) 0 2 1
    (by decide) (by decide) (by decide) (by decide)⟩

/- ---------------------------------------------------------------------
Connectivity phase (lines 312-1006).

next_map : Dict[str, Set[str]] is an association list from id to its
outgoing set, the set being a duplicate-free list in insertion order.
pidStr reproduces the exact Python f-string id formats, used where the
code orders ids as strings (the best_blue_to_purple tie-break and the
final sorted next lists); string order is code-point lexicographic.
--------------------------------------------------------------------- -/

def padN (w : ℕ) (n : ℕ) : String :=
  let s := Nat.repr n
  String.mk (List.replicate (w - s.length) '0') ++ s

def pidStr : PId → String
  | .BL r c => "BL_R" ++ padN 3 r ++ "_C" ++ padN 4 c
  | .PUH r i => "PUH_R" ++ padN 3 r ++ "_" ++ padN 4 i
  | .GYH y i => "GYH_Y" ++ Nat.repr y ++ "_" ++ padN 4 i
  | .OR r s i => "OR_R" ++ padN 3 r ++ "_S" ++ padN 2 s ++ "_" ++ padN 4 i
  | .GN r s i => "GN_R" ++ padN 3 r ++ "_S" ++ padN 2 s ++ "_" ++ padN 4 i
  | .PUVUP x r1 i => "PUVUP_X" ++ padN 4 x ++ "_R" ++ padN 3 r1 ++ "_" ++ padN 3 i
  | .PUVDN x r1 i => "PUVDN_X" ++ padN 4 x ++ "_R" ++ padN 3 r1 ++ "_" ++ padN 3 i
  | .GYV x r1 i => "GYV_X" ++ padN 4 x ++ "_R" ++ padN 3 r1 ++ "_" ++ padN 3 i

def charLtB : List Char → List Char → Bool
  | [], [] => false
  | [], _ :: _ => true
  | _ :: _, [] => false
  | a :: as, b :: bs =>
    if a.toNat < b.toNat then true else if b.toNat < a.toNat then false else charLtB as bs

def charLeB : List Char → List Char → Bool
  | [], _ => true
  | _ :: _, [] => false
  | a :: as, b :: bs =>
    if a.toNat < b.toNat then true else if b.toNat < a.toNat then false else charLeB as bs

def strLtB (a b : String) : Bool := charLtB a.data b.data

def strLeB (a b : String) : Bool := charLeB a.data b.data

def pidLe (a b : PId) : Prop := strLeB (pidStr a) (pidStr b) = true

instance (a b : PId) : Decidable (pidLe a b) := by unfold pidLe; infer_instance

abbrev NextMap : Type := List (PId × List PId)

def nmAdd (nm : NextMap) (a b : PId) : NextMap :=
  upsert nm a (fun s => if b ∈ s then s else s ++ [b]) []

def add_edge (nm : NextMap) (a : PId) (b : Option PId) : NextMap :=
  match b with
  | none => nm
  | some bv => nmAdd nm a bv

def nmGet (nm : NextMap) (a : PId) : List PId := (aget nm a).getD []

abbrev RowIdx : Type := List (ℤ × List (Fq × PId))

abbrev ColIdx : Type := List (ℤ × List (ℤ × PId))

def rowIdxInsert (idx : RowIdx) (r : ℤ) (x : Fq) (pid : PId) : RowIdx :=
  upsert idx r (fun inner => upsert inner x (fun _ => pid) pid) []

def build_row_index (pts : Points) (region : String) : RowIdx :=
  pts.foldl (fun idx kp =>
    if kp.2.region = region ∧ (kp.2.meta.kind = "h" ∨ kp.2.meta.kind = "seg") then
      rowIdxInsert idx (pyRound kp.2.y) kp.2.x kp.1
    else idx) []

def PMeta.segIdxOf : PMeta → ℕ
  | .seg _ s _ _ => s
  | _ => 0

def build_rowseg_index (pts : Points) (region : String) : List ((ℤ × ℕ) × List PId) :=
  let tmp := pts.foldl (fun tmp kp =>
    if kp.2.region = region ∧ kp.2.meta.kind = "seg" then
      upsert tmp ((pyRound kp.2.y, kp.2.meta.segIdxOf) : ℤ × ℕ)
        (fun l => l ++ [(kp.2.x, kp.1)]) []
    else tmp) ([] : List ((ℤ × ℕ) × List (Fq × PId)))
  tmp.map (fun kv =>
    (kv.1, (List.insertionSort (fun a b => Fq.le a.1 b.1) kv.2).map Prod.snd))

def build_col_index (pts : Points) (region : String) : ColIdx :=
  pts.foldl (fun idx kp =>
    if kp.2.region = region ∧ kp.2.meta.kind = "v" then
      upsert idx (pyRound kp.2.x)
        (fun inner => upsert inner (pyRound kp.2.y) (fun _ => kp.1) kp.1) []
    else idx) []

def ordered_in_row (idx : RowIdx) (row : ℤ) : List (Fq × PId) :=
  List.insertionSort (fun a b => Fq.le a.1 b.1) ((aget idx row).getD [])

def ordered_in_col (idx : ColIdx) (x : ℤ) : List (ℤ × PId) :=
  List.insertionSort (fun a b => a.1 ≤ b.1) ((aget idx x).getD [])

def rangeInclZ (a b : ℕ) : List ℤ := (rangeIncl a b).map (fun n => (n : ℤ))

def connect_purple_rows (idx : RowIdx) (rows : List ℤ) (direction : String) (nm : NextMap) :
    NextMap :=
  rows.foldl (fun nm r =>
    let ordered := ordered_in_row idx r
    if ordered.length < 2 then nm
    else if direction = "right" then
      (ordered.zip ordered.tail).foldl (fun nm ab => add_edge nm ab.1.2 (some ab.2.2)) nm
    else
      (ordered.tail.zip ordered).foldl (fun nm ab => add_edge nm ab.1.2 (some ab.2.2)) nm) nm

def lane_change (idx : RowIdx) (rFrom rTo : ℤ) (allow : Bool) (nm : NextMap) : NextMap :=
  match allow with
  | false => nm
  | true =>
    let a := (aget idx rFrom).getD []
    let b := (aget idx rTo).getD []
    if a = [] ∨ b = [] then nm
    else
      a.foldl (fun nm xp =>
        match aget b xp.1 with
        | some pid2 => add_edge nm xp.2 (some pid2)
        | none => nm) nm

def purpleLaneBlock (idx : RowIdx) (nm : NextMap) : NextMap :=
  let nm := (rangeInclZ 13 15).foldl (fun nm r =>
    lane_change idx (r + 1) r true (lane_change idx r (r + 1) true nm)) nm
  let nm := lane_change idx 22 23 true nm
  let nm := lane_change idx 23 22 true nm
  let nm := lane_change idx 23 24 true nm
  let nm := lane_change idx 24 23 true nm
  let nm := lane_change idx 24 25 true nm
  let nm := lane_change idx 25 24 true nm
  let nm := lane_change idx 226 227 true nm
  let nm := lane_change idx 227 226 true nm
  let nm := lane_change idx 228 229 true nm
  let nm := lane_change idx 229 228 true nm
  let nm := lane_change idx 227 228 true nm
  let nm := lane_change idx 228 227 true nm
  (rangeInclZ 235 237).foldl (fun nm r =>
    lane_change idx (r + 1) r true (lane_change idx r (r + 1) true nm)) nm

def og_dir (row : ℤ) : String :=
  if row = 125 then "right" else if row ≥ 126 then "left" else "right"

def connect_segments (rowseg : List ((ℤ × ℕ) × List PId)) (dirFunc : ℤ → String)
    (nm : NextMap) : NextMap :=
  rowseg.foldl (fun nm kv =>
    if kv.2.length < 2 then nm
    else
      let d := dirFunc kv.1.1
      if d = "right" then
        (kv.2.zip kv.2.tail).foldl (fun nm ab => add_edge nm ab.1 (some ab.2)) nm
      else
        (kv.2.tail.zip kv.2).foldl (fun nm ab => add_edge nm ab.1 (some ab.2)) nm) nm

def build_row_x_index (pts : Points) (region : String) : RowIdx :=
  pts.foldl (fun out kp =>
    if kp.2.region = region ∧ kp.2.meta.kind = "seg" then
      rowIdxInsert out (pyRound kp.2.y) kp.2.x kp.1
    else out) []

def lane_change_og (rowX : RowIdx) (rFrom rTo : ℤ) (allow : Bool) (nm : NextMap) : NextMap :=
  match allow with
  | false => nm
  | true =>
    let a := (aget rowX rFrom).getD []
    let b := (aget rowX rTo).getD []
    if a = [] ∨ b = [] then nm
    else
      a.foldl (fun nm xp =>
        match aget b xp.1 with
        | some pid2 => add_edge nm xp.2 (some pid2)
        | none => nm) nm

def pyDedup {α : Type} [DecidableEq α] (l : List α) : List α :=
  l.foldl (fun out g => if g ∈ out then out else out ++ [g]) []

/-- Python iterates set objects; the set of int row keys is modelled as the
sorted duplicate-free list of keys (iteration order of int sets is not
specified by the language; only edge-set results are relied upon). -/
def allOgRows (oX gX : RowIdx) : List ℤ :=
  List.insertionSort (fun a b => a ≤ b) (pyDedup (keysOf oX ++ keysOf gX))

def ogAllow (r rTo : ℤ) : Bool :=
  if (r = 125 ∧ rTo = 126) ∨ (r = 126 ∧ rTo = 125) then false else true

def ogLaneStep (oX gX : RowIdx) (r : ℤ) (nm : NextMap) (rTo : ℤ) : NextMap :=
  if rTo ∈ allOgRows oX gX then
    lane_change_og gX r rTo (ogAllow r rTo) (lane_change_og oX r rTo (ogAllow r rTo) nm)
  else nm

def ogLaneBlock (oX gX : RowIdx) (nm : NextMap) : NextMap :=
  (allOgRows oX gX).foldl (fun nm r =>
    ([r - 1, r + 1] : List ℤ).foldl (ogLaneStep oX gX r) nm) nm

/- Blue connectivity: coordinate index, direction helpers, horizontal block. -/

def coordIndexOf (pts : Points) : List ((Fq × Fq) × List PId) :=
  pts.foldl (fun ci kp => upsert ci (kp.2.x, kp.2.y) (fun l => l ++ [kp.1]) []) []

/-- points[pid]["region"]; total with default "" (lookups in the code are on
ids known to be present). -/
def regionOf (pts : Points) (pid : PId) : String :=
  ((aget pts pid).map (fun p => p.region)).getD ""

def xOf (pts : Points) (pid : PId) : Fq :=
  ((aget pts pid).map (fun p => p.x)).getD ⟨0, 0⟩

def get_pid_at (pts : Points) (ci : List ((Fq × Fq) × List PId)) (x y : Fq)
    (prefer_region exclude_region : Option String) : Option PId :=
  let cands := (aget ci (x, y)).getD []
  if cands = [] then none
  else
    let cands := match exclude_region with
      | none => cands
      | some ex => cands.filter (fun pid => ¬ regionOf pts pid = ex)
    if cands = [] then none
    else
      match prefer_region with
      | some pref =>
        match cands.find? (fun pid => regionOf pts pid = pref) with
        | some pid => some pid
        | none => cands.head?
      | none => cands.head?

def right_purple_rows : List ℤ := rangeInclZ 13 16 ++ rangeInclZ 22 23 ++ rangeInclZ 226 227

def left_purple_rows : List ℤ := rangeInclZ 24 25 ++ rangeInclZ 228 229 ++ rangeInclZ 235 238

def row_lr_dir (r : ℤ) : String :=
  if r ∈ right_purple_rows then "right"
  else if r ∈ left_purple_rows then "left"
  else og_dir r

/-- One (c1, c2) blue segment of a row: internal chain plus outside links.
ids_sorted is nonempty in every use below (length ≥ 2); the getLastD/headI
defaults are never reached. -/
def segIds (pts : Points) (ci : List ((Fq × Fq) × List PId)) (r : ℕ) (cseg : ℕ × ℕ) :
    List PId :=
  (rangeIncl cseg.1 cseg.2).foldl (fun ids c =>
    match get_pid_at pts ci (Fq.ofNat (c - 1)) (Fq.ofNat r) (some rBlue) none with
    | some pid => if regionOf pts pid = rBlue then ids ++ [pid] else ids
    | none => ids) []

def blueSegChain (pts : Points) (ci : List ((Fq × Fq) × List PId)) (d : String) (r : ℕ)
    (nm : NextMap) (cseg : ℕ × ℕ) : NextMap :=
  let ids := segIds pts ci r cseg
  if ids.length < 2 then nm
  else
    let ids_sorted := List.insertionSort (fun a b => Fq.le (xOf pts a) (xOf pts b)) ids
    let nm :=
      if d = "right" then
        (ids_sorted.zip ids_sorted.tail).foldl (fun nm ab => add_edge nm ab.1 (some ab.2)) nm
      else
        (ids_sorted.tail.zip ids_sorted).foldl (fun nm ab => add_edge nm ab.1 (some ab.2)) nm
    let x_left := Fq.ofInt ((cseg.1 : ℤ) - 1 - 1)
    let x_right := Fq.ofInt ((cseg.2 : ℤ) + 1 - 1)
    let outside_left := get_pid_at pts ci x_left (Fq.ofNat r) none (some rBlue)
    let outside_right := get_pid_at pts ci x_right (Fq.ofNat r) none (some rBlue)
    if d = "right" then
      let nm := match outside_left with
        | some ol => if ¬ regionOf pts ol = rBlue then add_edge nm ol ids_sorted.head? else nm
        | none => nm
      match outside_right with
      | some orr =>
        if ¬ regionOf pts orr = rBlue then
          add_edge nm (ids_sorted.getLastD (PId.BL 0 0)) (some orr)
        else nm
      | none => nm
    else
      let nm := match outside_right with
        | some orr =>
          if ¬ regionOf pts orr = rBlue then add_edge nm orr ids_sorted.getLast? else nm
        | none => nm
      match outside_left with
      | some ol =>
        if ¬ regionOf pts ol = rBlue then
          add_edge nm (ids_sorted.headD (PId.BL 0 0)) (some ol)
        else nm
      | none => nm

def blueHorizRowStep (wb : Workbook) (pts : Points) (ci : List ((Fq × Fq) × List PId))
    (bsig : String) (nm : NextMap) (r : ℕ) : NextMap :=
  let segs := contiguous_segments_for_color wb r bsig 1 (min wb.maxCol colAIV)
  if segs = [] then nm
  else
    let d := row_lr_dir (r : ℤ)
    segs.foldl (blueSegChain pts ci d r) nm

def blueHorizBlock (wb : Workbook) (pts : Points) (ci : List ((Fq × Fq) × List PId))
    (bsig : String) (nm : NextMap) : NextMap :=
  (rangeIncl 1 wb.maxRow).foldl (blueHorizRowStep wb pts ci bsig) nm

/- Blue vertical helpers. -/

def blue_segs_by_row (wb : Workbook) (bsig : String) : List (ℕ × List (ℕ × ℕ)) :=
  (rangeIncl 1 wb.maxRow).foldl (fun m r =>
    let segs := contiguous_segments_for_color wb r bsig 1 (min wb.maxCol colAIV)
    if segs = [] then m else m ++ [(r, segs)]) []

def blue_vertical_dir (segsBy : List (ℕ × List (ℕ × ℕ))) (row col : ℕ) : Option String :=
  match aget segsBy row with
  | none => none
  | some segs =>
    segs.findSome? (fun cs =>
      if cs.1 ≤ col ∧ col ≤ cs.2 then
        some (if col - cs.1 ≤ 1 then "up" else "down")
      else none)

/-- blue points are all cell-kind; a non-cell meta under region blue would raise
KeyError in Python and is skipped here (unreachable on generated points). -/
def bluePointsByX (pts : Points) (segsBy : List (ℕ × List (ℕ × ℕ))) :
    List (ℤ × List (ℤ × PId × String)) :=
  pts.foldl (fun m kp =>
    if ¬ kp.2.region = rBlue then m
    else
      match kp.2.meta with
      | PMeta.cell row col =>
        match blue_vertical_dir segsBy row col with
        | none => m
        | some d => upsert m (pyRound kp.2.x) (fun l => l ++ [(pyRound kp.2.y, kp.1, d)]) []
      | _ => m) []

/-- AIP↔AIS same-y links. Python iterates the unordered set intersection of the
two key sets; modelled as the aip keys (insertion order) filtered by ais
membership — each y contributes one independent edge, so the edge set agrees. -/
def aipAisBlock (bpbx : List (ℤ × List (ℤ × PId × String))) (nm : NextMap) : NextMap :=
  match aget bpbx ((colAIP : ℤ) - 1), aget bpbx ((colAIS : ℤ) - 1) with
  | some aipList, some aisList =>
    let aip_map := aipList.foldl (fun m e => upsert m e.1 (fun _ => e.2.1) e.2.1)
      ([] : List (ℤ × PId))
    let ais_map := aisList.foldl (fun m e => upsert m e.1 (fun _ => e.2.1) e.2.1)
      ([] : List (ℤ × PId))
    (keysOf aip_map).foldl (fun nm y =>
      match aget aip_map y, aget ais_map y with
      | some pid1, some pid2 =>
        if row_lr_dir y = "right" then add_edge nm pid1 (some pid2)
        else add_edge nm pid2 (some pid1)
      | _, _ => nm) nm
  | _, _ => nm

def upsDnsBlock (bpbx : List (ℤ × List (ℤ × PId × String))) (nm : NextMap) : NextMap :=
  bpbx.foldl (fun nm kv =>
    let ups := List.insertionSort (fun a b => a.1 ≤ b.1)
      (kv.2.filter (fun e => e.2.2 = "up"))
    let dns := List.insertionSort (fun a b => a.1 ≤ b.1)
      (kv.2.filter (fun e => e.2.2 = "down"))
    let nm := (ups.tail.zip ups).foldl
      (fun nm ab => add_edge nm ab.1.2.1 (some ab.2.2.1)) nm
    (dns.zip dns.tail).foldl
      (fun nm ab => add_edge nm ab.1.2.1 (some ab.2.2.1)) nm) nm

def vertRangeChains (pcol : ColIdx) (nm : NextMap) : NextMap :=
  vertical_ranges.foldl (fun nm rr =>
    let nm := (rangeIncl (colAIS - 1) (colAIT - 1)).foldl (fun nm x =>
      let ordered := (ordered_in_col pcol (x : ℤ)).filter
        (fun yp => (rr.1 : ℤ) ≤ yp.1 ∧ yp.1 ≤ (rr.2 : ℤ))
      (ordered.tail.zip ordered).foldl (fun nm ab =>
        if (Fq.ofInt (ab.1.1 - ab.2.1)).le ((Fq.ofInt 5).add Fq.eps) then
          add_edge nm ab.1.2 (some ab.2.2)
        else nm) nm) nm
    ((rangeIncl (colAIU - 1) (colAIV - 1)) ++ (rangeIncl (colAJB - 1) (colAJE - 1))).foldl
      (fun nm x =>
        let ordered := (ordered_in_col pcol (x : ℤ)).filter
          (fun yp => (rr.1 : ℤ) ≤ yp.1 ∧ yp.1 ≤ (rr.2 : ℤ))
        (ordered.zip ordered.tail).foldl (fun nm ab =>
          if (Fq.ofInt (ab.2.1 - ab.1.1)).le ((Fq.ofInt 5).add Fq.eps) then
            add_edge nm ab.1.2 (some ab.2.2)
          else nm) nm) nm) nm

def blueIndexOf (pts : Points) : List ((ℤ × ℤ) × PId) :=
  pts.foldl (fun m kp =>
    if kp.2.region = rBlue ∧ kp.2.meta.kind = "cell" then
      upsert m (pyRound kp.2.x, pyRound kp.2.y) (fun _ => kp.1) kp.1
    else m) []

/-- ys from a set of ints, modelled as its sorted duplicate-free list (the
code sorts it too). -/
def blueColYs (blueIdx : List ((ℤ × ℤ) × PId)) (x : ℤ) : List ℤ :=
  List.insertionSort (fun a b => a ≤ b)
    (pyDedup ((blueIdx.filter (fun kv => kv.1.1 = x)).map (fun kv => kv.1.2)))

def blueVertCol (blueIdx : List ((ℤ × ℤ) × PId)) (sign : ℤ) (nm : NextMap) (x : ℤ) :
    NextMap :=
  (blueColYs blueIdx x).foldl (fun nm y =>
    match aget blueIdx (x, y) with
    | none => nm
    | some pid =>
      match (rangeIncl 1 5).findSome? (fun d => aget blueIdx (x, y + sign * (d : ℤ))) with
      | some pid2 => add_edge nm pid (some pid2)
      | none => nm) nm

def blueVertUpDn (blueIdx : List ((ℤ × ℤ) × PId)) (nm : NextMap) : NextMap :=
  let nm := (rangeIncl (colAIS - 1) (colAIT - 1)).foldl
    (fun nm x => blueVertCol blueIdx (-1) nm (x : ℤ)) nm
  (rangeIncl (colAIU - 1) (colAIV - 1)).foldl
    (fun nm x => blueVertCol blueIdx 1 nm (x : ℤ)) nm

/- adj_bp: directed blue↔purple adjacency on columns AIS-AIV (strict dy 1..5). -/

abbrev Cand : Type := ℕ × ℤ × PId

def candLt (a b : Cand) : Bool :=
  if a.1 < b.1 then true else if b.1 < a.1 then false
  else if a.2.1 < b.2.1 then true else if b.2.1 < a.2.1 then false
  else strLtB (pidStr a.2.2) (pidStr b.2.2)

abbrev BestMap : Type := List (PId × (Cand × PId))

def bestUpdate (best : BestMap) (pidP : PId) (cand : Cand) (pidB : PId) : BestMap :=
  match aget best pidP with
  | none => upsert best pidP (fun _ => (cand, pidB)) (cand, pidB)
  | some cur =>
    if candLt cand cur.1 then upsert best pidP (fun _ => (cand, pidB)) (cand, pidB)
    else best

def pcolGet (pcol : ColIdx) (x y : ℤ) : Option PId := aget ((aget pcol x).getD []) y

/-- The inner d-loop with its break: returns the first action; the y_to < 0
test breaks out (signalled by some none). -/
def scanUp {α : Type} (f : ℤ → Option α) (yFrom : ℤ) : Option α :=
  match (rangeIncl 1 5).findSome? (fun d =>
    let yTo := yFrom - (d : ℤ)
    if yTo < 0 then some none else (f yTo).map some) with
  | some (some a) => some a
  | _ => none

def scanDn {α : Type} (f : ℤ → Option α) (yFrom : ℤ) : Option α :=
  (rangeIncl 1 5).findSome? (fun d => f (yFrom + (d : ℤ)))

def add_adj_bp_edge_up (blueIdx : List ((ℤ × ℤ) × PId)) (pcol : ColIdx) (xi yFrom : ℤ)
    (st : BestMap × NextMap) : BestMap × NextMap :=
  let best := match aget blueIdx (xi, yFrom) with
    | none => st.1
    | some pidB =>
      match scanUp (fun yTo => (pcolGet pcol xi yTo).map (fun p => (p, yFrom - yTo))) yFrom with
      | some (pidP, d) => bestUpdate st.1 pidP (d.toNat, yFrom.natAbs, pidB) pidB
      | none => st.1
  let nm := match pcolGet pcol xi yFrom with
    | none => st.2
    | some pidP =>
      match scanUp (fun yTo => aget blueIdx (xi, yTo)) yFrom with
      | some pidB => add_edge st.2 pidP (some pidB)
      | none => st.2
  (best, nm)

def add_adj_bp_edge_down (blueIdx : List ((ℤ × ℤ) × PId)) (pcol : ColIdx) (xi yFrom : ℤ)
    (st : BestMap × NextMap) : BestMap × NextMap :=
  let best := match aget blueIdx (xi, yFrom) with
    | none => st.1
    | some pidB =>
      match scanDn (fun yTo => (pcolGet pcol xi yTo).map (fun p => (p, yTo - yFrom))) yFrom with
      | some (pidP, d) => bestUpdate st.1 pidP (d.toNat, yFrom.natAbs, pidB) pidB
      | none => st.1
  let nm := match pcolGet pcol xi yFrom with
    | none => st.2
    | some pidP =>
      match scanDn (fun yTo => aget blueIdx (xi, yTo)) yFrom with
      | some pidB => add_edge st.2 pidP (some pidB)
      | none => st.2
  (best, nm)

/-- Union of purple and blue y keys on a column; Python iterates the set,
modelled sorted (per-y effects are independent and best keeps a true minimum,
so the resulting edge set does not depend on the order). -/
def adjYs (blueIdx : List ((ℤ × ℤ) × PId)) (pcol : ColIdx) (x : ℤ) : List ℤ :=
  List.insertionSort (fun a b => a ≤ b)
    (pyDedup (keysOf ((aget pcol x).getD []) ++
      (blueIdx.filter (fun kv => kv.1.1 = x)).map (fun kv => kv.1.2)))

def adjBpBlock (blueIdx : List ((ℤ × ℤ) × PId)) (pcol : ColIdx) (nm : NextMap) : NextMap :=
  let st := (rangeIncl (colAIS - 1) (colAIT - 1)).foldl (fun st x =>
    (adjYs blueIdx pcol (x : ℤ)).foldl
      (fun st y => add_adj_bp_edge_up blueIdx pcol (x : ℤ) y st) st)
    (([] : BestMap), nm)
  let st := (rangeIncl (colAIU - 1) (colAIV - 1)).foldl (fun st x =>
    (adjYs blueIdx pcol (x : ℤ)).foldl
      (fun st y => add_adj_bp_edge_down blueIdx pcol (x : ℤ) y st) st) st
  st.1.foldl (fun nm kv => add_edge nm kv.2.2 (some kv.1)) st.2

def lane_change_cols (pcol : ColIdx) (xFrom xTo : ℤ) (allow : Bool) (nm : NextMap) :
    NextMap :=
  match allow with
  | false => nm
  | true =>
    ((aget pcol xFrom).getD []).foldl (fun nm yp =>
      match pcolGet pcol xTo yp.1 with
      | some pid2 => add_edge nm yp.2 (some pid2)
      | none => nm) nm

def laneChangeColsBlock (pcol : ColIdx) (nm : NextMap) : NextMap :=
  let xAIS : ℤ := (colAIS : ℤ) - 1
  let xAIT : ℤ := (colAIT : ℤ) - 1
  let xAIU : ℤ := (colAIU : ℤ) - 1
  let xAJB : ℤ := (colAJB : ℤ) - 1
  let xAJE : ℤ := (colAJE : ℤ) - 1
  let nm := lane_change_cols pcol xAIS (xAIS + 1) true nm
  let nm := lane_change_cols pcol xAIT (xAIT - 1) true nm
  let nm := (rangeIncl (colAIU - 1) (colAIV - 1)).foldl (fun nm x =>
    if (x : ℤ) = xAIU then lane_change_cols pcol (x : ℤ) ((x : ℤ) + 1) true nm
    else lane_change_cols pcol (x : ℤ) ((x : ℤ) + 1) true
      (lane_change_cols pcol (x : ℤ) ((x : ℤ) - 1) true nm)) nm
  let nm := lane_change_cols pcol xAIT xAIU true nm
  let nm := lane_change_cols pcol xAIU xAIT true nm
  (rangeIncl (colAJB - 1) (colAJE - 1)).foldl (fun nm x =>
    if (x : ℤ) = xAJB then lane_change_cols pcol (x : ℤ) ((x : ℤ) + 1) true nm
    else if (x : ℤ) = xAJE then lane_change_cols pcol (x : ℤ) ((x : ℤ) - 1) true nm
    else lane_change_cols pcol (x : ℤ) ((x : ℤ) + 1) true
      (lane_change_cols pcol (x : ℤ) ((x : ℤ) - 1) true nm)) nm

/- Step-1 / force / Step-2 grey linking (lines 807-1006). -/

def aivAjbCandidates (pts : Points) : List (PId × Fq × Fq) × List (PId × Fq × Fq) :=
  pts.foldl (fun acc kp =>
    let xi := pyRound kp.2.x
    let acc :=
      if xi = (colAIV : ℤ) - 1 ∧ (kp.2.region = rPurple ∨ kp.2.region = rBlue) then
        if kp.2.region = rBlue ∧ 102 ≤ pyRound kp.2.y ∧ pyRound kp.2.y ≤ 149 then acc
        else (acc.1 ++ [(kp.1, kp.2.x, kp.2.y)], acc.2)
      else acc
    if xi = (colAJB : ℤ) - 1 ∧ kp.2.region = rPurple then
      (acc.1, acc.2 ++ [(kp.1, kp.2.x, kp.2.y)])
    else acc) ([], [])

def greySplit (pts : Points) : List (PId × Fq × Fq) × List (PId × Fq × Fq) :=
  pts.foldl (fun acc kp =>
    if ¬ kp.2.region = rGrey then acc
    else
      let ry := pyRound kp.2.y
      if kp.2.meta.kind = "v" then (acc.1 ++ [(kp.1, kp.2.x, kp.2.y)], acc.2)
      else if kp.2.meta.kind = "h" ∧ ((17 ≤ ry ∧ ry ≤ 21) ∨ (230 ≤ ry ∧ ry ≤ 234)) then
        (acc.1, acc.2 ++ [(kp.1, kp.2.x, kp.2.y)])
      else acc) ([], [])

/-- The shared epsilon-tolerant running-minimum scan:
best none or d < best - EPS resets; |d - best| ≤ EPS appends. -/
def epsMinStep {α : Type} (dOf : α → Fq) (pidOf : α → PId)
    (acc : Option Fq × List PId) (g : α) : Option Fq × List PId :=
  let d := dOf g
  match acc.1 with
  | none => (some d, [pidOf g])
  | some b =>
    if d.lt (b.sub Fq.eps) then (some d, [pidOf g])
    else if ((d.sub b).absv).le Fq.eps then (some b, acc.2 ++ [pidOf g])
    else (some b, acc.2)

def epsMinScan {α : Type} (dOf : α → Fq) (pidOf : α → PId) (l : List α) :
    Option Fq × List PId :=
  l.foldl (epsMinStep dOf pidOf) (none, [])

/-- bisect.bisect_left on the sorted key list. -/
def bisect_left (ys : List Fq) (v : Fq) : ℕ := (ys.filter (fun a => a.lt v)).length

def nearest_by_y_ids (cands : List (PId × Fq × Fq)) (y : Fq) (cap : ℕ) : List PId :=
  if cands = [] then []
  else
    let c_sorted := List.insertionSort (fun a b => Fq.le a.2.2 b.2.2) cands
    let ys := c_sorted.map (fun t => t.2.2)
    let i := bisect_left ys y
    let neigh := (if 1 ≤ i then (c_sorted.drop (i - 1)).take 1 else []) ++
      (c_sorted.drop i).take 1
    if neigh = [] then []
    else
      let scan := epsMinScan (fun t => ((t.2.2).sub y).absv) (fun t => t.1) neigh
      (pyDedup scan.2).take cap

def nearest_by_x_ids (cands : List (PId × Fq × Fq)) (x : Fq) (cap : ℕ) : List PId :=
  if cands = [] then []
  else
    let scan := epsMinScan (fun t => ((t.2.1).sub x).absv) (fun t => t.1) cands
    (pyDedup scan.2).take cap

def bidirAdd (gid : PId) (nm : NextMap) (pid : PId) : NextMap :=
  add_edge (add_edge nm gid (some pid)) pid (some gid)

def step1GreyV (greyV aiv ajb : List (PId × Fq × Fq)) (nm : NextMap) : NextMap :=
  greyV.foldl (fun nm g =>
    let nm := (nearest_by_y_ids aiv g.2.2 2).foldl (bidirAdd g.1) nm
    (nearest_by_y_ids ajb g.2.2 2).foldl (bidirAdd g.1) nm) nm

def pbRows (pts : Points) :
    List (PId × Fq × Fq) × List (PId × Fq × Fq) × List (PId × Fq × Fq) ×
      List (PId × Fq × Fq) :=
  pts.foldl (fun acc kp =>
    if ¬ (kp.2.region = rPurple ∨ kp.2.region = rBlue) then acc
    else
      let y := pyRound kp.2.y
      let e := (kp.1, kp.2.x, kp.2.y)
      if y = 16 then (acc.1 ++ [e], acc.2.1, acc.2.2.1, acc.2.2.2)
      else if y = 22 then (acc.1, acc.2.1 ++ [e], acc.2.2.1, acc.2.2.2)
      else if y = 229 then (acc.1, acc.2.1, acc.2.2.1 ++ [e], acc.2.2.2)
      else if y = 235 then (acc.1, acc.2.1, acc.2.2.1, acc.2.2.2 ++ [e])
      else acc) ([], [], [], [])

def greyHLinks (greyH pb16 pb22 pb229 pb235 : List (PId × Fq × Fq)) (nm : NextMap) :
    NextMap :=
  greyH.foldl (fun nm g =>
    let ry := pyRound g.2.2
    if 17 ≤ ry ∧ ry ≤ 21 then
      let nm := (nearest_by_x_ids pb16 g.2.1 2).foldl (bidirAdd g.1) nm
      (nearest_by_x_ids pb22 g.2.1 2).foldl (bidirAdd g.1) nm
    else
      let nm := (nearest_by_x_ids pb229 g.2.1 2).foldl (bidirAdd g.1) nm
      (nearest_by_x_ids pb235 g.2.1 2).foldl (bidirAdd g.1) nm) nm

def nearest_grey_by_x_in_band (bx : Fq) (band : List (PId × Fq × Fq)) (cap : ℕ) :
    List PId :=
  if band = [] then []
  else
    let scan := epsMinScan (fun t => ((t.2.1).sub bx).absv) (fun t => t.1) band
    (pyDedup scan.2).take cap

def forceRows (pts : Points) (band1721 band230234 : List (PId × Fq × Fq)) (nm : NextMap) :
    NextMap :=
  pts.foldl (fun nm kp =>
    if ¬ kp.2.region = rBlue then nm
    else if ¬ kp.2.meta.kind = "cell" then nm
    else
      let x := pyRound kp.2.x
      let y := pyRound kp.2.y
      if x < (colE : ℤ) - 1 ∨ x > (colAIL : ℤ) - 1 then nm
      else if y = 22 then
        (nearest_grey_by_x_in_band kp.2.x band1721 2).foldl (bidirAdd kp.1) nm
      else if y = 229 then
        (nearest_grey_by_x_in_band kp.2.x band230234 2).foldl (bidirAdd kp.1) nm
      else nm) nm

def has_any_grey_neighbor (pts : Points) (nm : NextMap) (pid : PId) : Bool :=
  let outs := nmGet nm pid
  (decide (¬ outs = [])) && outs.any (fun t => decide (regionOf pts t = rGrey))

def step2One (pts : Points) (allGrey : List (PId × Fq × Fq)) (nm : NextMap)
    (kp : PId × PointData) : NextMap :=
  if ¬ kp.2.region = rBlue then nm
  else if ¬ pyRound kp.2.x = (colAIV : ℤ) - 1 then nm
  else if has_any_grey_neighbor pts nm kp.1 then nm
  else if 102 ≤ pyRound kp.2.y ∧ pyRound kp.2.y ≤ 149 then nm
  else
    let candidates := allGrey.filter (fun g => ((kp.2.x).add Fq.eps).lt g.2.1)
    if candidates = [] then nm
    else
      let scan := epsMinScan (fun g =>
        (((g.2.1).sub kp.2.x).mul ((g.2.1).sub kp.2.x)).add
          (((g.2.2).sub kp.2.y).mul ((g.2.2).sub kp.2.y)))
        (fun g => g.1) candidates
      ((pyDedup scan.2).take 2).foldl (bidirAdd kp.1) nm

def step2Fallback (pts : Points) (allGrey : List (PId × Fq × Fq)) (nm : NextMap) : NextMap :=
  pts.foldl (step2One pts allGrey) nm

/- In/Out flags and attaching sorted next lists (lines 1010-1052). -/

def inout_rows_purple : List ℤ := [13, 14, 15, 16, 235, 236, 237, 238]

def inout_rows_orange : List ℤ :=
  [31, 54, 57, 80, 83, 106, 109, 142, 145, 168, 171, 194, 197, 220]

def inout_rows_green : List ℤ := [120, 131]

def inoutFlagOf (p : PointData) : Bool :=
  let x := pyRound p.x
  let y := pyRound p.y
  if p.region = rGrey then true
  else if p.region = rPurple then
    decide (y ∈ inout_rows_purple) ||
      decide ((colAJB : ℤ) - 1 ≤ x ∧ x ≤ (colAJE : ℤ) - 1)
  else if p.region = rOrange then decide (y ∈ inout_rows_orange)
  else if p.region = rGreen then decide (y ∈ inout_rows_green)
  else false

def inoutStep (pts : Points) : Points :=
  pts.map (fun kp => (kp.1, ⟨kp.2.x, kp.2.y, kp.2.region, kp.2.meta, inoutFlagOf kp.2,
    kp.2.next⟩))

def attachNext (pts : Points) (nm : NextMap) : Points :=
  pts.map (fun kp => (kp.1, ⟨kp.2.x, kp.2.y, kp.2.region, kp.2.meta, kp.2.inout,
    List.insertionSort pidLe (nmGet nm kp.1)⟩))

def connectPhase (wb : Workbook) (blueSig : String) (pts : Points) : NextMap :=
  let purple_row_index := build_row_index pts rPurple
  let orange_rowseg := build_rowseg_index pts rOrange
  let green_rowseg := build_rowseg_index pts rGreen
  let purple_col_index := build_col_index pts rPurple
  let nm : NextMap := []
  let nm := connect_purple_rows purple_row_index (rangeInclZ 13 16 ++ rangeInclZ 22 23)
    "right" nm
  let nm := connect_purple_rows purple_row_index (rangeInclZ 24 25) "left" nm
  let nm := connect_purple_rows purple_row_index (rangeInclZ 226 227) "right" nm
  let nm := connect_purple_rows purple_row_index (rangeInclZ 228 229 ++ rangeInclZ 235 238)
    "left" nm
  let nm := purpleLaneBlock purple_row_index nm
  let nm := connect_segments orange_rowseg og_dir nm
  let nm := connect_segments green_rowseg og_dir nm
  let orange_row_x := build_row_x_index pts rOrange
  let green_row_x := build_row_x_index pts rGreen
  let nm := ogLaneBlock orange_row_x green_row_x nm
  let ci := coordIndexOf pts
  let nm := blueHorizBlock wb pts ci blueSig nm
  let segsBy := blue_segs_by_row wb blueSig
  let bpbx := bluePointsByX pts segsBy
  let nm := aipAisBlock bpbx nm
  let nm := upsDnsBlock bpbx nm
  let nm := vertRangeChains purple_col_index nm
  let blueIdx := blueIndexOf pts
  let nm := blueVertUpDn blueIdx nm
  let nm := adjBpBlock blueIdx purple_col_index nm
  let nm := laneChangeColsBlock purple_col_index nm
  let aiv := (aivAjbCandidates pts).1
  let ajb := (aivAjbCandidates pts).2
  let greyV := (greySplit pts).1
  let greyH := (greySplit pts).2
  let all_grey := greyV ++ greyH
  let nm := step1GreyV greyV aiv ajb nm
  let pbs := pbRows pts
  let nm := greyHLinks greyH pbs.1 pbs.2.1 pbs.2.2.1 pbs.2.2.2 nm
  let band1721 := greyH.filter (fun g => 17 ≤ pyRound g.2.2 ∧ pyRound g.2.2 ≤ 21)
  let band230234 := greyH.filter (fun g => 230 ≤ pyRound g.2.2 ∧ pyRound g.2.2 ≤ 234)
  let nm := forceRows pts band1721 band230234 nm
  step2Fallback pts all_grey nm

def pipeline (wb : Workbook) (ps bs os gs : String) : Points :=
  let pts := (genPhase wb ps bs os gs).1
  let nm := connectPhase wb bs pts
  attachNext (inoutStep pts) nm

def msgAnchors : String :=
  "Failed to detect one or more anchor colors (E13/A28/E28/E120)."

/-- main: anchor detection (E13, A28, E28, E120) raising RuntimeError when any
is missing, then the full generation + connectivity pipeline. -/
def mainGen (wb : Workbook) : Except String Points :=
  match wb.color 13 5, wb.color 28 1, wb.color 28 5, wb.color 120 5 with
  | some purpleSig, some blueSig, some orangeSig, some greenSig =>
    Except.ok (pipeline wb purpleSig blueSig orangeSig greenSig)
  | _, _, _, _ => Except.error msgAnchors

/- Output checkers: no self-loops, sorted next lists, referential integrity. -/

def noSelfLoopB (pts : Points) : Bool :=
  pts.all (fun kp => decide (¬ kp.1 ∈ kp.2.next))

def sortedNextB (pts : Points) : Bool :=
  pts.all (fun kp => decide (List.Chain' pidLe kp.2.next))

def refIntegB (pts : Points) : Bool :=
  pts.all (fun kp => kp.2.next.all (fun t => decide (t ∈ keysOf pts)))

/- ---------------------------------------------------------------------
Edge-membership reasoning for next_map.
--------------------------------------------------------------------- -/

def nmMem (nm : NextMap) (a b : PId) : Prop := b ∈ nmGet nm a

instance (nm : NextMap) (a b : PId) : Decidable (nmMem nm a b) := by
  rw [nmMem]
  infer_instance

theorem nmAdd_get_same (nm : NextMap) (a b : PId) :
    nmGet (nmAdd nm a b) a =
      (if b ∈ nmGet nm a then nmGet nm a else nmGet nm a ++ [b]) := by
  rw [nmGet, nmAdd, upsert_get_same]
  rfl

theorem nmAdd_get_other (nm : NextMap) (a b a' : PId) (h : ¬ a' = a) :
    nmGet (nmAdd nm a b) a' = nmGet nm a' := by
  rw [nmGet, nmAdd, upsert_get_other _ _ _ _ _ h]
  rfl

theorem nmAdd_mem (nm : NextMap) (a b a' b' : PId) :
    nmMem (nmAdd nm a b) a' b' ↔ nmMem nm a' b' ∨ (a' = a ∧ b' = b) := by
  by_cases h : a' = a
  · subst h
    rw [nmMem, nmMem, nmAdd_get_same]
    by_cases hb : b ∈ nmGet nm a'
    · rw [if_pos hb]
      constructor
      · exact fun hm => Or.inl hm
      · rintro (hm | ⟨-, rfl⟩)
        · exact hm
        · exact hb
    · rw [if_neg hb, List.mem_append, List.mem_singleton]
      constructor
      · rintro (hm | rfl)
        · exact Or.inl hm
        · exact Or.inr ⟨rfl, rfl⟩
      · rintro (hm | ⟨-, rfl⟩)
        · exact Or.inl hm
        · exact Or.inr rfl
  · rw [nmMem, nmMem, nmAdd_get_other nm a b a' h]
    constructor
    · exact fun hm => Or.inl hm
    · rintro (hm | ⟨he, -⟩)
      · exact hm
      · exact absurd he h

theorem add_edge_mem (nm : NextMap) (c : PId) (o : Option PId) (a b : PId) :
    nmMem (add_edge nm c o) a b ↔ nmMem nm a b ∨ (a = c ∧ o = some b) := by
  cases o with
  | none =>
    rw [add_edge]
    constructor
    · exact fun hm => Or.inl hm
    · rintro (hm | ⟨-, he⟩)
      · exact hm
      · cases he
  | some bv =>
    rw [add_edge, nmAdd_mem]
    constructor
    · rintro (hm | ⟨hac, hbb⟩)
      · exact Or.inl hm
      · exact Or.inr ⟨hac, by rw [hbb]⟩
    · rintro (hm | ⟨hac, he⟩)
      · exact Or.inl hm
      · exact Or.inr ⟨hac, (Option.some_inj.mp he).symm⟩

theorem add_edge_mono (nm : NextMap) (c : PId) (o : Option PId) (a b : PId)
    (h : nmMem nm a b) : nmMem (add_edge nm c o) a b :=
  (add_edge_mem nm c o a b).mpr (Or.inl h)

theorem nmMem_nil (a b : PId) : ¬ nmMem ([] : NextMap) a b := by
  intro h
  exact List.not_mem_nil b h

/-- Origin inversion for next-map folds: an edge present after the fold was
present before, or some processed element introduces it. -/
theorem foldl_nmMem_origin {α : Type} (f : NextMap → α → NextMap) (l : List α)
    (nm : NextMap) (a b : PId) (Q : α → Prop)
    (hstep : ∀ nm x, x ∈ l → nmMem (f nm x) a b → nmMem nm a b ∨ Q x)
    (h : nmMem (l.foldl f nm) a b) : nmMem nm a b ∨ ∃ x ∈ l, Q x := by
  induction l generalizing nm with
  | nil => exact Or.inl h
  | cons x t ih =>
    rw [List.foldl_cons] at h
    rcases ih (f nm x) (fun nm' y hy => hstep nm' y (List.mem_cons_of_mem x hy)) h with
      h1 | ⟨y, hy, hq⟩
    · rcases hstep nm x (List.mem_cons_self x t) h1 with h2 | h2
      · exact Or.inl h2
      · exact Or.inr ⟨x, List.mem_cons_self x t, h2⟩
    · exact Or.inr ⟨y, List.mem_cons_of_mem x hy, hq⟩

theorem foldl_nmMem_mono {α : Type} (f : NextMap → α → NextMap) (l : List α)
    (nm : NextMap) (a b : PId)
    (hstep : ∀ nm x, x ∈ l → nmMem nm a b → nmMem (f nm x) a b)
    (h : nmMem nm a b) : nmMem (l.foldl f nm) a b := by
  apply @foldl_preserve _ _ (fun nm' => nmMem nm' a b) l f nm h
  exact fun nm' x hp hx => hstep nm' x hx hp

/- ---------------------------------------------------------------------
C4: tie caps.
--------------------------------------------------------------------- -/

theorem take_two_le (l : List PId) : (l.take 2).length ≤ 2 := by
  rw [List.length_take]
  exact min_le_left _ _

/-- C4: nearest_by_y_ids, nearest_by_x_ids and nearest_grey_by_x_in_band
return at most cap ids (so at most two at every call site, where cap = 2),
and the Step-2 AIV fallback links at most two grey nodes per blue node. -/
theorem c4_tie_cap :
    ∀ (cands band : List (PId × Fq × Fq)) (y x bx : Fq) (cap : ℕ) (pts : Points)
      (allGrey : List (PId × Fq × Fq)) (nm : NextMap) (kp : PId × PointData),
    (nearest_by_y_ids cands y cap).length ≤ cap ∧
    (nearest_by_x_ids cands x cap).length ≤ cap ∧
    (nearest_grey_by_x_in_band bx band cap).length ≤ cap ∧
    ∃ gids : List PId, gids.length ≤ 2 ∧
      step2One pts allGrey nm kp = gids.foldl (bidirAdd kp.1) nm := by
  intro cands band y x bx cap pts allGrey nm kp
  refine ⟨?_, ?_, ?_, ?_⟩
  · simp only [nearest_by_y_ids]
    split_ifs <;>
      first
        | exact Nat.zero_le cap
        | (rw [List.length_take]; exact min_le_left _ _)
  · simp only [nearest_by_x_ids]
    split_ifs with h1
    · exact Nat.zero_le cap
    · rw [List.length_take]
      exact min_le_left _ _
  · simp only [nearest_grey_by_x_in_band]
    split_ifs with h1
    · exact Nat.zero_le cap
    · rw [List.length_take]
      exact min_le_left _ _
  · simp only [step2One]
    split_ifs <;>
      first
        | exact ⟨[], Nat.zero_le 2, rfl⟩
        | exact ⟨_, take_two_le _, rfl⟩

/- ---------------------------------------------------------------------
C10: in/out flags.
--------------------------------------------------------------------- -/

def stripInout (kp : PId × PointData) : PId × (Fq × Fq × String × PMeta × List PId) :=
  (kp.1, (kp.2.x, kp.2.y, kp.2.region, kp.2.meta, kp.2.next))

def greyInoutB (pts : Points) : Bool :=
  pts.all (fun kp => !(decide (kp.2.region = rGrey)) || kp.2.inout)

theorem inoutFlagOf_grey (p : PointData) (h : p.region = rGrey) : inoutFlagOf p = true := by
  rw [inoutFlagOf]
  simp only [if_pos h]

theorem greyInoutB_inoutStep (pts : Points) : greyInoutB (inoutStep pts) = true := by
  rw [greyInoutB, List.all_eq_true]
  intro kp hkp
  rw [inoutStep] at hkp
  rcases List.mem_map.mp hkp with ⟨kq, hkq, heq⟩
  rw [← heq]
  by_cases hg : kq.2.region = rGrey
  · have : inoutFlagOf kq.2 = true := inoutFlagOf_grey kq.2 hg
    simp [this]
  · simp [hg]

theorem greyInoutB_attachNext (pts : Points) (nm : NextMap) :
    greyInoutB (attachNext pts nm) = greyInoutB pts := by
  rw [greyInoutB, greyInoutB, attachNext, List.all_map]
  rfl

/-- C10: the in/out step flags every grey node true unconditionally, and
writes only the inout field (all other fields and the key list are
unchanged); consequently every grey node of the full pipeline output has
inout = true. -/
theorem c10_grey_inout :
    ∀ (pts : Points) (wb : Workbook) (ps bs os gs : String),
    greyInoutB (inoutStep pts) = true ∧
    (inoutStep pts).map stripInout = pts.map stripInout ∧
    keysOf (inoutStep pts) = keysOf pts ∧
    greyInoutB (pipeline wb ps bs os gs) = true := by
  intro pts wb ps bs os gs
  refine ⟨greyInoutB_inoutStep pts, ?_, ?_, ?_⟩
  · induction pts with
    | nil => rfl
    | cons kp t ih =>
      rw [inoutStep] at ih ⊢
      rw [List.map_cons, List.map_cons, List.map_cons, ih]
      rfl
  · rw [inoutStep, keysOf, List.map_map]
    rfl
  · rw [pipeline, greyInoutB_attachNext]
    exact greyInoutB_inoutStep _

/- ---------------------------------------------------------------------
C7: error semantics.
--------------------------------------------------------------------- -/

def anchorsPresentB (wb : Workbook) : Bool :=
  (wb.color 13 5).isSome && (wb.color 28 1).isSome && (wb.color 28 5).isSome &&
    (wb.color 120 5).isSome

/-- A workbook with no colored cell at all. -/
def wbBlank : Workbook := ⟨0, 0, fun _ _ => none, []⟩

/-- C7: mainGen fails exactly when an anchor color is undetectable (and then
with the anchor RuntimeError message); all local gaps are silent no-ops:
scanning a colorless sheet yields no segments, rows and segments with fewer
than two nodes produce no chain edges, absent lane-change partners and empty
nearest-neighbor candidate sets produce no edges, and the Step-2 fallback
with no grey candidates leaves the map unchanged. -/
theorem c7_error_semantics :
    ∀ (wb : Workbook) (r c1 c2 : ℕ) (sig : String) (rows : List ℤ) (direction : String)
      (nm : NextMap) (rr : ℤ) (xq : Fq) (p : PId) (key : ℤ × ℕ) (q : PId)
      (dirFunc : ℤ → String) (rF rT : ℤ) (allow : Bool) (y x bx : Fq) (cap : ℕ)
      (pts : Points) (kp : PId × PointData),
    ((mainGen wb).isOk = anchorsPresentB wb) ∧
    (mainGen wb = Except.error msgAnchors ↔ anchorsPresentB wb = false) ∧
    contiguous_segments_for_color wbBlank r sig c1 c2 = [] ∧
    connect_purple_rows [] rows direction nm = nm ∧
    connect_purple_rows [(rr, [(xq, p)])] [rr] direction nm = nm ∧
    connect_segments [(key, [q])] dirFunc nm = nm ∧
    lane_change [] rF rT allow nm = nm ∧
    lane_change_og [] rF rT allow nm = nm ∧
    nearest_by_y_ids [] y cap = [] ∧
    nearest_by_x_ids [] x cap = [] ∧
    nearest_grey_by_x_in_band bx [] cap = [] ∧
    step2One pts [] nm kp = nm := by
  intro wb r c1 c2 sig rows direction nm rr xq p key q dirFunc rF rT allow y x bx cap pts kp
  refine ⟨?_, ?_, ?_, ?_, ?_, ?_, ?_, ?_, ?_, ?_, ?_, ?_⟩
  · rw [mainGen, anchorsPresentB]
    cases wb.color 13 5 <;> cases wb.color 28 1 <;> cases wb.color 28 5 <;>
      cases wb.color 120 5 <;> rfl
  · rw [mainGen, anchorsPresentB]
    cases wb.color 13 5 <;> cases wb.color 28 1 <;> cases wb.color 28 5 <;>
      cases wb.color 120 5 <;> simp
  · rw [contiguous_segments_for_color]
    have hfold : (rangeIncl c1 c2).foldl
        (fun (st : List (ℕ × ℕ) × Option ℕ) c =>
          if wbBlank.color r c = some sig then
            match st.2 with
            | none => (st.1, some c)
            | some s => (st.1, some s)
          else
            match st.2 with
            | none => (st.1, none)
            | some s => (st.1 ++ [(s, c - 1)], none))
        ([], none) = ([], none) := by
      apply @foldl_preserve _ _ (fun st => st = (([] : List (ℕ × ℕ)), (none : Option ℕ)))
      · rfl
      · intro st c hst hc
        rw [hst]
        rfl
    rw [hfold]
  · apply @foldl_preserve _ _ (fun x => x = nm)
    · rfl
    · intro nm' rr2 hnm' hr
      rw [hnm']
      rfl
  · show (if (ordered_in_row [(rr, [(xq, p)])] rr).length < 2 then nm else _) = nm
    have hord : ordered_in_row [(rr, [(xq, p)])] rr = [(xq, p)] := by
      rw [ordered_in_row, aget_cons, if_pos rfl]
      rfl
    rw [hord]
    rfl
  · rfl
  · cases allow <;> rfl
  · cases allow <;> rfl
  · rfl
  · rfl
  · rfl
  · simp [step2One, List.filter_nil]

/- ---------------------------------------------------------------------
C5: chain direction.
--------------------------------------------------------------------- -/

def dirRight : String := "right"

def dirLeft : String := "left"

def adjIn {α : Type} (l : List α) (u v : α) : Prop := (u, v) ∈ l.zip l.tail

instance {α : Type} [DecidableEq α] (l : List α) (u v : α) : Decidable (adjIn l u v) := by
  rw [adjIn]
  infer_instance

theorem pairwise_adjIn {α : Type} {R : α → α → Prop} :
    ∀ (l : List α), l.Pairwise R → ∀ u v, adjIn l u v → R u v := by
  intro l
  induction l with
  | nil =>
    intro _ u v h
    exact absurd h (List.not_mem_nil _)
  | cons x t ih =>
    intro hp u v h
    cases t with
    | nil => exact absurd h (List.not_mem_nil _)
    | cons y t2 =>
      rw [adjIn, List.tail_cons, List.zip_cons_cons] at h
      rcases List.mem_cons.mp h with h1 | h1
      · have hx : u = x := congrArg Prod.fst h1
        have hy : v = y := congrArg Prod.snd h1
        rw [hx, hy]
        exact (List.pairwise_cons.mp hp).1 y (List.mem_cons_self y t2)
      · exact ih (List.pairwise_cons.mp hp).2 u v h1

theorem zip_tail_swap {α : Type} :
    ∀ (l : List α) (u v : α), (u, v) ∈ l.tail.zip l → (v, u) ∈ l.zip l.tail := by
  intro l
  induction l with
  | nil =>
    intro u v h
    exact absurd h (List.not_mem_nil _)
  | cons x t ih =>
    intro u v h
    rw [List.tail_cons] at h
    cases t with
    | nil => exact absurd h (List.not_mem_nil _)
    | cons y t2 =>
      rw [List.zip_cons_cons] at h
      rw [List.tail_cons, List.zip_cons_cons]
      rcases List.mem_cons.mp h with h1 | h1
      · have hu : u = y := congrArg Prod.fst h1
        have hv : v = x := congrArg Prod.snd h1
        rw [hu, hv]
        exact List.mem_cons_self _ _
      · have h2 := ih u v (by rw [List.tail_cons]; exact h1)
        exact List.mem_cons_of_mem _ h2

theorem adjIn_map {α β : Type} (f : α → β) (l : List α) (x y : β)
    (h : adjIn (l.map f) x y) : ∃ u v, adjIn l u v ∧ x = f u ∧ y = f v := by
  rw [adjIn, ← List.map_tail, List.zip_map] at h
  rcases List.mem_map.mp h with ⟨uv, huv, heq⟩
  refine ⟨uv.1, uv.2, huv, ?_, ?_⟩
  · exact (congrArg Prod.fst heq).symm
  · exact (congrArg Prod.snd heq).symm

theorem Fq.le_total2 (a b : Fq) : a.le b ∨ b.le a := by
  rw [Fq.le_iff, Fq.le_iff]
  exact le_total _ _

theorem Fq.le_trans2 (a b c : Fq) (h1 : a.le b) (h2 : b.le c) : a.le c := by
  rw [Fq.le_iff] at h1 h2 ⊢
  exact le_trans h1 h2

theorem sorted_by_x (l : List (Fq × PId)) :
    (List.insertionSort (fun u v => Fq.le u.1 v.1) l).Pairwise
      (fun u v : Fq × PId => Fq.le u.1 v.1) := by
  haveI : IsTotal (Fq × PId) (fun u v => Fq.le u.1 v.1) :=
    ⟨fun u v => Fq.le_total2 u.1 v.1⟩
  haveI : IsTrans (Fq × PId) (fun u v => Fq.le u.1 v.1) :=
    ⟨fun u v w => Fq.le_trans2 u.1 v.1 w.1⟩
  exact List.sorted_insertionSort _ l

theorem pairwise_neqv_sort (l : List (Fq × PId))
    (h : l.Pairwise (fun u v : Fq × PId => ¬ Fq.eqv u.1 v.1)) :
    (List.insertionSort (fun u v => Fq.le u.1 v.1) l).Pairwise
      (fun u v : Fq × PId => ¬ Fq.eqv u.1 v.1) := by
  have hsym : Symmetric (fun u v : Fq × PId => ¬ Fq.eqv u.1 v.1) := by
    intro u v huv hcon
    apply huv
    rw [Fq.eqv_iff] at hcon ⊢
    exact hcon.symm
  exact h.perm (List.perm_insertionSort (fun u v => Fq.le u.1 v.1) l).symm @hsym

theorem le_neqv_lt (a b : Fq) (h1 : a.le b) (h2 : ¬ Fq.eqv a b) : a.lt b := by
  rw [Fq.le_iff] at h1
  rw [Fq.eqv_iff] at h2
  rw [Fq.lt_iff]
  exact lt_of_le_of_ne h1 h2

theorem ordered_in_row_props (idx : RowIdx) (r : ℤ)
    (hkeys : ((aget idx r).getD []).Pairwise (fun u v : Fq × PId => ¬ Fq.eqv u.1 v.1)) :
    (ordered_in_row idx r).Pairwise (fun u v : Fq × PId => Fq.lt u.1 v.1) := by
  rw [ordered_in_row]
  have h1 := sorted_by_x ((aget idx r).getD [])
  have h2 := pairwise_neqv_sort ((aget idx r).getD []) hkeys
  have h3 := List.Pairwise.and h1 h2
  exact h3.imp (fun hw => le_neqv_lt _ _ hw.1 hw.2)

theorem mem_pair_eta {α β : Type} {l : List (α × β)} (ab : α × β) (h : ab ∈ l) :
    (ab.1, ab.2) ∈ l := by
  rw [Prod.mk.eta]
  exact h

/-- Origin inversion for a forward chain fold over consecutive pairs. -/
theorem chain_fold_origin {α : Type} (g : α → PId) (l : List (α × α)) (nm : NextMap)
    (a b : PId)
    (h : nmMem (l.foldl (fun nm ab => add_edge nm (g ab.1) (some (g ab.2))) nm) a b) :
    nmMem nm a b ∨ ∃ ab ∈ l, a = g ab.1 ∧ b = g ab.2 := by
  apply foldl_nmMem_origin _ l nm a b (fun ab => a = g ab.1 ∧ b = g ab.2) _ h
  intro nm' ab _ hm
  rcases (add_edge_mem nm' (g ab.1) (some (g ab.2)) a b).mp hm with h1 | ⟨h1, h2⟩
  · exact Or.inl h1
  · exact Or.inr ⟨h1, (Option.some_inj.mp h2).symm⟩

theorem connect_purple_rows_origin (idx : RowIdx) (rows : List ℤ) (direction : String)
    (nm : NextMap) (a b : PId)
    (h : nmMem (connect_purple_rows idx rows direction nm) a b) :
    nmMem nm a b ∨ ∃ r ∈ rows, ∃ u v : Fq × PId, a = u.2 ∧ b = v.2 ∧
      ((direction = dirRight ∧ adjIn (ordered_in_row idx r) u v) ∨
       (¬ direction = dirRight ∧ adjIn (ordered_in_row idx r) v u)) := by
  apply foldl_nmMem_origin _ rows nm a b _ _ h
  intro nm' r _ hm
  have hm2 : nmMem (
      if (ordered_in_row idx r).length < 2 then nm'
      else if direction = "right" then
        ((ordered_in_row idx r).zip (ordered_in_row idx r).tail).foldl
          (fun nm ab => add_edge nm ab.1.2 (some ab.2.2)) nm'
      else ((ordered_in_row idx r).tail.zip (ordered_in_row idx r)).foldl
        (fun nm ab => add_edge nm ab.1.2 (some ab.2.2)) nm') a b := hm
  split_ifs at hm2 with h1 h2
  · exact Or.inl hm2
  · rcases chain_fold_origin (fun p : Fq × PId => p.2) _ nm' a b hm2 with
      h3 | ⟨ab, hab, ha, hb⟩
    · exact Or.inl h3
    · exact Or.inr ⟨ab.1, ab.2, ha, hb, Or.inl ⟨h2, hab⟩⟩
  · rcases chain_fold_origin (fun p : Fq × PId => p.2) _ nm' a b hm2 with
      h3 | ⟨ab, hab, ha, hb⟩
    · exact Or.inl h3
    · refine Or.inr ⟨ab.1, ab.2, ha, hb, Or.inr ⟨h2, ?_⟩⟩
      rw [adjIn]
      exact zip_tail_swap _ ab.1 ab.2 (mem_pair_eta ab hab)

theorem connect_segments_origin (rowseg : List ((ℤ × ℕ) × List PId)) (dirFunc : ℤ → String)
    (nm : NextMap) (a b : PId)
    (h : nmMem (connect_segments rowseg dirFunc nm) a b) :
    nmMem nm a b ∨ ∃ kv ∈ rowseg,
      ((dirFunc kv.1.1 = dirRight ∧ adjIn kv.2 a b) ∨
       (¬ dirFunc kv.1.1 = dirRight ∧ adjIn kv.2 b a)) := by
  apply foldl_nmMem_origin _ rowseg nm a b _ _ h
  intro nm' kv _ hm
  have hm2 : nmMem (
      if kv.2.length < 2 then nm'
      else if dirFunc kv.1.1 = "right" then
        (kv.2.zip kv.2.tail).foldl (fun nm ab => add_edge nm ab.1 (some ab.2)) nm'
      else (kv.2.tail.zip kv.2).foldl (fun nm ab => add_edge nm ab.1 (some ab.2)) nm') a b := hm
  split_ifs at hm2 with h1 h2
  · exact Or.inl hm2
  · rcases chain_fold_origin (fun p : PId => p) _ nm' a b hm2 with h3 | ⟨ab, hab, ha, hb⟩
    · exact Or.inl h3
    · refine Or.inr (Or.inl ⟨h2, ?_⟩)
      rw [adjIn]
      have hpair : (a, b) = ab := Prod.ext ha hb
      rw [hpair]
      exact hab
  · rcases chain_fold_origin (fun p : PId => p) _ nm' a b hm2 with h3 | ⟨ab, hab, ha, hb⟩
    · exact Or.inl h3
    · refine Or.inr (Or.inr ⟨h2, ?_⟩)
      rw [adjIn, ha, hb]
      exact zip_tail_swap _ ab.1 ab.2 (mem_pair_eta ab hab)

theorem build_rowseg_sorted (pts : Points) (region : String) (kv : (ℤ × ℕ) × List PId)
    (h : kv ∈ build_rowseg_index pts region) :
    ∃ plst : List (Fq × PId), kv.2 = plst.map Prod.snd ∧
      plst.Pairwise (fun u v : Fq × PId => Fq.le u.1 v.1) := by
  rw [build_rowseg_index] at h
  rcases List.mem_map.mp h with ⟨kw, hkw, heq⟩
  refine ⟨List.insertionSort (fun u v => Fq.le u.1 v.1) kw.2, ?_, ?_⟩
  · rw [← heq]
  · exact sorted_by_x kw.2

/-- Per-row key distinctness as a decidable Boolean checker over the index. -/
def rowKeysDistinctB (idx : RowIdx) : Bool :=
  idx.all (fun kv => decide (kv.2.Pairwise (fun u v : Fq × PId => ¬ Fq.eqv u.1 v.1)))

theorem rowKeysDistinctB_sound (idx : RowIdx) (h : rowKeysDistinctB idx = true) (r : ℤ) :
    ((aget idx r).getD []).Pairwise (fun u v : Fq × PId => ¬ Fq.eqv u.1 v.1) := by
  cases hq : aget idx r with
  | none => exact List.Pairwise.nil
  | some L =>
    have hmem := aget_some_mem idx r L hq
    rw [rowKeysDistinctB, List.all_eq_true] at h
    have h2 := h (r, L) hmem
    exact of_decide_eq_true h2

/-- C5: every chain edge follows the configured direction.  In
connect_purple_rows with direction right, each new edge joins a node to
the node at the next larger x (adjacent in the x-sorted row bucket,
strictly larger under per-row key distinctness); with direction left to
the next smaller x.  In connect_segments, each new edge joins consecutive
elements of a bucket of build_rowseg_index forward when the row direction
is right and backward otherwise, and those buckets are x-le-sorted
projections of the segment's (x, pid) pairs. -/
theorem c5_chain_direction (idx : RowIdx) (rows : List ℤ) (nm : NextMap) (a b : PId)
    (pts : Points) (region : String) (dirFunc : ℤ → String)
    (hkeys : rowKeysDistinctB idx = true) :
    (nmMem (connect_purple_rows idx rows dirRight nm) a b →
      nmMem nm a b ∨ ∃ r ∈ rows, ∃ u v : Fq × PId, a = u.2 ∧ b = v.2 ∧
        adjIn (ordered_in_row idx r) u v ∧ Fq.lt u.1 v.1) ∧
    (nmMem (connect_purple_rows idx rows dirLeft nm) a b →
      nmMem nm a b ∨ ∃ r ∈ rows, ∃ u v : Fq × PId, a = u.2 ∧ b = v.2 ∧
        adjIn (ordered_in_row idx r) v u ∧ Fq.lt v.1 u.1) ∧
    (nmMem (connect_segments (build_rowseg_index pts region) dirFunc nm) a b →
      nmMem nm a b ∨ ∃ kv ∈ build_rowseg_index pts region,
        ∃ plst : List (Fq × PId), kv.2 = plst.map Prod.snd ∧
          plst.Pairwise (fun u v : Fq × PId => Fq.le u.1 v.1) ∧
          ((dirFunc kv.1.1 = dirRight ∧ ∃ u v : Fq × PId, a = u.2 ∧ b = v.2 ∧
              adjIn plst u v ∧ Fq.le u.1 v.1) ∨
           (¬ dirFunc kv.1.1 = dirRight ∧ ∃ u v : Fq × PId, a = u.2 ∧ b = v.2 ∧
              adjIn plst v u ∧ Fq.le v.1 u.1))) := by
  refine ⟨?_, ?_, ?_⟩
  · intro h
    rcases connect_purple_rows_origin idx rows dirRight nm a b h with
      h1 | ⟨r, hr, u, v, ha, hb, hd⟩
    · exact Or.inl h1
    · rcases hd with ⟨-, hadj⟩ | ⟨hcon, -⟩
      · have hlt := pairwise_adjIn _ (ordered_in_row_props idx r
          (rowKeysDistinctB_sound idx hkeys r)) u v hadj
        exact Or.inr ⟨r, hr, u, v, ha, hb, hadj, hlt⟩
      · exact absurd rfl hcon
  · intro h
    rcases connect_purple_rows_origin idx rows dirLeft nm a b h with
      h1 | ⟨r, hr, u, v, ha, hb, hd⟩
    · exact Or.inl h1
    · rcases hd with ⟨hcon, -⟩ | ⟨-, hadj⟩
      · exact absurd hcon (by decide)
      · have hlt := pairwise_adjIn _ (ordered_in_row_props idx r
          (rowKeysDistinctB_sound idx hkeys r)) v u hadj
        exact Or.inr ⟨r, hr, u, v, ha, hb, hadj, hlt⟩
  · intro h
    rcases connect_segments_origin _ dirFunc nm a b h with h1 | ⟨kv, hkv, hd⟩
    · exact Or.inl h1
    · rcases build_rowseg_sorted pts region kv hkv with ⟨plst, hproj, hsort⟩
      rcases hd with ⟨hdir, hadj⟩ | ⟨hdir, hadj⟩
      · rw [hproj] at hadj
        rcases adjIn_map Prod.snd plst a b hadj with ⟨u, v, huv, hu, hv⟩
        have hle := pairwise_adjIn _ hsort u v huv
        exact Or.inr ⟨kv, hkv, plst, hproj, hsort, Or.inl ⟨hdir, u, v, hu, hv, huv, hle⟩⟩
      · rw [hproj] at hadj
        rcases adjIn_map Prod.snd plst b a hadj with ⟨v, u, hvu, hv, hu⟩
        have hle := pairwise_adjIn _ hsort v u hvu
        exact Or.inr ⟨kv, hkv, plst, hproj, hsort, Or.inr ⟨hdir, u, v, hu, hv, hvu, hle⟩⟩

def idxW : RowIdx :=
  [((13 : ℤ), [((⟨4, 0⟩ : Fq), PId.PUH 13 0), ((⟨9, 0⟩ : Fq), PId.PUH 13 1)])]

theorem c5_chain_direction_witness :
    rowKeysDistinctB idxW = true ∧
    ∃ r ∈ [(13 : ℤ)], ∃ u v : Fq × PId, PId.PUH 13 0 = u.2 ∧ PId.PUH 13 1 = v.2 ∧
      adjIn (ordered_in_row idxW r) u v ∧ Fq.lt u.1 v.1 := by
  constructor
  · decide
  · have h : nmMem (connect_purple_rows idxW [(13 : ℤ)] dirRight [])
        (PId.PUH 13 0) (PId.PUH 13 1) := by decide
    rcases (c5_chain_direction idxW [(13 : ℤ)] [] (PId.PUH 13 0) (PId.PUH 13 1) [] rPurple
        og_dir (by decide)).1 h with h1 | h2
    · exact absurd h1 (nmMem_nil _ _)
    · exact h2

/- ---------------------------------------------------------------------
C6: forbidden 125/126 lane-change pair.
--------------------------------------------------------------------- -/

theorem foldl_nmMem_at {α : Type} (f : NextMap → α → NextMap) (l : List α) (nm : NextMap)
    (a b : PId) (x : α) (hx : x ∈ l)
    (hadd : ∀ nm', nmMem (f nm' x) a b)
    (hmono : ∀ nm' y, y ∈ l → nmMem nm' a b → nmMem (f nm' y) a b) :
    nmMem (l.foldl f nm) a b := by
  rcases List.append_of_mem hx with ⟨s, t, heq⟩
  subst heq
  rw [List.foldl_append, List.foldl_cons]
  apply foldl_nmMem_mono f t _ a b
  · intro nm' z hz hmem
    exact hmono nm' z (List.mem_append_right s (List.mem_cons_of_mem x hz)) hmem
  · exact hadd _

theorem lane_change_og_origin (rowX : RowIdx) (rF rT : ℤ) (allow : Bool) (nm : NextMap)
    (a b : PId) (h : nmMem (lane_change_og rowX rF rT allow nm) a b) :
    nmMem nm a b ∨ (allow = true ∧ ∃ x, (x, a) ∈ (aget rowX rF).getD [] ∧
      aget ((aget rowX rT).getD []) x = some b) := by
  cases allow with
  | false => exact Or.inl h
  | true =>
    have hm2 : nmMem (if (aget rowX rF).getD [] = [] ∨ (aget rowX rT).getD [] = [] then nm
        else ((aget rowX rF).getD []).foldl (fun nm xp =>
          match aget ((aget rowX rT).getD []) xp.1 with
          | some pid2 => add_edge nm xp.2 (some pid2)
          | none => nm) nm) a b := h
    split_ifs at hm2 with h1
    · exact Or.inl hm2
    · have hstep : ∀ nm' (xp : Fq × PId), xp ∈ (aget rowX rF).getD [] →
          nmMem ((fun nm xp =>
            match aget ((aget rowX rT).getD []) xp.1 with
            | some pid2 => add_edge nm xp.2 (some pid2)
            | none => nm) nm' xp) a b →
          nmMem nm' a b ∨ (a = xp.2 ∧ aget ((aget rowX rT).getD []) xp.1 = some b) := by
        intro nm' xp _ hm3
        have hm4 : nmMem (match aget ((aget rowX rT).getD []) xp.1 with
            | some pid2 => add_edge nm' xp.2 (some pid2)
            | none => nm') a b := hm3
        cases hg : aget ((aget rowX rT).getD []) xp.1 with
        | none =>
          rw [hg] at hm4
          exact Or.inl hm4
        | some pid2 =>
          rw [hg] at hm4
          rcases (add_edge_mem nm' xp.2 (some pid2) a b).mp hm4 with h4 | ⟨h4, h5⟩
          · exact Or.inl h4
          · exact Or.inr ⟨h4, h5⟩
      rcases foldl_nmMem_origin _ _ nm a b
        (fun xp : Fq × PId => a = xp.2 ∧ aget ((aget rowX rT).getD []) xp.1 = some b)
        hstep hm2 with h2 | ⟨xp, hxp, hqa, hqb⟩
      · exact Or.inl h2
      · refine Or.inr ⟨rfl, xp.1, ?_, hqb⟩
        rw [hqa]
        exact mem_pair_eta xp hxp

theorem lane_change_og_mono (rowX : RowIdx) (rF rT : ℤ) (allow : Bool) (nm : NextMap)
    (a b : PId) (h : nmMem nm a b) : nmMem (lane_change_og rowX rF rT allow nm) a b := by
  cases allow with
  | false => exact h
  | true =>
    show nmMem (if (aget rowX rF).getD [] = [] ∨ (aget rowX rT).getD [] = [] then nm
      else ((aget rowX rF).getD []).foldl (fun nm xp =>
        match aget ((aget rowX rT).getD []) xp.1 with
        | some pid2 => add_edge nm xp.2 (some pid2)
        | none => nm) nm) a b
    split_ifs with h1
    · exact h
    · apply foldl_nmMem_mono _ _ nm a b _ h
      intro nm' xp _ hmem
      cases hg : aget ((aget rowX rT).getD []) xp.1 with
      | none => simpa [hg] using hmem
      | some pid2 => simpa [hg] using add_edge_mono nm' xp.2 (some pid2) a b hmem

theorem lane_change_og_adds (rowX : RowIdx) (rF rT : ℤ) (nm : NextMap) (x : Fq) (p q : PId)
    (hp : (x, p) ∈ (aget rowX rF).getD []) (hq : aget ((aget rowX rT).getD []) x = some q) :
    nmMem (lane_change_og rowX rF rT true nm) p q := by
  show nmMem (if (aget rowX rF).getD [] = [] ∨ (aget rowX rT).getD [] = [] then nm
    else ((aget rowX rF).getD []).foldl (fun nm xp =>
      match aget ((aget rowX rT).getD []) xp.1 with
      | some pid2 => add_edge nm xp.2 (some pid2)
      | none => nm) nm) p q
  have hne1 : ¬ (aget rowX rF).getD [] = [] := by
    intro hcon
    rw [hcon] at hp
    exact List.not_mem_nil _ hp
  have hne2 : ¬ (aget rowX rT).getD [] = [] := by
    intro hcon
    rw [hcon] at hq
    cases hq
  rw [if_neg (by intro hcon; rcases hcon with hcon | hcon; exact hne1 hcon; exact hne2 hcon)]
  apply foldl_nmMem_at _ _ nm p q (x, p) hp
  · intro nm'
    have hg : aget ((aget rowX rT).getD []) (x, p).1 = some q := hq
    rw [hg]
    exact (add_edge_mem nm' p (some q) p q).mpr (Or.inr ⟨rfl, rfl⟩)
  · intro nm' xp _ hmem
    cases hg : aget ((aget rowX rT).getD []) xp.1 with
    | none => simpa [hg] using hmem
    | some pid2 => simpa [hg] using add_edge_mono nm' xp.2 (some pid2) p q hmem

theorem ogLaneStep_mono (oX gX : RowIdx) (r : ℤ) (nm : NextMap) (rTo : ℤ) (a b : PId)
    (h : nmMem nm a b) : nmMem (ogLaneStep oX gX r nm rTo) a b := by
  rw [ogLaneStep]
  split_ifs with h1
  · exact lane_change_og_mono gX r rTo _ _ a b (lane_change_og_mono oX r rTo _ _ a b h)
  · exact h

theorem ogLaneStep_origin (oX gX : RowIdx) (r : ℤ) (nm : NextMap) (rTo : ℤ) (a b : PId)
    (h : nmMem (ogLaneStep oX gX r nm rTo) a b) :
    nmMem nm a b ∨ (rTo ∈ allOgRows oX gX ∧ ogAllow r rTo = true ∧
      ((∃ x, (x, a) ∈ (aget oX r).getD [] ∧ aget ((aget oX rTo).getD []) x = some b) ∨
       (∃ x, (x, a) ∈ (aget gX r).getD [] ∧ aget ((aget gX rTo).getD []) x = some b))) := by
  rw [ogLaneStep] at h
  split_ifs at h with h1
  · rcases lane_change_og_origin gX r rTo _ _ a b h with h2 | ⟨hal, hg⟩
    · rcases lane_change_og_origin oX r rTo _ _ a b h2 with h3 | ⟨hal, ho⟩
      · exact Or.inl h3
      · exact Or.inr ⟨h1, hal, Or.inl ho⟩
    · exact Or.inr ⟨h1, hal, Or.inr hg⟩
  · exact Or.inl h

theorem ogLaneBlock_origin (oX gX : RowIdx) (nm : NextMap) (a b : PId)
    (h : nmMem (ogLaneBlock oX gX nm) a b) :
    nmMem nm a b ∨ ∃ r ∈ allOgRows oX gX, ∃ rTo, (rTo = r - 1 ∨ rTo = r + 1) ∧
      rTo ∈ allOgRows oX gX ∧ ogAllow r rTo = true ∧
      ((∃ x, (x, a) ∈ (aget oX r).getD [] ∧ aget ((aget oX rTo).getD []) x = some b) ∨
       (∃ x, (x, a) ∈ (aget gX r).getD [] ∧ aget ((aget gX rTo).getD []) x = some b)) := by
  rw [ogLaneBlock] at h
  apply foldl_nmMem_origin _ _ nm a b _ _ h
  intro nm' r _ hm
  have hstep : ∀ nm2 rTo, rTo ∈ ([r - 1, r + 1] : List ℤ) →
      nmMem (ogLaneStep oX gX r nm2 rTo) a b →
      nmMem nm2 a b ∨ ((rTo = r - 1 ∨ rTo = r + 1) ∧ rTo ∈ allOgRows oX gX ∧
        ogAllow r rTo = true ∧
        ((∃ x, (x, a) ∈ (aget oX r).getD [] ∧ aget ((aget oX rTo).getD []) x = some b) ∨
         (∃ x, (x, a) ∈ (aget gX r).getD [] ∧ aget ((aget gX rTo).getD []) x = some b))) := by
    intro nm2 rTo hrTo hm2
    rcases ogLaneStep_origin oX gX r nm2 rTo a b hm2 with h3 | ⟨hmem, hal, hpair⟩
    · exact Or.inl h3
    · refine Or.inr ⟨?_, hmem, hal, hpair⟩
      rcases List.mem_cons.mp hrTo with h4 | h4
      · exact Or.inl h4
      · exact Or.inr (List.mem_singleton.mp h4)
  rcases foldl_nmMem_origin (ogLaneStep oX gX r) _ nm' a b _ hstep hm with
    h2 | ⟨rTo, hrTo, hq⟩
  · exact Or.inl h2
  · exact Or.inr ⟨rTo, hq.1, hq.2.1, hq.2.2⟩

def pidInOgRow (oX gX : RowIdx) (r : ℤ) (p : PId) : Prop :=
  (∃ x, (x, p) ∈ (aget oX r).getD []) ∨ (∃ x, (x, p) ∈ (aget gX r).getD [])

/-- Each id appears in the buckets of at most one row, as a decidable
Boolean checker over the two row indexes. -/
def ogRowInjB (oX gX : RowIdx) : Bool :=
  (oX ++ gX).all (fun kv => (oX ++ gX).all (fun kv2 =>
    decide (kv.1 = kv2.1) ||
      kv.2.all (fun xp => kv2.2.all (fun xq => decide (¬ xp.2 = xq.2)))))

theorem bucket_mem_entry (idx : RowIdx) (r : ℤ) (x : Fq) (p : PId)
    (h : (x, p) ∈ (aget idx r).getD []) : ∃ L, (r, L) ∈ idx ∧ (x, p) ∈ L := by
  cases hg : aget idx r with
  | none =>
    rw [hg] at h
    exact absurd h (List.not_mem_nil _)
  | some L =>
    rw [hg] at h
    exact ⟨L, aget_some_mem idx r L hg, h⟩

theorem abucket_mem_entry {κ ν : Type} [DecidableEq κ] (idx : List (κ × List ν)) (k : κ)
    (v : ν) (h : v ∈ (aget idx k).getD []) : ∃ L, (k, L) ∈ idx ∧ v ∈ L := by
  cases hg : aget idx k with
  | none =>
    rw [hg] at h
    exact absurd h (List.not_mem_nil _)
  | some L =>
    rw [hg] at h
    exact ⟨L, aget_some_mem idx k L hg, h⟩

theorem ogRowInjB_sound (oX gX : RowIdx) (h : ogRowInjB oX gX = true) (r r' : ℤ) (p : PId)
    (h1 : pidInOgRow oX gX r p) (h2 : pidInOgRow oX gX r' p) : r = r' := by
  have hx1 : ∃ L, (r, L) ∈ oX ++ gX ∧ ∃ x, (x, p) ∈ L := by
    rcases h1 with ⟨x, hx⟩ | ⟨x, hx⟩
    · rcases bucket_mem_entry oX r x p hx with ⟨L, hL, hmem⟩
      exact ⟨L, List.mem_append_left gX hL, x, hmem⟩
    · rcases bucket_mem_entry gX r x p hx with ⟨L, hL, hmem⟩
      exact ⟨L, List.mem_append_right oX hL, x, hmem⟩
  have hx2 : ∃ L, (r', L) ∈ oX ++ gX ∧ ∃ x, (x, p) ∈ L := by
    rcases h2 with ⟨x, hx⟩ | ⟨x, hx⟩
    · rcases bucket_mem_entry oX r' x p hx with ⟨L, hL, hmem⟩
      exact ⟨L, List.mem_append_left gX hL, x, hmem⟩
    · rcases bucket_mem_entry gX r' x p hx with ⟨L, hL, hmem⟩
      exact ⟨L, List.mem_append_right oX hL, x, hmem⟩
  rcases hx1 with ⟨L, hL, x, hmem⟩
  rcases hx2 with ⟨L', hL', x', hmem'⟩
  rw [ogRowInjB, List.all_eq_true] at h
  have h3 := List.all_eq_true.mp (h (r, L) hL) (r', L') hL'
  rcases Bool.or_eq_true_iff.mp h3 with h4 | h4
  · exact of_decide_eq_true h4
  · exfalso
    have h5 := List.all_eq_true.mp (List.all_eq_true.mp h4 (x, p) hmem) (x', p) hmem'
    exact (of_decide_eq_true h5) rfl

/-- C6: the orange/green lane-change loop never links a row-125 node with a
row-126 node in either direction (the 125/126 pair is the only forbidden
one), while every allowed numerically-adjacent row pair with an exact
x match does receive its lane-change edge (orange and green alike). -/
theorem c6_forbidden_pair (oX gX : RowIdx) (nm : NextMap) (a b : PId)
    (hinj : ogRowInjB oX gX = true)
    (ha : pidInOgRow oX gX 125 a) (hb : pidInOgRow oX gX 126 b) :
    (nmMem (ogLaneBlock oX gX nm) a b → nmMem nm a b) ∧
    (nmMem (ogLaneBlock oX gX nm) b a → nmMem nm b a) ∧
    (∀ (r rTo : ℤ) (x : Fq) (p q : PId), r ∈ allOgRows oX gX → rTo ∈ allOgRows oX gX →
      (rTo = r - 1 ∨ rTo = r + 1) → ogAllow r rTo = true →
      (x, p) ∈ (aget oX r).getD [] → aget ((aget oX rTo).getD []) x = some q →
      nmMem (ogLaneBlock oX gX nm) p q) ∧
    (∀ (r rTo : ℤ) (x : Fq) (p q : PId), r ∈ allOgRows oX gX → rTo ∈ allOgRows oX gX →
      (rTo = r - 1 ∨ rTo = r + 1) → ogAllow r rTo = true →
      (x, p) ∈ (aget gX r).getD [] → aget ((aget gX rTo).getD []) x = some q →
      nmMem (ogLaneBlock oX gX nm) p q) := by
  refine ⟨?_, ?_, ?_, ?_⟩
  · intro h
    rcases ogLaneBlock_origin oX gX nm a b h with h1 | ⟨r, hr, rTo, hadj, hrTo, hal, hpair⟩
    · exact h1
    · exfalso
      have har : pidInOgRow oX gX r a := by
        rcases hpair with ⟨x, hxa, -⟩ | ⟨x, hxa, -⟩
        · exact Or.inl ⟨x, hxa⟩
        · exact Or.inr ⟨x, hxa⟩
      have hbr : pidInOgRow oX gX rTo b := by
        rcases hpair with ⟨x, -, hxb⟩ | ⟨x, -, hxb⟩
        · exact Or.inl ⟨x, aget_some_mem _ x b hxb⟩
        · exact Or.inr ⟨x, aget_some_mem _ x b hxb⟩
      have he1 : r = 125 := ogRowInjB_sound oX gX hinj r 125 a har ha
      have he2 : rTo = 126 := ogRowInjB_sound oX gX hinj rTo 126 b hbr hb
      rw [he1, he2] at hal
      exact absurd hal (by decide)
  · intro h
    rcases ogLaneBlock_origin oX gX nm b a h with h1 | ⟨r, hr, rTo, hadj, hrTo, hal, hpair⟩
    · exact h1
    · exfalso
      have hbr : pidInOgRow oX gX r b := by
        rcases hpair with ⟨x, hxa, -⟩ | ⟨x, hxa, -⟩
        · exact Or.inl ⟨x, hxa⟩
        · exact Or.inr ⟨x, hxa⟩
      have har : pidInOgRow oX gX rTo a := by
        rcases hpair with ⟨x, -, hxb⟩ | ⟨x, -, hxb⟩
        · exact Or.inl ⟨x, aget_some_mem _ x a hxb⟩
        · exact Or.inr ⟨x, aget_some_mem _ x a hxb⟩
      have he1 : r = 126 := ogRowInjB_sound oX gX hinj r 126 b hbr hb
      have he2 : rTo = 125 := ogRowInjB_sound oX gX hinj rTo 125 a har ha
      rw [he1, he2] at hal
      exact absurd hal (by decide)
  · intro r rTo x p q hr hrTo hadj hal hp hq
    rw [ogLaneBlock]
    apply foldl_nmMem_at _ _ nm p q r hr
    · intro nm'
      apply foldl_nmMem_at _ _ nm' p q rTo
      · rcases hadj with h4 | h4
        · rw [h4]
          exact List.mem_cons_self _ _
        · rw [h4]
          exact List.mem_cons_of_mem _ (List.mem_singleton.mpr rfl)
      · intro nm2
        rw [ogLaneStep, if_pos hrTo]
        apply lane_change_og_mono
        rw [hal]
        exact lane_change_og_adds oX r rTo nm2 x p q hp hq
      · intro nm2 z _ hmem
        exact ogLaneStep_mono oX gX r nm2 z p q hmem
    · intro nm' z _ hmem
      apply foldl_nmMem_mono _ _ nm' p q _ hmem
      intro nm2 w _ hm2
      exact ogLaneStep_mono oX gX z nm2 w p q hm2
  · intro r rTo x p q hr hrTo hadj hal hp hq
    rw [ogLaneBlock]
    apply foldl_nmMem_at _ _ nm p q r hr
    · intro nm'
      apply foldl_nmMem_at _ _ nm' p q rTo
      · rcases hadj with h4 | h4
        · rw [h4]
          exact List.mem_cons_self _ _
        · rw [h4]
          exact List.mem_cons_of_mem _ (List.mem_singleton.mpr rfl)
      · intro nm2
        rw [ogLaneStep, if_pos hrTo]
        rw [hal]
        exact lane_change_og_adds gX r rTo _ x p q hp hq
      · intro nm2 z _ hmem
        exact ogLaneStep_mono oX gX r nm2 z p q hmem
    · intro nm' z _ hmem
      apply foldl_nmMem_mono _ _ nm' p q _ hmem
      intro nm2 w _ hm2
      exact ogLaneStep_mono oX gX z nm2 w p q hm2

def oXW : RowIdx :=
  [((124 : ℤ), [((⟨0, 0⟩ : Fq), PId.OR 124 1 0)]),
   ((125 : ℤ), [((⟨0, 0⟩ : Fq), PId.OR 125 1 0)]),
   ((126 : ℤ), [((⟨0, 0⟩ : Fq), PId.OR 126 1 0)])]

theorem c6_forbidden_pair_witness :
    ogRowInjB oXW [] = true ∧
    ¬ nmMem (ogLaneBlock oXW [] []) (PId.OR 125 1 0) (PId.OR 126 1 0) ∧
    nmMem (ogLaneBlock oXW [] []) (PId.OR 125 1 0) (PId.OR 124 1 0) := by
  refine ⟨by decide, ?_, ?_⟩
  · intro h
    exact absurd ((c6_forbidden_pair oXW [] [] (PId.OR 125 1 0) (PId.OR 126 1 0) (by decide)
      (Or.inl ⟨⟨0, 0⟩, by decide⟩) (Or.inl ⟨⟨0, 0⟩, by decide⟩)).1 h) (nmMem_nil _ _)
  · exact (c6_forbidden_pair oXW [] [] (PId.OR 125 1 0) (PId.OR 126 1 0) (by decide)
      (Or.inl ⟨⟨0, 0⟩, by decide⟩) (Or.inl ⟨⟨0, 0⟩, by decide⟩)).2.2.1 125 124 ⟨0, 0⟩
      (PId.OR 125 1 0) (PId.OR 124 1 0) (by decide) (by decide) (Or.inl (by decide))
      (by decide) (by decide) (by decide)

/- ---------------------------------------------------------------------
C3: Step-2 AIV blue fallback.  On integer-valued coordinates (all
coordinates the generator stores) the epsilon-tolerant running-minimum
scan computes the exact minimum and collects exact minimizers.
--------------------------------------------------------------------- -/

theorem Fq.d0_add (a b : Fq) (ha : a.d = 0) (hb : b.d = 0) : (a.add b).d = 0 := by
  rw [Fq.add]
  simp [ha, hb]

theorem Fq.d0_sub (a b : Fq) (ha : a.d = 0) (hb : b.d = 0) : (a.sub b).d = 0 := by
  rw [Fq.sub]
  simp [ha, hb]

theorem Fq.d0_mul (a b : Fq) (ha : a.d = 0) (hb : b.d = 0) : (a.mul b).d = 0 := by
  rw [Fq.mul]
  simp [ha, hb]

theorem Fq.int_lt_sub_eps (a b : Fq) (ha : a.d = 0) (hb : b.d = 0) :
    a.lt (b.sub Fq.eps) ↔ a.q < b.q := by
  rw [Fq.lt_iff, Fq.q_sub, Fq.q_eps, Fq.q_int a ha, Fq.q_int b hb]
  constructor
  · intro h
    by_contra hcon
    push_neg at hcon
    have hcast : (b.num : ℚ) ≤ (a.num : ℚ) := by exact_mod_cast hcon
    have hpos : (0 : ℚ) < 1 / 1000000000 := by norm_num
    linarith
  · intro h
    have hi : a.num < b.num := by exact_mod_cast h
    have h2 : a.num + 1 ≤ b.num := hi
    have hcast : (a.num : ℚ) + 1 ≤ (b.num : ℚ) := by exact_mod_cast h2
    have hlt : (1 : ℚ) / 1000000000 < 1 := by norm_num
    linarith

theorem Fq.int_abs_sub_le_eps (a b : Fq) (ha : a.d = 0) (hb : b.d = 0) :
    ((a.sub b).absv).le Fq.eps ↔ a.q = b.q := by
  rw [Fq.le_iff, Fq.q_absv, Fq.q_sub, Fq.q_eps, Fq.q_int a ha, Fq.q_int b hb]
  constructor
  · intro h
    by_contra hne
    have hne2 : a.num ≠ b.num := by
      intro hcon
      exact hne (by exact_mod_cast hcon)
    have h1 : 1 ≤ |a.num - b.num| := Int.one_le_abs (sub_ne_zero.mpr hne2)
    have hcast : (1 : ℚ) ≤ |(a.num : ℚ) - (b.num : ℚ)| := by
      have h3 : ((1 : ℤ) : ℚ) ≤ ((|a.num - b.num| : ℤ) : ℚ) := by exact_mod_cast h1
      push_cast at h3
      linarith [h3]
    have : (1 : ℚ) / 1000000000 < 1 := by norm_num
    linarith
  · intro h
    rw [h, sub_self, abs_zero]
    norm_num

theorem epsfold_int {α : Type} (dOf : α → Fq) (pidOf : α → PId) :
    ∀ (l : List α), (∀ x ∈ l, (dOf x).d = 0) → ∀ (b : Fq) (ids : List PId), b.d = 0 →
      ¬ ids = [] →
      ∃ m ids2, l.foldl (epsMinStep dOf pidOf) ((some b, ids) : Option Fq × List PId) =
          (some m, ids2) ∧
        m.d = 0 ∧ m.q ≤ b.q ∧ (∀ x ∈ l, m.q ≤ (dOf x).q) ∧ ¬ ids2 = [] ∧
        (∀ p ∈ ids2, (p ∈ ids ∧ m.q = b.q) ∨ ∃ x, x ∈ l ∧ pidOf x = p ∧ (dOf x).q = m.q) := by
  intro l
  induction l with
  | nil =>
    intro _ b ids hb hids
    refine ⟨b, ids, rfl, hb, le_refl _, ?_, hids, ?_⟩
    · intro x hx
      exact absurd hx (List.not_mem_nil x)
    · intro p hp
      exact Or.inl ⟨hp, rfl⟩
  | cons g t ih =>
    intro hint b ids hb hids
    have hgd : (dOf g).d = 0 := hint g (List.mem_cons_self g t)
    have hintt : ∀ x ∈ t, (dOf x).d = 0 := fun x hx => hint x (List.mem_cons_of_mem g hx)
    rw [List.foldl_cons]
    by_cases h1 : (dOf g).lt (b.sub Fq.eps)
    · have hq1 : (dOf g).q < b.q := (Fq.int_lt_sub_eps (dOf g) b hgd hb).mp h1
      have hstep : epsMinStep dOf pidOf (some b, ids) g = (some (dOf g), [pidOf g]) := by
        show (if (dOf g).lt (b.sub Fq.eps) then _ else _) = _
        rw [if_pos h1]
      rw [hstep]
      rcases ih hintt (dOf g) [pidOf g] hgd (by intro hcon; cases hcon) with
        ⟨m, ids2, heq, hmd, hmb, hall, hne2, hmem⟩
      refine ⟨m, ids2, heq, hmd, le_of_lt (lt_of_le_of_lt hmb hq1), ?_, hne2, ?_⟩
      · intro x hx
        rcases List.mem_cons.mp hx with hx1 | hx1
        · rw [hx1]
          exact hmb
        · exact hall x hx1
      · intro p hp
        rcases hmem p hp with ⟨hpg, hmq⟩ | ⟨x, hx, hpx, hdx⟩
        · refine Or.inr ⟨g, List.mem_cons_self g t, ?_, ?_⟩
          · exact (List.mem_singleton.mp hpg).symm
          · exact hmq.symm
        · exact Or.inr ⟨x, List.mem_cons_of_mem g hx, hpx, hdx⟩
    · by_cases h2 : (((dOf g).sub b).absv).le Fq.eps
      · have hq2 : (dOf g).q = b.q := (Fq.int_abs_sub_le_eps (dOf g) b hgd hb).mp h2
        have hstep : epsMinStep dOf pidOf (some b, ids) g = (some b, ids ++ [pidOf g]) := by
          show (if (dOf g).lt (b.sub Fq.eps) then _ else _) = _
          rw [if_neg h1, if_pos h2]
        rw [hstep]
        rcases ih hintt b (ids ++ [pidOf g]) hb (by
          intro hcon
          rcases List.append_eq_nil.mp hcon with ⟨-, hcon2⟩
          cases hcon2) with ⟨m, ids2, heq, hmd, hmb, hall, hne2, hmem⟩
        refine ⟨m, ids2, heq, hmd, hmb, ?_, hne2, ?_⟩
        · intro x hx
          rcases List.mem_cons.mp hx with hx1 | hx1
          · rw [hx1, hq2]
            exact hmb
          · exact hall x hx1
        · intro p hp
          rcases hmem p hp with ⟨hpg, hmq⟩ | ⟨x, hx, hpx, hdx⟩
          · rcases List.mem_append.mp hpg with hp1 | hp1
            · exact Or.inl ⟨hp1, hmq⟩
            · refine Or.inr ⟨g, List.mem_cons_self g t, (List.mem_singleton.mp hp1).symm, ?_⟩
              rw [hq2, ← hmq]
          · exact Or.inr ⟨x, List.mem_cons_of_mem g hx, hpx, hdx⟩
      · have hq3 : b.q < (dOf g).q := by
          have hn1 : ¬ (dOf g).q < b.q := fun hc =>
            h1 ((Fq.int_lt_sub_eps (dOf g) b hgd hb).mpr hc)
          have hn2 : ¬ (dOf g).q = b.q := fun hc =>
            h2 ((Fq.int_abs_sub_le_eps (dOf g) b hgd hb).mpr hc)
          rcases lt_trichotomy ((dOf g).q) b.q with hc | hc | hc
          · exact absurd hc hn1
          · exact absurd hc hn2
          · exact hc
        have hstep : epsMinStep dOf pidOf (some b, ids) g = (some b, ids) := by
          show (if (dOf g).lt (b.sub Fq.eps) then _ else _) = _
          rw [if_neg h1, if_neg h2]
        rw [hstep]
        rcases ih hintt b ids hb hids with ⟨m, ids2, heq, hmd, hmb, hall, hne2, hmem⟩
        refine ⟨m, ids2, heq, hmd, hmb, ?_, hne2, ?_⟩
        · intro x hx
          rcases List.mem_cons.mp hx with hx1 | hx1
          · rw [hx1]
            exact le_of_lt (lt_of_le_of_lt hmb hq3)
          · exact hall x hx1
        · intro p hp
          rcases hmem p hp with h5 | ⟨x, hx, hpx, hdx⟩
          · exact Or.inl h5
          · exact Or.inr ⟨x, List.mem_cons_of_mem g hx, hpx, hdx⟩

theorem epsMinScan_int_spec {α : Type} (dOf : α → Fq) (pidOf : α → PId) (l : List α)
    (hint : ∀ x ∈ l, (dOf x).d = 0) (hne : ¬ l = []) :
    ∃ m ids, epsMinScan dOf pidOf l = (some m, ids) ∧ ¬ ids = [] ∧
      (∀ p ∈ ids, ∃ x, x ∈ l ∧ pidOf x = p ∧ (dOf x).q = m.q) ∧
      (∀ x ∈ l, m.q ≤ (dOf x).q) ∧ m.d = 0 := by
  cases l with
  | nil => exact absurd rfl hne
  | cons g t =>
    have hgd : (dOf g).d = 0 := hint g (List.mem_cons_self g t)
    have hintt : ∀ x ∈ t, (dOf x).d = 0 := fun x hx => hint x (List.mem_cons_of_mem g hx)
    rcases epsfold_int dOf pidOf t hintt (dOf g) [pidOf g] hgd (by intro hcon; cases hcon)
      with ⟨m, ids2, heq, hmd, hmb, hall, hne2, hmem⟩
    refine ⟨m, ids2, ?_, hne2, ?_, ?_, hmd⟩
    · rw [epsMinScan, List.foldl_cons]
      exact heq
    · intro p hp
      rcases hmem p hp with ⟨hpg, hmq⟩ | ⟨x, hx, hpx, hdx⟩
      · exact ⟨g, List.mem_cons_self g t, (List.mem_singleton.mp hpg).symm, hmq.symm⟩
      · exact ⟨x, List.mem_cons_of_mem g hx, hpx, hdx⟩
    · intro x hx
      rcases List.mem_cons.mp hx with hx1 | hx1
      · rw [hx1]
        exact hmb
      · exact hall x hx1

theorem dedup_fold_mem {α : Type} [DecidableEq α] :
    ∀ (l : List α) (acc : List α) (p : α),
      p ∈ l.foldl (fun out g => if g ∈ out then out else out ++ [g]) acc ↔
        p ∈ acc ∨ p ∈ l := by
  intro l
  induction l with
  | nil =>
    intro acc p
    constructor
    · exact fun h => Or.inl h
    · rintro (h | h)
      · exact h
      · exact absurd h (List.not_mem_nil p)
  | cons g t ih =>
    intro acc p
    rw [List.foldl_cons]
    by_cases hg : g ∈ acc
    · rw [if_pos hg, ih]
      constructor
      · rintro (h | h)
        · exact Or.inl h
        · exact Or.inr (List.mem_cons_of_mem g h)
      · rintro (h | h)
        · exact Or.inl h
        · rcases List.mem_cons.mp h with h1 | h1
          · exact Or.inl (h1 ▸ hg)
          · exact Or.inr h1
    · rw [if_neg hg, ih]
      constructor
      · rintro (h | h)
        · rcases List.mem_append.mp h with h1 | h1
          · exact Or.inl h1
          · exact Or.inr (List.mem_cons.mpr (Or.inl (List.mem_singleton.mp h1)))
        · exact Or.inr (List.mem_cons_of_mem g h)
      · rintro (h | h)
        · exact Or.inl (List.mem_append_left _ h)
        · rcases List.mem_cons.mp h with h1 | h1
          · exact Or.inl (List.mem_append_right _ (List.mem_singleton.mpr h1))
          · exact Or.inr h1

theorem pyDedup_mem {α : Type} [DecidableEq α] (l : List α) (p : α) :
    p ∈ pyDedup l ↔ p ∈ l := by
  rw [pyDedup, dedup_fold_mem]
  constructor
  · rintro (h | h)
    · exact absurd h (List.not_mem_nil p)
    · exact h
  · exact fun h => Or.inr h

theorem pyDedup_ne_nil {α : Type} [DecidableEq α] (l : List α) (h : ¬ l = []) :
    ¬ pyDedup l = [] := by
  cases l with
  | nil => exact absurd rfl h
  | cons x t =>
    intro hcon
    have : x ∈ pyDedup (x :: t) := (pyDedup_mem _ x).mpr (List.mem_cons_self x t)
    rw [hcon] at this
    exact List.not_mem_nil x this

theorem take_two_ne_nil {α : Type} (l : List α) (h : ¬ l = []) : ¬ l.take 2 = [] := by
  cases l with
  | nil => exact absurd rfl h
  | cons x t =>
    intro hcon
    cases hcon

theorem bidirAdd_mono (gid : PId) (nm : NextMap) (pid a b : PId) (h : nmMem nm a b) :
    nmMem (bidirAdd gid nm pid) a b :=
  add_edge_mono _ _ _ a b (add_edge_mono _ _ _ a b h)

theorem bidirAdd_fwd (gid : PId) (nm : NextMap) (pid : PId) :
    nmMem (bidirAdd gid nm pid) gid pid :=
  add_edge_mono _ _ _ gid pid
    ((add_edge_mem nm gid (some pid) gid pid).mpr (Or.inr ⟨rfl, rfl⟩))

theorem bidirAdd_bwd (gid : PId) (nm : NextMap) (pid : PId) :
    nmMem (bidirAdd gid nm pid) pid gid :=
  (add_edge_mem _ pid (some gid) pid gid).mpr (Or.inr ⟨rfl, rfl⟩)

/-- The squared Euclidean distance used by the Step-2 fallback. -/
def step2d (kp : PId × PointData) (g : PId × Fq × Fq) : Fq :=
  (((g.2.1).sub kp.2.x).mul ((g.2.1).sub kp.2.x)).add
    (((g.2.2).sub kp.2.y).mul (((g.2.2).sub kp.2.y)))

/-- C3: for a blue node on column AIV outside rows 102..149 with no grey
out-neighbor, the Step-2 fallback is a no-op when no grey node lies
strictly to its right; otherwise it links the node bidirectionally with at
most two grey ids, each of which exactly minimizes the squared Euclidean
distance over the right-side grey candidates (on the integer-valued
coordinates the generator produces, the 1e-9-tolerant scan is exact). -/
theorem c3_fallback (pts : Points) (allGrey : List (PId × Fq × Fq)) (nm : NextMap)
    (kp : PId × PointData)
    (hb : kp.2.region = rBlue)
    (hx : pyRound kp.2.x = (colAIV : ℤ) - 1)
    (hng : has_any_grey_neighbor pts nm kp.1 = false)
    (hy : ¬ (102 ≤ pyRound kp.2.y ∧ pyRound kp.2.y ≤ 149))
    (hxi : kp.2.x.d = 0) (hyi : kp.2.y.d = 0)
    (hgi : ∀ g ∈ allGrey, (g.2.1).d = 0 ∧ (g.2.2).d = 0) :
    (allGrey.filter (fun g => ((kp.2.x).add Fq.eps).lt g.2.1) = [] →
      step2One pts allGrey nm kp = nm) ∧
    (¬ allGrey.filter (fun g => ((kp.2.x).add Fq.eps).lt g.2.1) = [] →
      ∃ (gids : List PId) (m : Fq),
        ¬ gids = [] ∧ gids.length ≤ 2 ∧
        step2One pts allGrey nm kp = gids.foldl (bidirAdd kp.1) nm ∧
        (∀ g ∈ gids, nmMem (step2One pts allGrey nm kp) kp.1 g ∧
          nmMem (step2One pts allGrey nm kp) g kp.1) ∧
        (∀ g ∈ gids, ∃ t, t ∈ allGrey.filter (fun g => ((kp.2.x).add Fq.eps).lt g.2.1) ∧
          t.1 = g ∧ (step2d kp t).q = m.q) ∧
        (∀ t ∈ allGrey.filter (fun g => ((kp.2.x).add Fq.eps).lt g.2.1),
          m.q ≤ (step2d kp t).q)) := by
  have hg1 : ¬ ¬ kp.2.region = rBlue := not_not_intro hb
  have hg2 : ¬ ¬ pyRound kp.2.x = (colAIV : ℤ) - 1 := not_not_intro hx
  have hg3 : ¬ has_any_grey_neighbor pts nm kp.1 = true := by
    rw [hng]
    exact Bool.false_ne_true
  constructor
  · intro hcand
    simp only [step2One]
    rw [if_neg hg1, if_neg hg2, if_neg hg3, if_neg hy, if_pos hcand]
  · intro hcand
    have hint : ∀ g ∈ allGrey.filter (fun g => ((kp.2.x).add Fq.eps).lt g.2.1),
        ((fun g : PId × Fq × Fq =>
          (((g.2.1).sub kp.2.x).mul ((g.2.1).sub kp.2.x)).add
            (((g.2.2).sub kp.2.y).mul (((g.2.2).sub kp.2.y)))) g).d = 0 := by
      intro g hg
      have hga : g ∈ allGrey := (List.mem_filter.mp hg).1
      obtain ⟨h1, h2⟩ := hgi g hga
      exact Fq.d0_add _ _
        (Fq.d0_mul _ _ (Fq.d0_sub _ _ h1 hxi) (Fq.d0_sub _ _ h1 hxi))
        (Fq.d0_mul _ _ (Fq.d0_sub _ _ h2 hyi) (Fq.d0_sub _ _ h2 hyi))
    rcases epsMinScan_int_spec
        (fun g : PId × Fq × Fq =>
          (((g.2.1).sub kp.2.x).mul ((g.2.1).sub kp.2.x)).add
            (((g.2.2).sub kp.2.y).mul (((g.2.2).sub kp.2.y))))
        (fun g => g.1)
        (allGrey.filter (fun g => ((kp.2.x).add Fq.eps).lt g.2.1)) hint hcand with
      ⟨m, ids, heq, hne, hminzr, hlow, hmd⟩
    have hstep2 : step2One pts allGrey nm kp =
        ((pyDedup ids).take 2).foldl (bidirAdd kp.1) nm := by
      simp only [step2One]
      rw [if_neg hg1, if_neg hg2, if_neg hg3, if_neg hy, if_neg hcand, heq]
    refine ⟨(pyDedup ids).take 2, m, ?_, take_two_le _, hstep2, ?_, ?_, ?_⟩
    · exact take_two_ne_nil _ (pyDedup_ne_nil ids hne)
    · intro g hg
      rw [hstep2]
      constructor
      · apply foldl_nmMem_at _ _ nm kp.1 g g hg
        · intro nm'
          exact bidirAdd_fwd kp.1 nm' g
        · intro nm' z _ hmem
          exact bidirAdd_mono kp.1 nm' z kp.1 g hmem
      · apply foldl_nmMem_at _ _ nm g kp.1 g hg
        · intro nm'
          exact bidirAdd_bwd kp.1 nm' g
        · intro nm' z _ hmem
          exact bidirAdd_mono kp.1 nm' z g kp.1 hmem
    · intro g hg
      have hgids : g ∈ ids := (pyDedup_mem ids g).mp (List.take_subset 2 _ hg)
      rcases hminzr g hgids with ⟨x, hx1, hx2, hx3⟩
      exact ⟨x, hx1, hx2, hx3⟩
    · intro t ht
      exact hlow t ht

def kpC3 : PId × PointData :=
  (PId.BL 28 932, mkPoint ⟨931, 0⟩ ⟨28, 0⟩ rBlue (PMeta.cell 28 932))

def ptsC3 : Points := [kpC3]

def greyC3 : List (PId × Fq × Fq) :=
  [(PId.GYV 934 28 0, ⟨934, 0⟩, ⟨28, 0⟩), (PId.GYH 19 0, ⟨934, 0⟩, ⟨28, 0⟩),
   (PId.GYH 19 1, ⟨940, 0⟩, ⟨28, 0⟩)]

theorem c3_fallback_witness :
    (¬ greyC3.filter (fun g => (((kpC3.2).x).add Fq.eps).lt g.2.1) = []) ∧
    ∃ (gids : List PId) (m : Fq), ¬ gids = [] ∧ gids.length ≤ 2 ∧
      step2One ptsC3 greyC3 [] kpC3 = gids.foldl (bidirAdd kpC3.1) [] ∧
      (∀ g ∈ gids, nmMem (step2One ptsC3 greyC3 [] kpC3) kpC3.1 g ∧
        nmMem (step2One ptsC3 greyC3 [] kpC3) g kpC3.1) ∧
      (∀ g ∈ gids, ∃ t, t ∈ greyC3.filter (fun g => (((kpC3.2).x).add Fq.eps).lt g.2.1) ∧
        t.1 = g ∧ (step2d kpC3 t).q = m.q) ∧
      (∀ t ∈ greyC3.filter (fun g => (((kpC3.2).x).add Fq.eps).lt g.2.1),
        m.q ≤ (step2d kpC3 t).q) :=
  ⟨by decide, (c3_fallback ptsC3 greyC3 [] kpC3 (by decide) (by decide) (by decide)
    (by decide) rfl rfl (by decide)).2 (by decide)⟩

/- ---------------------------------------------------------------------
C8 and C9: no self-loops, sorted next lists, referential integrity.
The invariant GoodNM states that every edge of the next map joins two
distinct ids that both name nodes of the point dictionary; it is carried
through every connectivity block.
--------------------------------------------------------------------- -/

def EdgeOK (pts : Points) (a b : PId) : Prop :=
  ¬ a = b ∧ a ∈ keysOf pts ∧ b ∈ keysOf pts

def GoodNM (pts : Points) (nm : NextMap) : Prop :=
  ∀ a b, nmMem nm a b → EdgeOK pts a b

theorem GoodNM_nil (pts : Points) : GoodNM pts [] := by
  intro a b h
  exact absurd h (nmMem_nil a b)

theorem GoodNM_add_edge (pts : Points) (nm : NextMap) (c : PId) (o : Option PId)
    (hg : GoodNM pts nm) (hok : ∀ b, o = some b → EdgeOK pts c b) :
    GoodNM pts (add_edge nm c o) := by
  intro a b h
  rcases (add_edge_mem nm c o a b).mp h with h1 | ⟨h1, h2⟩
  · exact hg a b h1
  · rw [h1]
    exact hok b h2

theorem mem_keysOf (pts : Points) (p : PId) (pd : PointData) (h : (p, pd) ∈ pts) :
    p ∈ keysOf pts :=
  List.mem_map.mpr ⟨(p, pd), h, rfl⟩

theorem nodupkeys_pairs {α β : Type} (m : List (α × β)) (h : NodupKeys m) : m.Nodup :=
  List.Nodup.of_map Prod.fst h

theorem nodup_adjIn_ne {α : Type} (l : List α) (h : l.Nodup) (u v : α) (ha : adjIn l u v) :
    ¬ u = v :=
  pairwise_adjIn l h u v ha

/-- foldl with an invariant indexed by the remaining suffix. -/
theorem foldl_invariant_suffix {α β : Type} (f : β → α → β) (P : List α → β → Prop) :
    ∀ (l : List α) (b : β), P l b → (∀ rest x b2, P (x :: rest) b2 → P rest (f b2 x)) →
      P [] (l.foldl f b) := by
  intro l
  induction l with
  | nil => exact fun b hb _ => hb
  | cons x t ih =>
    intro b hb hstep
    rw [List.foldl_cons]
    exact ih (f b x) (hstep t x b hb) hstep

theorem epsMinScan_sub {α : Type} (dOf : α → Fq) (pidOf : α → PId) (l : List α) :
    ∀ p ∈ (epsMinScan dOf pidOf l).2, ∃ x ∈ l, pidOf x = p := by
  rw [epsMinScan]
  apply @foldl_preserve _ _
    (fun acc : Option Fq × List PId => ∀ p ∈ acc.2, ∃ x ∈ l, pidOf x = p)
  · intro p hp
    exact absurd hp (List.not_mem_nil p)
  · intro acc g hacc hgl
    rw [epsMinStep]
    cases acc.1 with
    | none =>
      intro p hp
      exact ⟨g, hgl, (List.mem_singleton.mp hp).symm⟩
    | some bb =>
      show ∀ p ∈ (if (dOf g).lt (bb.sub Fq.eps) then
            ((some (dOf g), [pidOf g]) : Option Fq × List PId)
          else if (((dOf g).sub bb).absv).le Fq.eps then (some bb, acc.2 ++ [pidOf g])
          else (some bb, acc.2)).2, ∃ x ∈ l, pidOf x = p
      split_ifs with h1 h2
      · intro p hp
        exact ⟨g, hgl, (List.mem_singleton.mp hp).symm⟩
      · intro p hp
        rcases List.mem_append.mp hp with hp1 | hp1
        · exact hacc p hp1
        · exact ⟨g, hgl, (List.mem_singleton.mp hp1).symm⟩
      · exact hacc

theorem pyDedup_sub {α : Type} [DecidableEq α] (l : List α) (p : α) (h : p ∈ pyDedup l) :
    p ∈ l :=
  (pyDedup_mem l p).mp h

theorem nearest_by_y_ids_sub (cands : List (PId × Fq × Fq)) (y : Fq) (cap : ℕ) :
    ∀ p ∈ nearest_by_y_ids cands y cap, ∃ t ∈ cands, t.1 = p := by
  intro p hp
  simp only [nearest_by_y_ids] at hp
  split_ifs at hp <;>
    first
      | exact absurd hp (List.not_mem_nil p)
      | (have hp2 := pyDedup_sub _ p (List.take_subset cap _ hp)
         rcases epsMinScan_sub _ _ _ p hp2 with ⟨x, hx, hpx⟩
         refine ⟨x, ?_, hpx⟩
         have hxs : x ∈ List.insertionSort (fun a b => Fq.le a.2.2 b.2.2) cands := by
           rcases List.mem_append.mp hx with hx1 | hx1
           · first
               | exact List.drop_subset _ _ (List.take_subset _ _ hx1)
               | exact absurd hx1 (List.not_mem_nil x)
           · exact List.drop_subset _ _ (List.take_subset _ _ hx1)
         exact (List.perm_insertionSort _ cands).mem_iff.mp hxs)

theorem nearest_by_x_ids_sub (cands : List (PId × Fq × Fq)) (x : Fq) (cap : ℕ) :
    ∀ p ∈ nearest_by_x_ids cands x cap, ∃ t ∈ cands, t.1 = p := by
  intro p hp
  simp only [nearest_by_x_ids] at hp
  split_ifs at hp with h1
  · exact absurd hp (List.not_mem_nil p)
  · have hp2 := pyDedup_sub _ p (List.take_subset cap _ hp)
    rcases epsMinScan_sub _ _ _ p hp2 with ⟨t, ht, hpt⟩
    exact ⟨t, ht, hpt⟩

theorem nearest_grey_sub (bx : Fq) (band : List (PId × Fq × Fq)) (cap : ℕ) :
    ∀ p ∈ nearest_grey_by_x_in_band bx band cap, ∃ t ∈ band, t.1 = p := by
  intro p hp
  simp only [nearest_grey_by_x_in_band] at hp
  split_ifs at hp with h1
  · exact absurd hp (List.not_mem_nil p)
  · have hp2 := pyDedup_sub _ p (List.take_subset cap _ hp)
    rcases epsMinScan_sub _ _ _ p hp2 with ⟨t, ht, hpt⟩
    exact ⟨t, ht, hpt⟩

theorem build_row_index_sound (pts : Points) (region : String) :
    ∀ r L, (r, L) ∈ build_row_index pts region →
      NodupKeys L ∧ ∀ x p, (x, p) ∈ L →
        ∃ pd, (p, pd) ∈ pts ∧ pd.x = x ∧ pyRound pd.y = r ∧ pd.region = region := by
  rw [build_row_index]
  apply @foldl_preserve _ _ (fun idx : RowIdx => ∀ r L, (r, L) ∈ idx →
    NodupKeys L ∧ ∀ x p, (x, p) ∈ L →
      ∃ pd, (p, pd) ∈ pts ∧ pd.x = x ∧ pyRound pd.y = r ∧ pd.region = region)
  · intro r L hL
    exact absurd hL (List.not_mem_nil _)
  · intro idx kp hidx hkp
    split_ifs with hc
    · intro r L hL
      rw [rowIdxInsert] at hL
      rcases upsert_mem _ _ _ _ _ _ hL with hold | ⟨hrk, hcase⟩
      · exact hidx r L hold
      · have hmemkp : (kp.1, kp.2) ∈ pts := mem_pair_eta kp hkp
        have hok : ∀ x p, (x, p) = ((kp.2.x : Fq), kp.1) →
            ∃ pd, (p, pd) ∈ pts ∧ pd.x = x ∧ pyRound pd.y = r ∧ pd.region = region := by
          intro x p hxp
          have hx2 : x = kp.2.x := congrArg Prod.fst hxp
          have hp2 : p = kp.1 := congrArg Prod.snd hxp
          refine ⟨kp.2, ?_, hx2.symm, ?_, hc.1⟩
          · rw [hp2]
            exact hmemkp
          · rw [hrk]
        rcases hcase with hnew | ⟨L0, hL0, hLf⟩
        · rw [hnew]
          constructor
          · exact upsert_nodupkeys _ _ _ _ (by constructor)
          · intro x p hxp
            rcases upsert_mem _ _ _ _ _ _ hxp with hcon | ⟨hxk, hpc⟩
            · exact absurd hcon (List.not_mem_nil _)
            · apply hok x p
              rcases hpc with hpc | ⟨v, hv, hpc⟩
              · exact Prod.ext hxk hpc
              · exact Prod.ext hxk hpc
        · obtain ⟨hnk0, hso⟩ := hidx r L0 (by rw [hrk]; exact hL0)
          rw [hLf]
          constructor
          · exact upsert_nodupkeys _ _ _ _ hnk0
          · intro x p hxp
            rcases upsert_mem _ _ _ _ _ _ hxp with hold2 | ⟨hxk, hpc⟩
            · exact hso x p hold2
            · apply hok x p
              rcases hpc with hpc | ⟨v, hv, hpc⟩
              · exact Prod.ext hxk hpc
              · exact Prod.ext hxk hpc
    · exact hidx

theorem build_row_x_index_sound (pts : Points) (region : String) :
    ∀ r L, (r, L) ∈ build_row_x_index pts region →
      NodupKeys L ∧ ∀ x p, (x, p) ∈ L →
        ∃ pd, (p, pd) ∈ pts ∧ pd.x = x ∧ pyRound pd.y = r ∧ pd.region = region := by
  rw [build_row_x_index]
  apply @foldl_preserve _ _ (fun idx : RowIdx => ∀ r L, (r, L) ∈ idx →
    NodupKeys L ∧ ∀ x p, (x, p) ∈ L →
      ∃ pd, (p, pd) ∈ pts ∧ pd.x = x ∧ pyRound pd.y = r ∧ pd.region = region)
  · intro r L hL
    exact absurd hL (List.not_mem_nil _)
  · intro idx kp hidx hkp
    split_ifs with hc
    · intro r L hL
      rw [rowIdxInsert] at hL
      rcases upsert_mem _ _ _ _ _ _ hL with hold | ⟨hrk, hcase⟩
      · exact hidx r L hold
      · have hmemkp : (kp.1, kp.2) ∈ pts := mem_pair_eta kp hkp
        have hok : ∀ x p, (x, p) = ((kp.2.x : Fq), kp.1) →
            ∃ pd, (p, pd) ∈ pts ∧ pd.x = x ∧ pyRound pd.y = r ∧ pd.region = region := by
          intro x p hxp
          have hx2 : x = kp.2.x := congrArg Prod.fst hxp
          have hp2 : p = kp.1 := congrArg Prod.snd hxp
          refine ⟨kp.2, ?_, hx2.symm, ?_, hc.1⟩
          · rw [hp2]
            exact hmemkp
          · rw [hrk]
        rcases hcase with hnew | ⟨L0, hL0, hLf⟩
        · rw [hnew]
          constructor
          · exact upsert_nodupkeys _ _ _ _ (by constructor)
          · intro x p hxp
            rcases upsert_mem _ _ _ _ _ _ hxp with hcon | ⟨hxk, hpc⟩
            · exact absurd hcon (List.not_mem_nil _)
            · apply hok x p
              rcases hpc with hpc | ⟨v, hv, hpc⟩
              · exact Prod.ext hxk hpc
              · exact Prod.ext hxk hpc
        · obtain ⟨hnk0, hso⟩ := hidx r L0 (by rw [hrk]; exact hL0)
          rw [hLf]
          constructor
          · exact upsert_nodupkeys _ _ _ _ hnk0
          · intro x p hxp
            rcases upsert_mem _ _ _ _ _ _ hxp with hold2 | ⟨hxk, hpc⟩
            · exact hso x p hold2
            · apply hok x p
              rcases hpc with hpc | ⟨v, hv, hpc⟩
              · exact Prod.ext hxk hpc
              · exact Prod.ext hxk hpc
    · exact hidx

theorem build_col_index_sound (pts : Points) (region : String) :
    ∀ x L, (x, L) ∈ build_col_index pts region →
      NodupKeys L ∧ ∀ y p, (y, p) ∈ L →
        ∃ pd, (p, pd) ∈ pts ∧ pyRound pd.x = x ∧ pyRound pd.y = y ∧ pd.region = region := by
  rw [build_col_index]
  apply @foldl_preserve _ _ (fun idx : ColIdx => ∀ x L, (x, L) ∈ idx →
    NodupKeys L ∧ ∀ y p, (y, p) ∈ L →
      ∃ pd, (p, pd) ∈ pts ∧ pyRound pd.x = x ∧ pyRound pd.y = y ∧ pd.region = region)
  · intro x L hL
    exact absurd hL (List.not_mem_nil _)
  · intro idx kp hidx hkp
    split_ifs with hc
    · intro x L hL
      rcases upsert_mem _ _ _ _ _ _ hL with hold | ⟨hrk, hcase⟩
      · exact hidx x L hold
      · have hmemkp : (kp.1, kp.2) ∈ pts := mem_pair_eta kp hkp
        have hok : ∀ y p, (y, p) = ((pyRound kp.2.y : ℤ), kp.1) →
            ∃ pd, (p, pd) ∈ pts ∧ pyRound pd.x = x ∧ pyRound pd.y = y ∧
              pd.region = region := by
          intro y p hxp
          have hx2 : y = pyRound kp.2.y := congrArg Prod.fst hxp
          have hp2 : p = kp.1 := congrArg Prod.snd hxp
          refine ⟨kp.2, ?_, ?_, hx2.symm, hc.1⟩
          · rw [hp2]
            exact hmemkp
          · rw [hrk]
        rcases hcase with hnew | ⟨L0, hL0, hLf⟩
        · rw [hnew]
          constructor
          · exact upsert_nodupkeys _ _ _ _ (by constructor)
          · intro y p hxp
            rcases upsert_mem _ _ _ _ _ _ hxp with hcon | ⟨hxk, hpc⟩
            · exact absurd hcon (List.not_mem_nil _)
            · apply hok y p
              rcases hpc with hpc | ⟨v, hv, hpc⟩
              · exact Prod.ext hxk hpc
              · exact Prod.ext hxk hpc
        · obtain ⟨hnk0, hso⟩ := hidx x L0 (by rw [hrk]; exact hL0)
          rw [hLf]
          constructor
          · exact upsert_nodupkeys _ _ _ _ hnk0
          · intro y p hxp
            rcases upsert_mem _ _ _ _ _ _ hxp with hold2 | ⟨hxk, hpc⟩
            · exact hso y p hold2
            · apply hok y p
              rcases hpc with hpc | ⟨v, hv, hpc⟩
              · exact Prod.ext hxk hpc
              · exact Prod.ext hxk hpc
    · exact hidx

theorem coordIndexOf_sound (pts : Points) :
    ∀ key L, (key, L) ∈ coordIndexOf pts → ∀ p ∈ L,
      ∃ pd, (p, pd) ∈ pts ∧ pd.x = key.1 ∧ pd.y = key.2 := by
  rw [coordIndexOf]
  apply @foldl_preserve _ _ (fun ci : List ((Fq × Fq) × List PId) => ∀ key L, (key, L) ∈ ci →
    ∀ p ∈ L, ∃ pd, (p, pd) ∈ pts ∧ pd.x = key.1 ∧ pd.y = key.2)
  · intro key L hL
    exact absurd hL (List.not_mem_nil _)
  · intro ci kp hci hkp
    intro key L hL
    rcases upsert_mem _ _ _ _ _ _ hL with hold | ⟨hrk, hcase⟩
    · exact hci key L hold
    · have hmemkp : (kp.1, kp.2) ∈ pts := mem_pair_eta kp hkp
      have hok : ∀ p, p = kp.1 →
          ∃ pd, (p, pd) ∈ pts ∧ pd.x = key.1 ∧ pd.y = key.2 := by
        intro p hp2
        refine ⟨kp.2, ?_, ?_, ?_⟩
        · rw [hp2]
          exact hmemkp
        · rw [hrk]
        · rw [hrk]
      rcases hcase with hnew | ⟨L0, hL0, hLf⟩
      · rw [hnew]
        intro p hp
        rcases List.mem_append.mp hp with hp1 | hp1
        · exact absurd hp1 (List.not_mem_nil _)
        · exact hok p (List.mem_singleton.mp hp1)
      · rw [hLf]
        intro p hp
        rcases List.mem_append.mp hp with hp1 | hp1
        · exact hci key L0 (by rw [hrk]; exact hL0) p hp1
        · exact hok p (List.mem_singleton.mp hp1)

theorem blueIndexOf_sound (pts : Points) :
    ∀ key p, (key, p) ∈ blueIndexOf pts →
      ∃ pd, (p, pd) ∈ pts ∧ pyRound pd.x = key.1 ∧ pyRound pd.y = key.2 ∧
        pd.region = rBlue := by
  rw [blueIndexOf]
  apply @foldl_preserve _ _ (fun m : List ((ℤ × ℤ) × PId) => ∀ key p, (key, p) ∈ m →
    ∃ pd, (p, pd) ∈ pts ∧ pyRound pd.x = key.1 ∧ pyRound pd.y = key.2 ∧ pd.region = rBlue)
  · intro key p hL
    exact absurd hL (List.not_mem_nil _)
  · intro m kp hm hkp
    split_ifs with hc
    · intro key p hL
      rcases upsert_mem _ _ _ _ _ _ hL with hold | ⟨hrk, hcase⟩
      · exact hm key p hold
      · have hmemkp : (kp.1, kp.2) ∈ pts := mem_pair_eta kp hkp
        have hp2 : p = kp.1 := by
          rcases hcase with hpc | ⟨v, hv, hpc⟩
          · exact hpc
          · exact hpc
        refine ⟨kp.2, ?_, ?_, ?_, hc.1⟩
        · rw [hp2]
          exact hmemkp
        · rw [hrk]
        · rw [hrk]
    · exact hm

theorem head?_mem {α : Type} (l : List α) (a : α) (h : l.head? = some a) : a ∈ l := by
  cases l with
  | nil => cases h
  | cons x t =>
    have : x = a := Option.some_inj.mp h
    rw [← this]
    exact List.mem_cons_self x t

theorem get_pid_at_sound (pts : Points) (ci : List ((Fq × Fq) × List PId)) (x y : Fq)
    (pref excl : Option String) (p : PId) (h : get_pid_at pts ci x y pref excl = some p) :
    p ∈ (aget ci (x, y)).getD [] := by
  simp only [get_pid_at] at h
  by_cases h1 : (aget ci (x, y)).getD [] = []
  · rw [if_pos h1] at h
    cases h
  · rw [if_neg h1] at h
    cases excl with
    | none =>
      by_cases h2 : (aget ci (x, y)).getD [] = []
      · exact absurd h2 h1
      · rw [if_neg h2] at h
        cases pref with
        | none => exact head?_mem _ p h
        | some pr =>
          have h3 : (match List.find? (fun pid => decide (regionOf pts pid = pr))
              ((aget ci (x, y)).getD []) with
            | some pid => some pid
            | none => ((aget ci (x, y)).getD []).head?) = some p := h
          cases hf : List.find? (fun pid => decide (regionOf pts pid = pr))
              ((aget ci (x, y)).getD []) with
          | none =>
            rw [hf] at h3
            exact head?_mem _ p h3
          | some q =>
            rw [hf] at h3
            have hqp : q = p := Option.some_inj.mp h3
            rw [← hqp]
            exact List.mem_of_find?_eq_some hf
    | some ex =>
      by_cases h2 : ((aget ci (x, y)).getD []).filter
          (fun pid => decide (¬ regionOf pts pid = ex)) = []
      · rw [if_pos h2] at h
        cases h
      · rw [if_neg h2] at h
        cases pref with
        | none => exact List.mem_of_mem_filter (head?_mem _ p h)
        | some pr =>
          have h3 : (match List.find? (fun pid => decide (regionOf pts pid = pr))
              (((aget ci (x, y)).getD []).filter
                (fun pid => decide (¬ regionOf pts pid = ex))) with
            | some pid => some pid
            | none => (((aget ci (x, y)).getD []).filter
                (fun pid => decide (¬ regionOf pts pid = ex))).head?) = some p := h
          cases hf : List.find? (fun pid => decide (regionOf pts pid = pr))
              (((aget ci (x, y)).getD []).filter
                (fun pid => decide (¬ regionOf pts pid = ex))) with
          | none =>
            rw [hf] at h3
            exact List.mem_of_mem_filter (head?_mem _ p h3)
          | some q =>
            rw [hf] at h3
            have hqp : q = p := Option.some_inj.mp h3
            rw [← hqp]
            exact List.mem_of_mem_filter (List.mem_of_find?_eq_some hf)

theorem pcolGet_sound (pts : Points) (region : String) (x y : ℤ) (p : PId)
    (h : pcolGet (build_col_index pts region) x y = some p) :
    ∃ pd, (p, pd) ∈ pts ∧ pyRound pd.x = x ∧ pyRound pd.y = y ∧ pd.region = region := by
  rw [pcolGet] at h
  cases hg : aget (build_col_index pts region) x with
  | none =>
    rw [hg] at h
    cases h
  | some L =>
    rw [hg] at h
    have hmem := aget_some_mem _ _ _ h
    exact (build_col_index_sound pts region x L (aget_some_mem _ _ _ hg)).2 y p hmem

theorem EdgeOK_symm (pts : Points) (a b : PId) (h : EdgeOK pts a b) : EdgeOK pts b a :=
  ⟨fun hc => h.1 hc.symm, h.2.2, h.2.1⟩

theorem adjIn_mem {α : Type} (l : List α) (u v : α) (h : adjIn l u v) : u ∈ l ∧ v ∈ l := by
  rw [adjIn] at h
  have h1 := List.of_mem_zip h
  exact ⟨h1.1, List.tail_subset l h1.2⟩

theorem good_row_chain_edge (pts : Points) (hnk : NodupKeys pts) (region : String)
    (r : ℤ) (u v : Fq × PId)
    (hadj : adjIn (ordered_in_row (build_row_index pts region) r) u v) :
    EdgeOK pts u.2 v.2 := by
  cases hq : aget (build_row_index pts region) r with
  | none =>
    exfalso
    rw [adjIn, ordered_in_row, hq] at hadj
    exact List.not_mem_nil _ hadj
  | some L =>
    have hLmem := aget_some_mem _ _ _ hq
    obtain ⟨hnd, hso⟩ := build_row_index_sound pts region r L hLmem
    obtain ⟨hu, hv⟩ := adjIn_mem _ u v hadj
    rw [ordered_in_row, hq] at hu hv
    have hu2 : u ∈ L := (List.perm_insertionSort _ L).mem_iff.mp hu
    have hv2 : v ∈ L := (List.perm_insertionSort _ L).mem_iff.mp hv
    obtain ⟨pdu, hpu, hxu, hyu, hru⟩ := hso u.1 u.2 (mem_pair_eta u hu2)
    obtain ⟨pdv, hpv, hxv, hyv, hrv⟩ := hso v.1 v.2 (mem_pair_eta v hv2)
    refine ⟨?_, mem_keysOf _ _ _ hpu, mem_keysOf _ _ _ hpv⟩
    intro hab
    have hpd : pdu = pdv := nodupkeys_functional pts hnk u.2 pdu pdv hpu (by
      rw [hab]
      exact hpv)
    have hxy : u.1 = v.1 := by rw [← hxu, ← hxv, hpd]
    have huv : u = v := Prod.ext hxy hab
    have hnodup : (ordered_in_row (build_row_index pts region) r).Nodup := by
      rw [ordered_in_row, hq]
      exact ((List.perm_insertionSort _ _).nodup_iff).mpr (nodupkeys_pairs _ hnd)
    exact nodup_adjIn_ne _ hnodup u v hadj huv

theorem good_connect_purple_rows (pts : Points) (hnk : NodupKeys pts) (rows : List ℤ)
    (direction : String) (nm : NextMap) (hg : GoodNM pts nm) :
    GoodNM pts (connect_purple_rows (build_row_index pts rPurple) rows direction nm) := by
  intro a b h
  rcases connect_purple_rows_origin _ rows direction nm a b h with
    h1 | ⟨r, hr, u, v, ha, hb, hd⟩
  · exact hg a b h1
  · rcases hd with ⟨-, hadj⟩ | ⟨-, hadj⟩
    · rw [ha, hb]
      exact good_row_chain_edge pts hnk rPurple r u v hadj
    · rw [ha, hb]
      exact EdgeOK_symm pts v.2 u.2 (good_row_chain_edge pts hnk rPurple r v u hadj)

theorem lane_change_origin (rowX : RowIdx) (rF rT : ℤ) (allow : Bool) (nm : NextMap)
    (a b : PId) (h : nmMem (lane_change rowX rF rT allow nm) a b) :
    nmMem nm a b ∨ (allow = true ∧ ∃ x, (x, a) ∈ (aget rowX rF).getD [] ∧
      aget ((aget rowX rT).getD []) x = some b) := by
  cases allow with
  | false => exact Or.inl h
  | true =>
    have hm2 : nmMem (if (aget rowX rF).getD [] = [] ∨ (aget rowX rT).getD [] = [] then nm
        else ((aget rowX rF).getD []).foldl (fun nm xp =>
          match aget ((aget rowX rT).getD []) xp.1 with
          | some pid2 => add_edge nm xp.2 (some pid2)
          | none => nm) nm) a b := h
    split_ifs at hm2 with h1
    · exact Or.inl hm2
    · have hstep : ∀ nm' (xp : Fq × PId), xp ∈ (aget rowX rF).getD [] →
          nmMem ((fun nm xp =>
            match aget ((aget rowX rT).getD []) xp.1 with
            | some pid2 => add_edge nm xp.2 (some pid2)
            | none => nm) nm' xp) a b →
          nmMem nm' a b ∨ (a = xp.2 ∧ aget ((aget rowX rT).getD []) xp.1 = some b) := by
        intro nm' xp _ hm3
        have hm4 : nmMem (match aget ((aget rowX rT).getD []) xp.1 with
            | some pid2 => add_edge nm' xp.2 (some pid2)
            | none => nm') a b := hm3
        cases hg : aget ((aget rowX rT).getD []) xp.1 with
        | none =>
          rw [hg] at hm4
          exact Or.inl hm4
        | some pid2 =>
          rw [hg] at hm4
          rcases (add_edge_mem nm' xp.2 (some pid2) a b).mp hm4 with h4 | ⟨h4, h5⟩
          · exact Or.inl h4
          · exact Or.inr ⟨h4, h5⟩
      rcases foldl_nmMem_origin _ _ nm a b
        (fun xp : Fq × PId => a = xp.2 ∧ aget ((aget rowX rT).getD []) xp.1 = some b)
        hstep hm2 with h2 | ⟨xp, hxp, hqa, hqb⟩
      · exact Or.inl h2
      · refine Or.inr ⟨rfl, xp.1, ?_, hqb⟩
        rw [hqa]
        exact mem_pair_eta xp hxp

theorem good_lane_change (pts : Points) (hnk : NodupKeys pts) (rF rT : ℤ)
    (hne : ¬ rF = rT) (allow : Bool) (nm : NextMap) (hg : GoodNM pts nm) :
    GoodNM pts (lane_change (build_row_index pts rPurple) rF rT allow nm) := by
  intro a b h
  rcases lane_change_origin _ rF rT allow nm a b h with h1 | ⟨-, x, hxa, hxb⟩
  · exact hg a b h1
  · rcases bucket_mem_entry _ rF x a hxa with ⟨L, hL, hmemL⟩
    obtain ⟨-, hso⟩ := build_row_index_sound pts rPurple rF L hL
    obtain ⟨pdu, hpu, hxu, hyu, hru⟩ := hso x a hmemL
    rcases bucket_mem_entry _ rT x b (by
      cases hq : aget (build_row_index pts rPurple) rT with
      | none =>
        rw [hq] at hxb
        exact Option.noConfusion hxb
      | some L2 =>
        rw [hq] at hxb
        exact aget_some_mem _ _ _ hxb) with ⟨L2, hL2, hmemL2⟩
    obtain ⟨-, hso2⟩ := build_row_index_sound pts rPurple rT L2 hL2
    obtain ⟨pdv, hpv, hxv, hyv, hrv⟩ := hso2 x b hmemL2
    refine ⟨?_, mem_keysOf _ _ _ hpu, mem_keysOf _ _ _ hpv⟩
    intro hab
    have hpd : pdu = pdv := nodupkeys_functional pts hnk a pdu pdv hpu (by
      rw [hab]
      exact hpv)
    apply hne
    rw [← hyu, ← hyv, hpd]

theorem good_purpleLaneBlock (pts : Points) (hnk : NodupKeys pts) (nm : NextMap)
    (hg : GoodNM pts nm) :
    GoodNM pts (purpleLaneBlock (build_row_index pts rPurple) nm) := by
  rw [purpleLaneBlock]
  have hfold1 : ∀ (rows : List ℤ) (nm0 : NextMap), GoodNM pts nm0 →
      GoodNM pts (rows.foldl (fun nm r =>
        lane_change (build_row_index pts rPurple) (r + 1) r true
          (lane_change (build_row_index pts rPurple) r (r + 1) true nm)) nm0) := by
    intro rows nm0 hg0
    apply @foldl_preserve _ _ (fun nm' => GoodNM pts nm') rows _ nm0 hg0
    intro nm' r hgp hr
    exact good_lane_change pts hnk (r + 1) r (by omega) true _
      (good_lane_change pts hnk r (r + 1) (by omega) true nm' hgp)
  apply hfold1
  apply good_lane_change pts hnk 228 227 (by omega) true
  apply good_lane_change pts hnk 227 228 (by omega) true
  apply good_lane_change pts hnk 229 228 (by omega) true
  apply good_lane_change pts hnk 228 229 (by omega) true
  apply good_lane_change pts hnk 227 226 (by omega) true
  apply good_lane_change pts hnk 226 227 (by omega) true
  apply good_lane_change pts hnk 25 24 (by omega) true
  apply good_lane_change pts hnk 24 25 (by omega) true
  apply good_lane_change pts hnk 24 23 (by omega) true
  apply good_lane_change pts hnk 23 24 (by omega) true
  apply good_lane_change pts hnk 23 22 (by omega) true
  apply good_lane_change pts hnk 22 23 (by omega) true
  exact hfold1 _ nm hg

theorem aget_of_mem_nodup {α β : Type} [DecidableEq α] (m : List (α × β)) (h : NodupKeys m)
    (k : α) (v : β) (hm : (k, v) ∈ m) : aget m k = some v := by
  induction m with
  | nil => exact absurd hm (List.not_mem_nil _)
  | cons kv t ih =>
    rw [NodupKeys, keysOf, List.map_cons, List.nodup_cons] at h
    rcases List.mem_cons.mp hm with h1 | h1
    · rw [aget_cons, if_pos (congrArg Prod.fst h1.symm), ← h1]
    · rw [aget_cons]
      by_cases hk : kv.1 = k
      · exfalso
        apply h.1
        rw [hk]
        exact List.mem_map.mpr ⟨(k, v), h1, rfl⟩
      · rw [if_neg hk]
        exact ih h.2 h1

theorem adjIn_map_fwd {α β : Type} (f : α → β) (l : List α) (u v : α)
    (h : adjIn l u v) : adjIn (l.map f) (f u) (f v) := by
  rw [adjIn, ← List.map_tail, List.zip_map]
  exact List.mem_map.mpr ⟨(u, v), h, rfl⟩

theorem nodupkeys_cons_split {α β : Type} (kv : α × β) (t : List (α × β))
    (h : NodupKeys (kv :: t)) : ¬ kv.1 ∈ keysOf t ∧ NodupKeys t := by
  rw [NodupKeys, keysOf, List.map_cons, List.nodup_cons] at h
  exact h

theorem nodup_append_singleton {α : Type} (l : List α) (a : α) (hl : l.Nodup)
    (ha : ¬ a ∈ l) : (l ++ [a]).Nodup := by
  rw [List.nodup_append]
  refine ⟨hl, List.nodup_singleton a, ?_⟩
  intro x hx hxa
  rw [List.mem_singleton.mp hxa] at hx
  exact ha hx

theorem build_rowseg_tmp_sound (pts : Points) (region : String) (hnk : NodupKeys pts) :
    ∀ key L, (key, L) ∈ pts.foldl (fun tmp kp =>
        if kp.2.region = region ∧ kp.2.meta.kind = "seg" then
          upsert tmp ((pyRound kp.2.y, kp.2.meta.segIdxOf) : ℤ × ℕ)
            (fun l => l ++ [(kp.2.x, kp.1)]) []
        else tmp) ([] : List ((ℤ × ℕ) × List (Fq × PId))) →
      (L.map Prod.snd).Nodup ∧ ∀ xp ∈ L, ∃ pd, (xp.2, pd) ∈ pts ∧ pd.x = xp.1 ∧
        pyRound pd.y = key.1 ∧ pd.region = region := by
  have H := foldl_invariant_suffix
    (fun tmp kp =>
      if kp.2.region = region ∧ kp.2.meta.kind = "seg" then
        upsert tmp ((pyRound kp.2.y, kp.2.meta.segIdxOf) : ℤ × ℕ)
          (fun l => l ++ [(kp.2.x, kp.1)]) []
      else tmp)
    (fun rest tmp => (∀ e ∈ rest, e ∈ pts) ∧ NodupKeys rest ∧
      ∀ key L, (key, L) ∈ tmp → ((L.map Prod.snd).Nodup ∧
        (∀ xp ∈ L, ∃ pd, (xp.2, pd) ∈ pts ∧ pd.x = xp.1 ∧ pyRound pd.y = key.1 ∧
          pd.region = region) ∧
        (∀ xp ∈ L, ¬ xp.2 ∈ keysOf rest)))
    pts ([] : List ((ℤ × ℕ) × List (Fq × PId)))
    ⟨fun e he => he, hnk, fun key L hL => absurd hL (List.not_mem_nil _)⟩
    (by
      intro rest kp tmp hP
      obtain ⟨hsub, hnkr, hbuck⟩ := hP
      obtain ⟨hkpni, hnkr2⟩ := nodupkeys_cons_split kp rest hnkr
      have hkpin : kp ∈ pts := hsub kp (List.mem_cons_self kp rest)
      refine ⟨fun e he => hsub e (List.mem_cons_of_mem kp he), hnkr2, ?_⟩
      beta_reduce
      split_ifs with hc
      · intro key L hL
        rcases upsert_mem _ _ _ _ _ _ hL with hold | ⟨hkk, hcase⟩
        · obtain ⟨hn, ho, hd⟩ := hbuck key L hold
          exact ⟨hn, ho, fun xp hxp => fun hcon =>
            hd xp hxp (List.mem_cons_of_mem kp.1 hcon)⟩
        · have hnewok : ∀ xp : Fq × PId, xp = (kp.2.x, kp.1) →
              ∃ pd, (xp.2, pd) ∈ pts ∧ pd.x = xp.1 ∧ pyRound pd.y = key.1 ∧
                pd.region = region := by
            intro xp hxp
            refine ⟨kp.2, ?_, ?_, ?_, hc.1⟩
            · rw [hxp]
              exact mem_pair_eta kp hkpin
            · rw [hxp]
            · rw [hkk]
          rcases hcase with hnew | ⟨L0, hL0, hLf⟩
          · rw [hnew]
            refine ⟨List.nodup_singleton _, ?_, ?_⟩
            · intro xp hxp
              rcases List.mem_append.mp hxp with hx1 | hx1
              · exact absurd hx1 (List.not_mem_nil _)
              · exact hnewok xp (List.mem_singleton.mp hx1)
            · intro xp hxp
              rcases List.mem_append.mp hxp with hx1 | hx1
              · exact absurd hx1 (List.not_mem_nil _)
              · rw [List.mem_singleton.mp hx1]
                exact hkpni
          · obtain ⟨hn0, ho0, hd0⟩ := hbuck ((pyRound kp.2.y, kp.2.meta.segIdxOf) : ℤ × ℕ)
              L0 hL0
            rw [hLf]
            refine ⟨?_, ?_, ?_⟩
            · rw [List.map_append]
              apply nodup_append_singleton _ _ hn0
              intro hcon
              rcases List.mem_map.mp hcon with ⟨xp, hxp, hxpe⟩
              exact hd0 xp hxp (by rw [hxpe]; exact List.mem_cons_self kp.1 _)
            · intro xp hxp
              rcases List.mem_append.mp hxp with hx1 | hx1
              · obtain ⟨pd, h1, h2, h3, h4⟩ := ho0 xp hx1
                refine ⟨pd, h1, h2, ?_, h4⟩
                rw [hkk]
                exact h3
              · exact hnewok xp (List.mem_singleton.mp hx1)
            · intro xp hxp
              rcases List.mem_append.mp hxp with hx1 | hx1
              · exact fun hcon => hd0 xp hx1 (List.mem_cons_of_mem kp.1 hcon)
              · rw [List.mem_singleton.mp hx1]
                exact hkpni
      · intro key L hL
        obtain ⟨hn, ho, hd⟩ := hbuck key L hL
        exact ⟨hn, ho, fun xp hxp hcon => hd xp hxp (List.mem_cons_of_mem kp.1 hcon)⟩)
  intro key L hL
  obtain ⟨-, -, hbuck⟩ := H
  obtain ⟨hn, ho, -⟩ := hbuck key L hL
  exact ⟨hn, ho⟩

theorem build_rowseg_index_sound (pts : Points) (region : String) (hnk : NodupKeys pts) :
    ∀ kv ∈ build_rowseg_index pts region,
      kv.2.Nodup ∧ ∀ p ∈ kv.2, ∃ pd, (p, pd) ∈ pts ∧ pyRound pd.y = kv.1.1 ∧
        pd.region = region := by
  intro kv hkv
  rw [build_rowseg_index] at hkv
  rcases List.mem_map.mp hkv with ⟨kw, hkw, heq⟩
  obtain ⟨hn, ho⟩ := build_rowseg_tmp_sound pts region hnk kw.1 kw.2 (mem_pair_eta kw hkw)
  have hperm : List.Perm
      ((List.insertionSort (fun a b => Fq.le a.1 b.1) kw.2).map Prod.snd)
      (kw.2.map Prod.snd) := List.Perm.map Prod.snd (List.perm_insertionSort _ kw.2)
  constructor
  · rw [← heq]
    exact hperm.nodup_iff.mpr hn
  · intro p hp
    rw [← heq] at hp
    have hp2 : p ∈ kw.2.map Prod.snd := hperm.mem_iff.mp hp
    rcases List.mem_map.mp hp2 with ⟨xp, hxp, hxpe⟩
    obtain ⟨pd, h1, h2, h3, h4⟩ := ho xp hxp
    refine ⟨pd, ?_, ?_, h4⟩
    · rw [← hxpe]
      exact h1
    · rw [← heq]
      exact h3

theorem good_connect_segments (pts : Points) (hnk : NodupKeys pts) (region : String)
    (dirFunc : ℤ → String) (nm : NextMap) (hg : GoodNM pts nm) :
    GoodNM pts (connect_segments (build_rowseg_index pts region) dirFunc nm) := by
  intro a b h
  rcases connect_segments_origin _ dirFunc nm a b h with h1 | ⟨kv, hkv, hd⟩
  · exact hg a b h1
  · obtain ⟨hnd, hso⟩ := build_rowseg_index_sound pts region hnk kv hkv
    have hfacts : ∀ u v : PId, adjIn kv.2 u v → EdgeOK pts u v := by
      intro u v hadj
      obtain ⟨hu, hv⟩ := adjIn_mem _ u v hadj
      obtain ⟨pdu, hpu, -, -⟩ := hso u hu
      obtain ⟨pdv, hpv, -, -⟩ := hso v hv
      exact ⟨nodup_adjIn_ne _ hnd u v hadj, mem_keysOf _ _ _ hpu, mem_keysOf _ _ _ hpv⟩
    rcases hd with ⟨-, hadj⟩ | ⟨-, hadj⟩
    · exact hfacts a b hadj
    · exact EdgeOK_symm pts b a (hfacts b a hadj)

theorem bluePointsByX_sound (pts : Points) (segsBy : List (ℕ × List (ℕ × ℕ)))
    (hnk : NodupKeys pts) :
    ∀ x L, (x, L) ∈ bluePointsByX pts segsBy →
      ((L.map (fun e : ℤ × PId × String => e.2.1)).Nodup ∧
        ∀ e ∈ L, ∃ pd, (e.2.1, pd) ∈ pts ∧ pyRound pd.x = x ∧ pyRound pd.y = e.1 ∧
          pd.region = rBlue) := by
  rw [bluePointsByX]
  have H := foldl_invariant_suffix
    (fun m (kp : PId × PointData) =>
      if ¬ kp.2.region = rBlue then m
      else
        match kp.2.meta with
        | PMeta.cell row col =>
          match blue_vertical_dir segsBy row col with
          | none => m
          | some d => upsert m (pyRound kp.2.x)
            (fun l => l ++ [(pyRound kp.2.y, kp.1, d)]) []
        | _ => m)
    (fun rest m => (∀ e ∈ rest, e ∈ pts) ∧ NodupKeys rest ∧
      ∀ x L, (x, L) ∈ m → ((L.map (fun e : ℤ × PId × String => e.2.1)).Nodup ∧
        (∀ e ∈ L, ∃ pd, (e.2.1, pd) ∈ pts ∧ pyRound pd.x = x ∧ pyRound pd.y = e.1 ∧
          pd.region = rBlue) ∧
        (∀ e ∈ L, ¬ e.2.1 ∈ keysOf rest)))
    pts ([] : List (ℤ × List (ℤ × PId × String)))
    ⟨fun e he => he, hnk, fun x L hL => absurd hL (List.not_mem_nil _)⟩
    (by
      intro rest kp m hP
      obtain ⟨hsub, hnkr, hbuck⟩ := hP
      obtain ⟨hkpni, hnkr2⟩ := nodupkeys_cons_split kp rest hnkr
      have hkpin : kp ∈ pts := hsub kp (List.mem_cons_self kp rest)
      have hrestr : ∀ (m2 : List (ℤ × List (ℤ × PId × String))),
          (∀ (x : ℤ) (L : List (ℤ × PId × String)), (x, L) ∈ m2 →
          ((L.map (fun e : ℤ × PId × String => e.2.1)).Nodup ∧
            (∀ e ∈ L, ∃ pd, (e.2.1, pd) ∈ pts ∧ pyRound pd.x = x ∧ pyRound pd.y = e.1 ∧
              pd.region = rBlue) ∧
            (∀ e ∈ L, ¬ e.2.1 ∈ keysOf (kp :: rest)))) →
          (∀ (x : ℤ) (L : List (ℤ × PId × String)), (x, L) ∈ m2 →
          ((L.map (fun e : ℤ × PId × String => e.2.1)).Nodup ∧
            (∀ e ∈ L, ∃ pd, (e.2.1, pd) ∈ pts ∧ pyRound pd.x = x ∧ pyRound pd.y = e.1 ∧
              pd.region = rBlue) ∧
            (∀ e ∈ L, ¬ e.2.1 ∈ keysOf rest))) := by
        intro m2 hm2 x L hL
        obtain ⟨h1, h2, h3⟩ := hm2 x L hL
        exact ⟨h1, h2, fun e he hcon => h3 e he (List.mem_cons_of_mem kp.1 hcon)⟩
      have hupsert : ∀ (d : String), kp.2.region = rBlue →
          ∀ (x : ℤ) (L : List (ℤ × PId × String)),
          (x, L) ∈ upsert m (pyRound kp.2.x)
            (fun l => l ++ [(pyRound kp.2.y, kp.1, d)]) [] →
          ((L.map (fun e : ℤ × PId × String => e.2.1)).Nodup ∧
            (∀ e ∈ L, ∃ pd, (e.2.1, pd) ∈ pts ∧ pyRound pd.x = x ∧ pyRound pd.y = e.1 ∧
              pd.region = rBlue) ∧
            (∀ e ∈ L, ¬ e.2.1 ∈ keysOf rest)) := by
        intro d hreg x L hL
        rcases upsert_mem _ _ _ _ _ _ hL with hold | ⟨hkk, hcase⟩
        · exact hrestr m hbuck x L hold
        · have hnewok : ∀ e : ℤ × PId × String, e = (pyRound kp.2.y, kp.1, d) →
              ∃ pd, (e.2.1, pd) ∈ pts ∧ pyRound pd.x = x ∧ pyRound pd.y = e.1 ∧
                pd.region = rBlue := by
            intro e he
            refine ⟨kp.2, ?_, ?_, ?_, hreg⟩
            · rw [he]
              exact mem_pair_eta kp hkpin
            · rw [hkk]
            · rw [he]
          rcases hcase with hnew | ⟨L0, hL0, hLf⟩
          · rw [hnew]
            refine ⟨List.nodup_singleton _, ?_, ?_⟩
            · intro e he
              rcases List.mem_append.mp he with h1 | h1
              · exact absurd h1 (List.not_mem_nil _)
              · exact hnewok e (List.mem_singleton.mp h1)
            · intro e he
              rcases List.mem_append.mp he with h1 | h1
              · exact absurd h1 (List.not_mem_nil _)
              · rw [List.mem_singleton.mp h1]
                exact hkpni
          · obtain ⟨hn0, ho0, hd0⟩ := hbuck (pyRound kp.2.x) L0 hL0
            rw [hLf]
            refine ⟨?_, ?_, ?_⟩
            · rw [List.map_append]
              apply nodup_append_singleton _ _ hn0
              intro hcon
              rcases List.mem_map.mp hcon with ⟨e, he, hee⟩
              exact hd0 e he (by rw [hee]; exact List.mem_cons_self kp.1 _)
            · intro e he
              rcases List.mem_append.mp he with h1 | h1
              · obtain ⟨pd, hh1, hh2, hh3, hh4⟩ := ho0 e h1
                refine ⟨pd, hh1, ?_, hh3, hh4⟩
                rw [hkk]
                exact hh2
              · exact hnewok e (List.mem_singleton.mp h1)
            · intro e he
              rcases List.mem_append.mp he with h1 | h1
              · exact fun hcon => hd0 e h1 (List.mem_cons_of_mem kp.1 hcon)
              · rw [List.mem_singleton.mp h1]
                exact hkpni
      refine ⟨fun e he => hsub e (List.mem_cons_of_mem kp he), hnkr2, ?_⟩
      obtain ⟨pid, pd⟩ := kp
      obtain ⟨px, py, pregion, pmeta, pio, pnext⟩ := pd
      by_cases hreg : pregion = rBlue
      · cases pmeta with
        | cell row col =>
          cases hdir : blue_vertical_dir segsBy row col with
          | none =>
            show ∀ (x : ℤ) (L : List (ℤ × PId × String)),
              (x, L) ∈ (if ¬ pregion = rBlue then m
                else match blue_vertical_dir segsBy row col with
                  | none => m
                  | some d => upsert m (pyRound px)
                    (fun l => l ++ [(pyRound py, pid, d)]) []) → _
            rw [if_neg (not_not_intro hreg), hdir]
            exact hrestr m hbuck
          | some d =>
            show ∀ (x : ℤ) (L : List (ℤ × PId × String)),
              (x, L) ∈ (if ¬ pregion = rBlue then m
                else match blue_vertical_dir segsBy row col with
                  | none => m
                  | some d => upsert m (pyRound px)
                    (fun l => l ++ [(pyRound py, pid, d)]) []) → _
            rw [if_neg (not_not_intro hreg), hdir]
            exact hupsert d hreg
        | hRow r =>
          show ∀ (x : ℤ) (L : List (ℤ × PId × String)),
            (x, L) ∈ (if ¬ pregion = rBlue then m else m) → _
          rw [if_neg (not_not_intro hreg)]
          exact hrestr m hbuck
        | hBand y0 =>
          show ∀ (x : ℤ) (L : List (ℤ × PId × String)),
            (x, L) ∈ (if ¬ pregion = rBlue then m else m) → _
          rw [if_neg (not_not_intro hreg)]
          exact hrestr m hbuck
        | seg r si c1 c2 =>
          show ∀ (x : ℤ) (L : List (ℤ × PId × String)),
            (x, L) ∈ (if ¬ pregion = rBlue then m else m) → _
          rw [if_neg (not_not_intro hreg)]
          exact hrestr m hbuck
        | vert c r1 r2 =>
          show ∀ (x : ℤ) (L : List (ℤ × PId × String)),
            (x, L) ∈ (if ¬ pregion = rBlue then m else m) → _
          rw [if_neg (not_not_intro hreg)]
          exact hrestr m hbuck
      · cases pmeta with
        | cell row col =>
          show ∀ (x : ℤ) (L : List (ℤ × PId × String)),
            (x, L) ∈ (if ¬ pregion = rBlue then m
              else match blue_vertical_dir segsBy row col with
                | none => m
                | some d => upsert m (pyRound px)
                  (fun l => l ++ [(pyRound py, pid, d)]) []) → _
          rw [if_pos hreg]
          exact hrestr m hbuck
        | hRow r =>
          show ∀ (x : ℤ) (L : List (ℤ × PId × String)),
            (x, L) ∈ (if ¬ pregion = rBlue then m else m) → _
          rw [if_pos hreg]
          exact hrestr m hbuck
        | hBand y0 =>
          show ∀ (x : ℤ) (L : List (ℤ × PId × String)),
            (x, L) ∈ (if ¬ pregion = rBlue then m else m) → _
          rw [if_pos hreg]
          exact hrestr m hbuck
        | seg r si c1 c2 =>
          show ∀ (x : ℤ) (L : List (ℤ × PId × String)),
            (x, L) ∈ (if ¬ pregion = rBlue then m else m) → _
          rw [if_pos hreg]
          exact hrestr m hbuck
        | vert c r1 r2 =>
          show ∀ (x : ℤ) (L : List (ℤ × PId × String)),
            (x, L) ∈ (if ¬ pregion = rBlue then m else m) → _
          rw [if_pos hreg]
          exact hrestr m hbuck)
  intro x L hL
  obtain ⟨-, -, hbuck⟩ := H
  obtain ⟨h1, h2, -⟩ := hbuck x L hL
  exact ⟨h1, h2⟩

theorem good_ogLaneBlock (pts : Points) (hnk : NodupKeys pts) (nm : NextMap)
    (hg : GoodNM pts nm) :
    GoodNM pts (ogLaneBlock (build_row_x_index pts rOrange)
      (build_row_x_index pts rGreen) nm) := by
  intro a b h
  rcases ogLaneBlock_origin _ _ nm a b h with h1 | ⟨r, hr, rTo, hadj, hrTo, hal, hpair⟩
  · exact hg a b h1
  · have hfromidx : ∀ (region : String) (x : Fq),
        (x, a) ∈ (aget (build_row_x_index pts region) r).getD [] →
        aget ((aget (build_row_x_index pts region) rTo).getD []) x = some b →
        EdgeOK pts a b := by
      intro region x hxa hxb
      rcases bucket_mem_entry _ r x a hxa with ⟨L, hL, hmemL⟩
      obtain ⟨-, hso⟩ := build_row_x_index_sound pts region r L hL
      obtain ⟨pdu, hpu, hxu, hyu, hru⟩ := hso x a hmemL
      rcases bucket_mem_entry _ rTo x b (by
        cases hq : aget (build_row_x_index pts region) rTo with
        | none =>
          rw [hq] at hxb
          exact Option.noConfusion hxb
        | some L2 =>
          rw [hq] at hxb
          exact aget_some_mem _ _ _ hxb) with ⟨L2, hL2, hmemL2⟩
      obtain ⟨-, hso2⟩ := build_row_x_index_sound pts region rTo L2 hL2
      obtain ⟨pdv, hpv, hxv, hyv, hrv⟩ := hso2 x b hmemL2
      refine ⟨?_, mem_keysOf _ _ _ hpu, mem_keysOf _ _ _ hpv⟩
      intro hab
      have hpd : pdu = pdv := nodupkeys_functional pts hnk a pdu pdv hpu (by
        rw [hab]
        exact hpv)
      have hrr : r = rTo := by rw [← hyu, ← hyv, hpd]
      rcases hadj with h4 | h4 <;> omega
    rcases hpair with ⟨x, hxa, hxb⟩ | ⟨x, hxa, hxb⟩
    · exact hfromidx rOrange x hxa hxb
    · exact hfromidx rGreen x hxa hxb

theorem minimap_sound (lst : List (ℤ × PId × String)) :
    ∀ y p, (y, p) ∈ lst.foldl (fun m e => upsert m e.1 (fun _ => e.2.1) e.2.1)
        ([] : List (ℤ × PId)) →
      ∃ e ∈ lst, e.1 = y ∧ e.2.1 = p := by
  apply @foldl_preserve _ _ (fun m : List (ℤ × PId) => ∀ y p, (y, p) ∈ m →
    ∃ e ∈ lst, e.1 = y ∧ e.2.1 = p)
  · intro y p hp
    exact absurd hp (List.not_mem_nil _)
  · intro m e hm hel
    intro y p hp
    rcases upsert_mem _ _ _ _ _ _ hp with hold | ⟨hk, hc⟩
    · exact hm y p hold
    · refine ⟨e, hel, hk.symm, ?_⟩
      rcases hc with hc | ⟨v, hv, hc⟩
      · exact hc.symm
      · exact hc.symm

theorem good_aipAisBlock (pts : Points) (hnk : NodupKeys pts)
    (segsBy : List (ℕ × List (ℕ × ℕ))) (nm : NextMap) (hg : GoodNM pts nm) :
    GoodNM pts (aipAisBlock (bluePointsByX pts segsBy) nm) := by
  rw [aipAisBlock]
  cases hq1 : aget (bluePointsByX pts segsBy) ((colAIP : ℤ) - 1) with
  | none => exact hg
  | some aipList =>
    cases hq2 : aget (bluePointsByX pts segsBy) ((colAIS : ℤ) - 1) with
    | none => exact hg
    | some aisList =>
      intro a b h
      have hso1 := (bluePointsByX_sound pts segsBy hnk _ aipList
        (aget_some_mem _ _ _ hq1)).2
      have hso2 := (bluePointsByX_sound pts segsBy hnk _ aisList
        (aget_some_mem _ _ _ hq2)).2
      rcases foldl_nmMem_origin _ _ nm a b
        (fun y : ℤ => ∃ pid1 pid2,
          aget (aipList.foldl (fun m e => upsert m e.1 (fun _ => e.2.1) e.2.1)
            ([] : List (ℤ × PId))) y = some pid1 ∧
          aget (aisList.foldl (fun m e => upsert m e.1 (fun _ => e.2.1) e.2.1)
            ([] : List (ℤ × PId))) y = some pid2 ∧
          ((a = pid1 ∧ b = pid2) ∨ (a = pid2 ∧ b = pid1)))
        (by
          intro nm' y hy hm
          cases hg1 : aget (aipList.foldl (fun m e => upsert m e.1 (fun _ => e.2.1) e.2.1)
              ([] : List (ℤ × PId))) y with
          | none =>
            have hm2 : nmMem nm' a b := by
              have heq2 : (match aget (aipList.foldl
                  (fun m e => upsert m e.1 (fun _ => e.2.1) e.2.1)
                  ([] : List (ℤ × PId))) y, aget (aisList.foldl
                  (fun m e => upsert m e.1 (fun _ => e.2.1) e.2.1)
                  ([] : List (ℤ × PId))) y with
                | some pid1, some pid2 =>
                  if row_lr_dir y = "right" then add_edge nm' pid1 (some pid2)
                  else add_edge nm' pid2 (some pid1)
                | _, _ => nm') = nm' := by
                rw [hg1]
              rw [← heq2]
              exact hm
            exact Or.inl hm2
          | some pid1 =>
            cases hg2 : aget (aisList.foldl (fun m e => upsert m e.1 (fun _ => e.2.1) e.2.1)
                ([] : List (ℤ × PId))) y with
            | none =>
              have hm2 : nmMem nm' a b := by
                have heq2 : (match aget (aipList.foldl
                    (fun m e => upsert m e.1 (fun _ => e.2.1) e.2.1)
                    ([] : List (ℤ × PId))) y, aget (aisList.foldl
                    (fun m e => upsert m e.1 (fun _ => e.2.1) e.2.1)
                    ([] : List (ℤ × PId))) y with
                  | some pid1, some pid2 =>
                    if row_lr_dir y = "right" then add_edge nm' pid1 (some pid2)
                    else add_edge nm' pid2 (some pid1)
                  | _, _ => nm') = nm' := by
                  rw [hg1, hg2]
                rw [← heq2]
                exact hm
              exact Or.inl hm2
            | some pid2 =>
              have hm2 : nmMem (if row_lr_dir y = "right" then add_edge nm' pid1 (some pid2)
                  else add_edge nm' pid2 (some pid1)) a b := by
                have heq2 : (match aget (aipList.foldl
                    (fun m e => upsert m e.1 (fun _ => e.2.1) e.2.1)
                    ([] : List (ℤ × PId))) y, aget (aisList.foldl
                    (fun m e => upsert m e.1 (fun _ => e.2.1) e.2.1)
                    ([] : List (ℤ × PId))) y with
                  | some pid1, some pid2 =>
                    if row_lr_dir y = "right" then add_edge nm' pid1 (some pid2)
                    else add_edge nm' pid2 (some pid1)
                  | _, _ => nm') = (if row_lr_dir y = "right" then
                    add_edge nm' pid1 (some pid2) else add_edge nm' pid2 (some pid1)) := by
                  rw [hg1, hg2]
                rw [← heq2]
                exact hm
              split_ifs at hm2 with hdir
              · rcases (add_edge_mem nm' pid1 (some pid2) a b).mp hm2 with h2 | ⟨h2, h3⟩
                · exact Or.inl h2
                · exact Or.inr ⟨pid1, pid2, hg1, hg2,
                    Or.inl ⟨h2, (Option.some_inj.mp h3).symm⟩⟩
              · rcases (add_edge_mem nm' pid2 (some pid1) a b).mp hm2 with h2 | ⟨h2, h3⟩
                · exact Or.inl h2
                · exact Or.inr ⟨pid1, pid2, hg1, hg2,
                    Or.inr ⟨h2, (Option.some_inj.mp h3).symm⟩⟩)
        h with h1 | ⟨y, hy, pid1, pid2, hgp1, hgp2, hcase⟩
      · exact hg a b h1
      · rcases minimap_sound aipList y pid1 (aget_some_mem _ _ _ hgp1) with ⟨e1, he1, hy1, hp1⟩
        rcases minimap_sound aisList y pid2 (aget_some_mem _ _ _ hgp2) with ⟨e2, he2, hy2, hp2⟩
        obtain ⟨pd1, hpd1, hx1, -, -⟩ := hso1 e1 he1
        obtain ⟨pd2, hpd2, hx2, -, -⟩ := hso2 e2 he2
        rw [hp1] at hpd1
        rw [hp2] at hpd2
        have hne : ¬ pid1 = pid2 := by
          intro hcon
          have hpd : pd1 = pd2 := nodupkeys_functional pts hnk pid1 pd1 pd2 hpd1 (by
            rw [hcon]
            exact hpd2)
          have : (colAIP : ℤ) - 1 = (colAIS : ℤ) - 1 := by
            rw [← hx1, ← hx2, hpd]
          exact absurd this (by decide)
        rcases hcase with ⟨ha2, hb2⟩ | ⟨ha2, hb2⟩
        · rw [ha2, hb2]
          exact ⟨hne, mem_keysOf _ _ _ hpd1, mem_keysOf _ _ _ hpd2⟩
        · rw [ha2, hb2]
          exact ⟨fun hc => hne hc.symm, mem_keysOf _ _ _ hpd2, mem_keysOf _ _ _ hpd1⟩

theorem good_upsDnsBlock (pts : Points) (hnk : NodupKeys pts)
    (segsBy : List (ℕ × List (ℕ × ℕ))) (nm : NextMap) (hg : GoodNM pts nm) :
    GoodNM pts (upsDnsBlock (bluePointsByX pts segsBy) nm) := by
  rw [upsDnsBlock]
  apply @foldl_preserve _ _ (fun nm' => GoodNM pts nm') _ _ nm hg
  intro nm' kv hgp hkv
  obtain ⟨hnd, hso⟩ := bluePointsByX_sound pts segsBy hnk kv.1 kv.2 (mem_pair_eta kv hkv)
  have hsrt : ∀ (f : ℤ × PId × String → Bool),
      ((List.insertionSort (fun a b => a.1 ≤ b.1) (kv.2.filter f)).map
        (fun e : ℤ × PId × String => e.2.1)).Nodup ∧
      ∀ u ∈ List.insertionSort (fun a b => a.1 ≤ b.1) (kv.2.filter f), u ∈ kv.2 := by
    intro f
    constructor
    · have hperm := List.Perm.map (fun e : ℤ × PId × String => e.2.1)
        (List.perm_insertionSort (fun a b => a.1 ≤ b.1) (kv.2.filter f))
      apply hperm.nodup_iff.mpr
      exact List.Nodup.sublist (List.Sublist.map _ (List.filter_sublist kv.2)) hnd
    · intro u hu
      exact List.mem_of_mem_filter
        ((List.perm_insertionSort _ _).mem_iff.mp hu)
  have hedge : ∀ (f : ℤ × PId × String → Bool) (u v : ℤ × PId × String),
      adjIn (List.insertionSort (fun a b => a.1 ≤ b.1) (kv.2.filter f)) u v →
      EdgeOK pts u.2.1 v.2.1 := by
    intro f u v hadj
    obtain ⟨hu, hv⟩ := adjIn_mem _ u v hadj
    obtain ⟨pd1, hp1, -, -, -⟩ := hso u ((hsrt f).2 u hu)
    obtain ⟨pd2, hp2, -, -, -⟩ := hso v ((hsrt f).2 v hv)
    refine ⟨?_, mem_keysOf _ _ _ hp1, mem_keysOf _ _ _ hp2⟩
    have hmadj := adjIn_map_fwd (fun e : ℤ × PId × String => e.2.1) _ u v hadj
    exact nodup_adjIn_ne _ (hsrt f).1 _ _ hmadj
  intro a b h
  rcases chain_fold_origin (fun e : ℤ × PId × String => e.2.1) _ _ a b h with
    h1 | ⟨ab, hab, ha, hb⟩
  · rcases chain_fold_origin (fun e : ℤ × PId × String => e.2.1) _ _ a b h1 with
      h2 | ⟨ab, hab, ha, hb⟩
    · exact hgp a b h2
    · have hadj : adjIn (List.insertionSort (fun a b => a.1 ≤ b.1)
          (kv.2.filter (fun e => decide (e.2.2 = "up")))) ab.2 ab.1 := by
        rw [adjIn]
        exact zip_tail_swap _ ab.1 ab.2 (mem_pair_eta ab hab)
      rw [ha, hb]
      exact EdgeOK_symm pts _ _ (hedge _ ab.2 ab.1 hadj)
  · have hadj : adjIn (List.insertionSort (fun a b => a.1 ≤ b.1)
        (kv.2.filter (fun e => decide (e.2.2 = "down")))) ab.1 ab.2 := by
      rw [adjIn]
      exact mem_pair_eta ab hab
    rw [ha, hb]
    exact hedge _ ab.1 ab.2 hadj

theorem chain_fold_origin_ite {α : Type} (g : α → PId) (c : α × α → Prop)
    [DecidablePred c] (l : List (α × α)) (nm : NextMap) (a b : PId)
    (h : nmMem (l.foldl (fun nm ab => if c ab then add_edge nm (g ab.1) (some (g ab.2))
      else nm) nm) a b) :
    nmMem nm a b ∨ ∃ ab ∈ l, a = g ab.1 ∧ b = g ab.2 := by
  apply foldl_nmMem_origin _ l nm a b (fun ab => a = g ab.1 ∧ b = g ab.2) _ h
  intro nm' ab _ hm
  split_ifs at hm with hc
  · rcases (add_edge_mem nm' (g ab.1) (some (g ab.2)) a b).mp hm with h1 | ⟨h1, h2⟩
    · exact Or.inl h1
    · exact Or.inr ⟨h1, (Option.some_inj.mp h2).symm⟩
  · exact Or.inl hm

theorem good_vert_col_edge (pts : Points) (hnk : NodupKeys pts) (x : ℤ) (rr : ℕ × ℕ)
    (u v : ℤ × PId)
    (hadj : adjIn ((ordered_in_col (build_col_index pts rPurple) x).filter
      (fun yp => decide ((rr.1 : ℤ) ≤ yp.1 ∧ yp.1 ≤ (rr.2 : ℤ)))) u v) :
    EdgeOK pts u.2 v.2 := by
  cases hq : aget (build_col_index pts rPurple) x with
  | none =>
    exfalso
    rw [adjIn, ordered_in_col, hq] at hadj
    exact List.not_mem_nil _ hadj
  | some L =>
    obtain ⟨hnkL, hso⟩ := build_col_index_sound pts rPurple x L (aget_some_mem _ _ _ hq)
    have hsub : ∀ w : ℤ × PId, w ∈ (ordered_in_col (build_col_index pts rPurple) x).filter
        (fun yp => decide ((rr.1 : ℤ) ≤ yp.1 ∧ yp.1 ≤ (rr.2 : ℤ))) → w ∈ L := by
      intro w hw
      have hw2 := List.mem_of_mem_filter hw
      rw [ordered_in_col, hq] at hw2
      exact (List.perm_insertionSort _ _).mem_iff.mp hw2
    obtain ⟨hu, hv⟩ := adjIn_mem _ u v hadj
    obtain ⟨pd1, hp1, -, hy1, -⟩ := hso u.1 u.2 (mem_pair_eta u (hsub u hu))
    obtain ⟨pd2, hp2, -, hy2, -⟩ := hso v.1 v.2 (mem_pair_eta v (hsub v hv))
    refine ⟨?_, mem_keysOf _ _ _ hp1, mem_keysOf _ _ _ hp2⟩
    intro hab
    have hpd : pd1 = pd2 := nodupkeys_functional pts hnk u.2 pd1 pd2 hp1 (by
      rw [hab]
      exact hp2)
    have hy : u.1 = v.1 := by rw [← hy1, ← hy2, hpd]
    have huv : u = v := Prod.ext hy hab
    have hnodup : ((ordered_in_col (build_col_index pts rPurple) x).filter
        (fun yp => decide ((rr.1 : ℤ) ≤ yp.1 ∧ yp.1 ≤ (rr.2 : ℤ)))).Nodup := by
      apply List.Nodup.filter
      rw [ordered_in_col, hq]
      exact ((List.perm_insertionSort _ _).nodup_iff).mpr (nodupkeys_pairs _ hnkL)
    exact nodup_adjIn_ne _ hnodup u v hadj huv

theorem good_vertRangeChains (pts : Points) (hnk : NodupKeys pts) (nm : NextMap)
    (hg : GoodNM pts nm) :
    GoodNM pts (vertRangeChains (build_col_index pts rPurple) nm) := by
  rw [vertRangeChains]
  apply @foldl_preserve _ _ (fun nm' => GoodNM pts nm') _ _ nm hg
  intro nm' rr hgp hrr
  have hup : ∀ (nm2 : NextMap), GoodNM pts nm2 →
      GoodNM pts ((rangeIncl (colAIS - 1) (colAIT - 1)).foldl (fun nm x =>
        let ordered := (ordered_in_col (build_col_index pts rPurple) (x : ℤ)).filter
          (fun yp => (rr.1 : ℤ) ≤ yp.1 ∧ yp.1 ≤ (rr.2 : ℤ))
        (ordered.tail.zip ordered).foldl (fun nm ab =>
          if (Fq.ofInt (ab.1.1 - ab.2.1)).le ((Fq.ofInt 5).add Fq.eps) then
            add_edge nm ab.1.2 (some ab.2.2)
          else nm) nm) nm2) := by
    intro nm2 hg2
    apply @foldl_preserve _ _ (fun nm' => GoodNM pts nm') _ _ nm2 hg2
    intro nm3 x hg3 hx
    intro a b h
    rcases chain_fold_origin_ite (fun p : ℤ × PId => p.2)
        (fun ab : (ℤ × PId) × (ℤ × PId) =>
          (Fq.ofInt (ab.1.1 - ab.2.1)).le ((Fq.ofInt 5).add Fq.eps)) _ nm3 a b h with
      h1 | ⟨ab, hab, ha, hb⟩
    · exact hg3 a b h1
    · have hadj : adjIn ((ordered_in_col (build_col_index pts rPurple) (x : ℤ)).filter
          (fun yp => decide ((rr.1 : ℤ) ≤ yp.1 ∧ yp.1 ≤ (rr.2 : ℤ)))) ab.2 ab.1 := by
        rw [adjIn]
        exact zip_tail_swap _ ab.1 ab.2 (mem_pair_eta ab hab)
      rw [ha, hb]
      exact EdgeOK_symm pts _ _ (good_vert_col_edge pts hnk (x : ℤ) rr ab.2 ab.1 hadj)
  have hdn : ∀ (nm2 : NextMap), GoodNM pts nm2 →
      GoodNM pts (((rangeIncl (colAIU - 1) (colAIV - 1)) ++
        (rangeIncl (colAJB - 1) (colAJE - 1))).foldl (fun nm x =>
        let ordered := (ordered_in_col (build_col_index pts rPurple) (x : ℤ)).filter
          (fun yp => (rr.1 : ℤ) ≤ yp.1 ∧ yp.1 ≤ (rr.2 : ℤ))
        (ordered.zip ordered.tail).foldl (fun nm ab =>
          if (Fq.ofInt (ab.2.1 - ab.1.1)).le ((Fq.ofInt 5).add Fq.eps) then
            add_edge nm ab.1.2 (some ab.2.2)
          else nm) nm) nm2) := by
    intro nm2 hg2
    apply @foldl_preserve _ _ (fun nm' => GoodNM pts nm') _ _ nm2 hg2
    intro nm3 x hg3 hx
    intro a b h
    rcases chain_fold_origin_ite (fun p : ℤ × PId => p.2)
        (fun ab : (ℤ × PId) × (ℤ × PId) =>
          (Fq.ofInt (ab.2.1 - ab.1.1)).le ((Fq.ofInt 5).add Fq.eps)) _ nm3 a b h with
      h1 | ⟨ab, hab, ha, hb⟩
    · exact hg3 a b h1
    · have hadj : adjIn ((ordered_in_col (build_col_index pts rPurple) (x : ℤ)).filter
          (fun yp => decide ((rr.1 : ℤ) ≤ yp.1 ∧ yp.1 ≤ (rr.2 : ℤ)))) ab.1 ab.2 := by
        rw [adjIn]
        exact mem_pair_eta ab hab
      rw [ha, hb]
      exact good_vert_col_edge pts hnk (x : ℤ) rr ab.1 ab.2 hadj
  exact hdn _ (hup nm' hgp)

theorem scanUp_inv {α : Type} (f : ℤ → Option α) (y : ℤ) (a : α) (h : scanUp f y = some a) :
    ∃ yTo, f yTo = some a := by
  rw [scanUp] at h
  cases hf : (rangeIncl 1 5).findSome? (fun d =>
      let yTo := y - (d : ℤ)
      if yTo < 0 then some none else (f yTo).map some) with
  | none =>
    rw [hf] at h
    cases h
  | some o =>
    rw [hf] at h
    rcases List.exists_of_findSome?_eq_some hf with ⟨d, hd, hfd⟩
    by_cases hneg : y - (d : ℤ) < 0
    · exfalso
      rw [if_pos hneg] at hfd
      have : (none : Option α) = o := Option.some_inj.mp hfd
      rw [← this] at h
      cases h
    · rw [if_neg hneg] at hfd
      rcases Option.map_eq_some'.mp hfd with ⟨w, hw, hwo⟩
      refine ⟨y - (d : ℤ), ?_⟩
      rw [hw]
      rw [← hwo] at h
      rw [Option.some_inj.mp h]

theorem scanDn_inv {α : Type} (f : ℤ → Option α) (y : ℤ) (a : α) (h : scanDn f y = some a) :
    ∃ yTo, f yTo = some a := by
  rw [scanDn] at h
  rcases List.exists_of_findSome?_eq_some h with ⟨d, hd, hfd⟩
  exact ⟨y + (d : ℤ), hfd⟩

theorem good_blueVertCol (pts : Points) (hnk : NodupKeys pts) (sign : ℤ)
    (hsign : sign = 1 ∨ sign = -1) (nm : NextMap) (x : ℤ) (hg : GoodNM pts nm) :
    GoodNM pts (blueVertCol (blueIndexOf pts) sign nm x) := by
  rw [blueVertCol]
  apply @foldl_preserve _ _ (fun nm' => GoodNM pts nm') _ _ nm hg
  intro nm' y hgp hy
  cases hq1 : aget (blueIndexOf pts) (x, y) with
  | none => exact hgp
  | some pid =>
    cases hq2 : (rangeIncl 1 5).findSome? (fun d => aget (blueIndexOf pts)
        (x, y + sign * (d : ℤ))) with
    | none => exact hgp
    | some pid2 =>
      show GoodNM pts (add_edge nm' pid (some pid2))
      apply GoodNM_add_edge pts nm' pid (some pid2) hgp
      intro b hb
      have hb2 : pid2 = b := Option.some_inj.mp hb
      rcases List.exists_of_findSome?_eq_some hq2 with ⟨d, hd, hfd⟩
      have hd1 : (1 : ℤ) ≤ d := by
        have hd2 : ∃ a ∈ rangeIncl 1 5, d = ((a : ℕ) : ℤ) := by simpa using hd
        obtain ⟨n, hn, hnd⟩ := hd2
        have hn1 : 1 ≤ n := ((mem_rangeIncl 1 5 n).mp hn).1
        rw [hnd]
        exact_mod_cast hn1
      obtain ⟨pd1, hp1, hx1, hy1, -⟩ := blueIndexOf_sound pts (x, y) pid
        (aget_some_mem _ _ _ hq1)
      obtain ⟨pd2, hp2, hx2, hy2, -⟩ := blueIndexOf_sound pts (x, y + sign * d) pid2
        (aget_some_mem _ _ _ hfd)
      rw [hb2] at hp2
      refine ⟨?_, mem_keysOf _ _ _ hp1, mem_keysOf _ _ _ hp2⟩
      intro hab
      have hpd : pd1 = pd2 := nodupkeys_functional pts hnk pid pd1 pd2 hp1 (by
        rw [hab]
        exact hp2)
      have hyy : y + sign * d = y := by
        rw [hpd] at hy1
        exact hy2.symm.trans hy1
      rcases hsign with hs | hs <;> rw [hs] at hyy <;> omega

theorem good_blueVertUpDn (pts : Points) (hnk : NodupKeys pts) (nm : NextMap)
    (hg : GoodNM pts nm) : GoodNM pts (blueVertUpDn (blueIndexOf pts) nm) := by
  rw [blueVertUpDn]
  have h1 : GoodNM pts ((rangeIncl (colAIS - 1) (colAIT - 1)).foldl
      (fun nm x => blueVertCol (blueIndexOf pts) (-1) nm (x : ℤ)) nm) := by
    apply @foldl_preserve _ _ (fun nm' => GoodNM pts nm') _ _ nm hg
    intro nm' x hgp hx
    exact good_blueVertCol pts hnk (-1) (Or.inr rfl) nm' (x : ℤ) hgp
  apply @foldl_preserve _ _ (fun nm' => GoodNM pts nm') _ _ _ h1
  intro nm' x hgp hx
  exact good_blueVertCol pts hnk 1 (Or.inl rfl) nm' (x : ℤ) hgp

def BestOK (pts : Points) (best : BestMap) : Prop :=
  ∀ e ∈ best, EdgeOK pts e.2.2 e.1

theorem region_distinct_pids (pts : Points) (hnk : NodupKeys pts) (p q : PId)
    (pd1 pd2 : PointData) (hp : (p, pd1) ∈ pts) (hq : (q, pd2) ∈ pts)
    (hr : ¬ pd1.region = pd2.region) : EdgeOK pts p q := by
  refine ⟨?_, mem_keysOf _ _ _ hp, mem_keysOf _ _ _ hq⟩
  intro hab
  apply hr
  have hpd : pd1 = pd2 := nodupkeys_functional pts hnk p pd1 pd2 hp (by
    rw [hab]
    exact hq)
  rw [hpd]

theorem bestOK_update (pts : Points) (best : BestMap) (hb : BestOK pts best)
    (pidP : PId) (cand : Cand) (pidB : PId) (hok : EdgeOK pts pidB pidP) :
    BestOK pts (bestUpdate best pidP cand pidB) := by
  rw [bestUpdate]
  have hup : BestOK pts (upsert best pidP (fun _ => (cand, pidB)) (cand, pidB)) := by
    intro e he
    rcases upsert_mem _ _ _ _ _ _ he with hold | ⟨hk, hc⟩
    · exact hb e hold
    · have he2 : e.2 = (cand, pidB) := by
        rcases hc with hc | ⟨v, hv, hc⟩
        · exact hc
        · exact hc
      rw [he2, hk]
      exact hok
  cases aget best pidP with
  | none => exact hup
  | some cur =>
    show BestOK pts (if candLt cand cur.1 = true then
      upsert best pidP (fun _ => (cand, pidB)) (cand, pidB) else best)
    split_ifs with hc
    · exact hup
    · exact hb

theorem good_adj_up (pts : Points) (hnk : NodupKeys pts) (xi yFrom : ℤ)
    (st : BestMap × NextMap) (hst : BestOK pts st.1 ∧ GoodNM pts st.2) :
    BestOK pts (add_adj_bp_edge_up (blueIndexOf pts) (build_col_index pts rPurple)
      xi yFrom st).1 ∧
    GoodNM pts (add_adj_bp_edge_up (blueIndexOf pts) (build_col_index pts rPurple)
      xi yFrom st).2 := by
  rw [add_adj_bp_edge_up]
  constructor
  · cases hq1 : aget (blueIndexOf pts) (xi, yFrom) with
    | none =>
      simp only [hq1]
      exact hst.1
    | some pidB =>
      simp only [hq1]
      cases hq2 : scanUp (fun yTo => (pcolGet (build_col_index pts rPurple) xi yTo).map
          (fun p => (p, yFrom - yTo))) yFrom with
      | none =>
        simp only [hq2]
        exact hst.1
      | some pr =>
        simp only [hq2]
        apply bestOK_update pts st.1 hst.1
        rcases scanUp_inv _ _ _ hq2 with ⟨yTo, hf⟩
        rcases Option.map_eq_some'.mp hf with ⟨pidP0, hp0, hpe⟩
        obtain ⟨pdB, hB1, -, -, hB4⟩ := blueIndexOf_sound pts (xi, yFrom) pidB
          (aget_some_mem _ _ _ hq1)
        obtain ⟨pdP, hP1, -, -, hP4⟩ := pcolGet_sound pts rPurple xi yTo pidP0 hp0
        have hpp : pidP0 = pr.1 := congrArg Prod.fst hpe
        rw [hpp] at hP1
        apply region_distinct_pids pts hnk pidB pr.1 pdB pdP hB1 hP1
        rw [hB4, hP4]
        decide
  · cases hq1 : pcolGet (build_col_index pts rPurple) xi yFrom with
    | none =>
      simp only [hq1]
      exact hst.2
    | some pidP =>
      simp only [hq1]
      cases hq2 : scanUp (fun yTo => aget (blueIndexOf pts) (xi, yTo)) yFrom with
      | none =>
        simp only [hq2]
        exact hst.2
      | some pidB =>
        simp only [hq2]
        apply GoodNM_add_edge pts st.2 pidP (some pidB) hst.2
        intro b hb
        have hb2 : pidB = b := Option.some_inj.mp hb
        rcases scanUp_inv _ _ _ hq2 with ⟨yTo, hf⟩
        obtain ⟨pdB, hB1, -, -, hB4⟩ := blueIndexOf_sound pts (xi, yTo) pidB
          (aget_some_mem _ _ _ hf)
        obtain ⟨pdP, hP1, -, -, hP4⟩ := pcolGet_sound pts rPurple xi yFrom pidP hq1
        rw [hb2] at hB1
        apply region_distinct_pids pts hnk pidP b pdP pdB hP1 hB1
        rw [hB4, hP4]
        decide

theorem good_adj_down (pts : Points) (hnk : NodupKeys pts) (xi yFrom : ℤ)
    (st : BestMap × NextMap) (hst : BestOK pts st.1 ∧ GoodNM pts st.2) :
    BestOK pts (add_adj_bp_edge_down (blueIndexOf pts) (build_col_index pts rPurple)
      xi yFrom st).1 ∧
    GoodNM pts (add_adj_bp_edge_down (blueIndexOf pts) (build_col_index pts rPurple)
      xi yFrom st).2 := by
  rw [add_adj_bp_edge_down]
  constructor
  · cases hq1 : aget (blueIndexOf pts) (xi, yFrom) with
    | none =>
      simp only [hq1]
      exact hst.1
    | some pidB =>
      simp only [hq1]
      cases hq2 : scanDn (fun yTo => (pcolGet (build_col_index pts rPurple) xi yTo).map
          (fun p => (p, yTo - yFrom))) yFrom with
      | none =>
        simp only [hq2]
        exact hst.1
      | some pr =>
        simp only [hq2]
        apply bestOK_update pts st.1 hst.1
        rcases scanDn_inv _ _ _ hq2 with ⟨yTo, hf⟩
        rcases Option.map_eq_some'.mp hf with ⟨pidP0, hp0, hpe⟩
        obtain ⟨pdB, hB1, -, -, hB4⟩ := blueIndexOf_sound pts (xi, yFrom) pidB
          (aget_some_mem _ _ _ hq1)
        obtain ⟨pdP, hP1, -, -, hP4⟩ := pcolGet_sound pts rPurple xi yTo pidP0 hp0
        have hpp : pidP0 = pr.1 := congrArg Prod.fst hpe
        rw [hpp] at hP1
        apply region_distinct_pids pts hnk pidB pr.1 pdB pdP hB1 hP1
        rw [hB4, hP4]
        decide
  · cases hq1 : pcolGet (build_col_index pts rPurple) xi yFrom with
    | none =>
      simp only [hq1]
      exact hst.2
    | some pidP =>
      simp only [hq1]
      cases hq2 : scanDn (fun yTo => aget (blueIndexOf pts) (xi, yTo)) yFrom with
      | none =>
        simp only [hq2]
        exact hst.2
      | some pidB =>
        simp only [hq2]
        apply GoodNM_add_edge pts st.2 pidP (some pidB) hst.2
        intro b hb
        have hb2 : pidB = b := Option.some_inj.mp hb
        rcases scanDn_inv _ _ _ hq2 with ⟨yTo, hf⟩
        obtain ⟨pdB, hB1, -, -, hB4⟩ := blueIndexOf_sound pts (xi, yTo) pidB
          (aget_some_mem _ _ _ hf)
        obtain ⟨pdP, hP1, -, -, hP4⟩ := pcolGet_sound pts rPurple xi yFrom pidP hq1
        rw [hb2] at hB1
        apply region_distinct_pids pts hnk pidP b pdP pdB hP1 hB1
        rw [hB4, hP4]
        decide

theorem good_adjBpBlock (pts : Points) (hnk : NodupKeys pts) (nm : NextMap)
    (hg : GoodNM pts nm) :
    GoodNM pts (adjBpBlock (blueIndexOf pts) (build_col_index pts rPurple) nm) := by
  rw [adjBpBlock]
  have hst1 : BestOK pts (([] : BestMap), nm).1 ∧ GoodNM pts (([] : BestMap), nm).2 :=
    ⟨fun e he => absurd he (List.not_mem_nil _), hg⟩
  have h1 := @foldl_preserve _ _ (fun st : BestMap × NextMap =>
      BestOK pts st.1 ∧ GoodNM pts st.2)
    (rangeIncl (colAIS - 1) (colAIT - 1))
    (fun st x => (adjYs (blueIndexOf pts) (build_col_index pts rPurple) (x : ℤ)).foldl
      (fun st y => add_adj_bp_edge_up (blueIndexOf pts) (build_col_index pts rPurple)
        (x : ℤ) y st) st)
    (([] : BestMap), nm) hst1
    (by
      intro st x hstp hx
      apply @foldl_preserve _ _ (fun st : BestMap × NextMap =>
        BestOK pts st.1 ∧ GoodNM pts st.2) _ _ st hstp
      intro st2 y hst2 hy
      exact good_adj_up pts hnk (x : ℤ) y st2 hst2)
  have h2 := @foldl_preserve _ _ (fun st : BestMap × NextMap =>
      BestOK pts st.1 ∧ GoodNM pts st.2)
    (rangeIncl (colAIU - 1) (colAIV - 1))
    (fun st x => (adjYs (blueIndexOf pts) (build_col_index pts rPurple) (x : ℤ)).foldl
      (fun st y => add_adj_bp_edge_down (blueIndexOf pts) (build_col_index pts rPurple)
        (x : ℤ) y st) st)
    _ h1
    (by
      intro st x hstp hx
      apply @foldl_preserve _ _ (fun st : BestMap × NextMap =>
        BestOK pts st.1 ∧ GoodNM pts st.2) _ _ st hstp
      intro st2 y hst2 hy
      exact good_adj_down pts hnk (x : ℤ) y st2 hst2)
  obtain ⟨hbest, hgood⟩ := h2
  apply @foldl_preserve _ _ (fun nm' => GoodNM pts nm') _ _ _ hgood
  intro nm' kv hgp hkv
  apply GoodNM_add_edge pts nm' kv.2.2 (some kv.1) hgp
  intro b hb
  rw [← Option.some_inj.mp hb]
  exact hbest kv hkv

theorem lane_change_cols_origin (pcol : ColIdx) (xF xT : ℤ) (allow : Bool) (nm : NextMap)
    (a b : PId) (h : nmMem (lane_change_cols pcol xF xT allow nm) a b) :
    nmMem nm a b ∨ ∃ y, (y, a) ∈ (aget pcol xF).getD [] ∧ pcolGet pcol xT y = some b := by
  cases allow with
  | false => exact Or.inl h
  | true =>
    have hm2 : nmMem (((aget pcol xF).getD []).foldl (fun nm yp =>
        match pcolGet pcol xT yp.1 with
        | some pid2 => add_edge nm yp.2 (some pid2)
        | none => nm) nm) a b := h
    rcases foldl_nmMem_origin _ _ nm a b
      (fun yp : ℤ × PId => a = yp.2 ∧ pcolGet pcol xT yp.1 = some b)
      (by
        intro nm' yp _ hm3
        have hm4 : nmMem (match pcolGet pcol xT yp.1 with
            | some pid2 => add_edge nm' yp.2 (some pid2)
            | none => nm') a b := hm3
        cases hgq : pcolGet pcol xT yp.1 with
        | none =>
          rw [hgq] at hm4
          exact Or.inl hm4
        | some pid2 =>
          rw [hgq] at hm4
          rcases (add_edge_mem nm' yp.2 (some pid2) a b).mp hm4 with h4 | ⟨h4, h5⟩
          · exact Or.inl h4
          · refine Or.inr ⟨h4, ?_⟩
            rw [hgq]
            exact h5)
      hm2 with h2 | ⟨yp, hyp, hqa, hqb⟩
    · exact Or.inl h2
    · refine Or.inr ⟨yp.1, ?_, hqb⟩
      rw [hqa]
      exact mem_pair_eta yp hyp

theorem good_lane_change_cols (pts : Points) (hnk : NodupKeys pts) (xF xT : ℤ)
    (hne : ¬ xF = xT) (allow : Bool) (nm : NextMap) (hg : GoodNM pts nm) :
    GoodNM pts (lane_change_cols (build_col_index pts rPurple) xF xT allow nm) := by
  intro a b h
  rcases lane_change_cols_origin _ xF xT allow nm a b h with h1 | ⟨y, hya, hyb⟩
  · exact hg a b h1
  · rcases abucket_mem_entry _ xF ((y, a) : ℤ × PId) hya with ⟨L, hL, hmemL⟩
    obtain ⟨-, hso⟩ := build_col_index_sound pts rPurple xF L hL
    obtain ⟨pd1, hp1, hx1, -, -⟩ := hso y a hmemL
    obtain ⟨pd2, hp2, hx2, -, -⟩ := pcolGet_sound pts rPurple xT y b hyb
    refine ⟨?_, mem_keysOf _ _ _ hp1, mem_keysOf _ _ _ hp2⟩
    intro hab
    have hpd : pd1 = pd2 := nodupkeys_functional pts hnk a pd1 pd2 hp1 (by
      rw [hab]
      exact hp2)
    apply hne
    rw [← hx1, ← hx2, hpd]

theorem good_laneChangeColsBlock (pts : Points) (hnk : NodupKeys pts) (nm : NextMap)
    (hg : GoodNM pts nm) :
    GoodNM pts (laneChangeColsBlock (build_col_index pts rPurple) nm) := by
  rw [laneChangeColsBlock]
  apply @foldl_preserve _ _ (fun nm' => GoodNM pts nm')
  · apply good_lane_change_cols pts hnk _ _ (by decide) true
    apply good_lane_change_cols pts hnk _ _ (by decide) true
    apply @foldl_preserve _ _ (fun nm' => GoodNM pts nm')
    · apply good_lane_change_cols pts hnk _ _ (by omega) true
      apply good_lane_change_cols pts hnk _ _ (by omega) true
      exact hg
    · intro nm' x hgp hx
      split_ifs with hc
      · exact good_lane_change_cols pts hnk _ _ (by omega) true nm' hgp
      · exact good_lane_change_cols pts hnk _ _ (by omega) true _
          (good_lane_change_cols pts hnk _ _ (by omega) true nm' hgp)
  · intro nm' x hgp hx
    split_ifs with hc1 hc2
    · exact good_lane_change_cols pts hnk _ _ (by omega) true nm' hgp
    · exact good_lane_change_cols pts hnk _ _ (by omega) true nm' hgp
    · exact good_lane_change_cols pts hnk _ _ (by omega) true _
        (good_lane_change_cols pts hnk _ _ (by omega) true nm' hgp)

theorem fold_tagged {α β γ : Type} [DecidableEq γ] (F : List α → β → List α) (tag : α → γ)
    (ctag : β → γ)
    (hstep : ∀ ids c, F ids c = ids ∨ ∃ p, F ids c = ids ++ [p] ∧ tag p = ctag c) :
    ∀ (l : List β) (ids : List α), (l.map ctag).Nodup → ids.Nodup →
      (∀ p ∈ ids, ¬ tag p ∈ l.map ctag) → (l.foldl F ids).Nodup := by
  intro l
  induction l with
  | nil => exact fun ids _ hn _ => hn
  | cons c t ih =>
    intro ids hln hn hdisj
    rw [List.map_cons, List.nodup_cons] at hln
    rw [List.foldl_cons]
    rcases hstep ids c with hid | ⟨p, hid, htag⟩
    · rw [hid]
      apply ih ids hln.2 hn
      intro p hp hcon
      exact hdisj p hp (by rw [List.map_cons]; exact List.mem_cons_of_mem _ hcon)
    · rw [hid]
      apply ih (ids ++ [p]) hln.2
      · apply nodup_append_singleton _ _ hn
        intro hcon
        exact hdisj p hcon (by
          rw [List.map_cons, htag]
          exact List.mem_cons_self _ _)
      · intro q hq hcon
        rcases List.mem_append.mp hq with h1 | h1
        · exact hdisj q h1 (by rw [List.map_cons]; exact List.mem_cons_of_mem _ hcon)
        · rw [List.mem_singleton.mp h1] at hcon
          rw [htag] at hcon
          exact hln.1 hcon

theorem rangeIncl_nodup (a b : ℕ) : (rangeIncl a b).Nodup := by
  rw [rangeIncl]
  exact (List.nodup_range _).map (fun i j h => by omega)

theorem rangeIncl_map_pred_nodup (a b : ℕ) (ha : 1 ≤ a) :
    ((rangeIncl a b).map (fun c => Fq.ofNat (c - 1))).Nodup := by
  apply List.Nodup.map_on
  · intro x hx y hy hxy
    have hxa := ((mem_rangeIncl a b x).mp hx).1
    have hya := ((mem_rangeIncl a b y).mp hy).1
    have := Fq.ofNat_inj _ _ hxy
    omega
  · exact rangeIncl_nodup a b

theorem contiguous_bound (wb : Workbook) (row : ℕ) (sig : String) (cMin cMax : ℕ) :
    ∀ cs ∈ contiguous_segments_for_color wb row sig cMin cMax, cMin ≤ cs.1 := by
  rw [contiguous_segments_for_color]
  have hfold := @foldl_preserve _ _ (fun st : List (ℕ × ℕ) × Option ℕ =>
      (∀ cs ∈ st.1, cMin ≤ cs.1) ∧ (∀ ss, st.2 = some ss → cMin ≤ ss))
    (rangeIncl cMin cMax)
    (fun (st : List (ℕ × ℕ) × Option ℕ) c =>
      if wb.color row c = some sig then
        match st.2 with
        | none => (st.1, some c)
        | some s => (st.1, some s)
      else
        match st.2 with
        | none => (st.1, none)
        | some s => (st.1 ++ [(s, c - 1)], none))
    ([], none)
    ⟨fun cs hcs => absurd hcs (List.not_mem_nil _), fun ss hss => Option.noConfusion hss⟩
    (by
      intro st c hst hc
      have hcm : cMin ≤ c := ((mem_rangeIncl cMin cMax c).mp hc).1
      beta_reduce
      split_ifs with hcol
      · cases hq : st.2 with
        | none =>
          simp only [hq]
          exact ⟨hst.1, fun ss hss => by rw [← Option.some_inj.mp hss]; exact hcm⟩
        | some s =>
          simp only [hq]
          exact ⟨hst.1, fun ss hss => by
            rw [← Option.some_inj.mp hss]
            exact hst.2 s hq⟩
      · cases hq : st.2 with
        | none =>
          simp only [hq]
          exact ⟨hst.1, fun ss hss => Option.noConfusion hss⟩
        | some s =>
          simp only [hq]
          constructor
          · intro cs hcs
            rcases List.mem_append.mp hcs with h1 | h1
            · exact hst.1 cs h1
            · rw [List.mem_singleton.mp h1]
              exact hst.2 s hq
          · exact fun ss hss => Option.noConfusion hss)
  intro cs hcs
  cases hq : ((rangeIncl cMin cMax).foldl (fun (st : List (ℕ × ℕ) × Option ℕ) c =>
      if wb.color row c = some sig then
        match st.2 with
        | none => (st.1, some c)
        | some s => (st.1, some s)
      else
        match st.2 with
        | none => (st.1, none)
        | some s => (st.1 ++ [(s, c - 1)], none))
    ([], none)).2 with
  | none =>
    rw [hq] at hcs
    exact hfold.1 cs hcs
  | some s =>
    rw [hq] at hcs
    have hcs2 : cs ∈ ((rangeIncl cMin cMax).foldl (fun (st : List (ℕ × ℕ) × Option ℕ) c =>
        if wb.color row c = some sig then
          match st.2 with
          | none => (st.1, some c)
          | some s => (st.1, some s)
        else
          match st.2 with
          | none => (st.1, none)
          | some s => (st.1 ++ [(s, c - 1)], none))
      ([], none)).1 ++ [(s, cMax)] := hcs
    rcases List.mem_append.mp hcs2 with h1 | h1
    · exact hfold.1 cs h1
    · rw [List.mem_singleton.mp h1]
      exact hfold.2 s hq

theorem xOf_eq (pts : Points) (hnk : NodupKeys pts) (p : PId) (pd : PointData)
    (hm : (p, pd) ∈ pts) : xOf pts p = pd.x := by
  rw [xOf, aget_of_mem_nodup pts hnk p pd hm]
  rfl

theorem regionOf_eq (pts : Points) (hnk : NodupKeys pts) (p : PId) (pd : PointData)
    (hm : (p, pd) ∈ pts) : regionOf pts p = pd.region := by
  rw [regionOf, aget_of_mem_nodup pts hnk p pd hm]
  rfl

theorem segIds_facts (pts : Points) (hnk : NodupKeys pts) (r : ℕ) (cseg : ℕ × ℕ)
    (hc1 : 1 ≤ cseg.1) :
    (segIds pts (coordIndexOf pts) r cseg).Nodup ∧
    ∀ p ∈ segIds pts (coordIndexOf pts) r cseg,
      regionOf pts p = rBlue ∧ p ∈ keysOf pts := by
  constructor
  · rw [segIds]
    apply fold_tagged _ (fun p => xOf pts p) (fun c => Fq.ofNat (c - 1)) _
      (rangeIncl cseg.1 cseg.2) [] (rangeIncl_map_pred_nodup cseg.1 cseg.2 hc1)
      List.nodup_nil (fun p hp => absurd hp (List.not_mem_nil _))
    intro ids c
    cases hol : get_pid_at pts (coordIndexOf pts) (Fq.ofNat (c - 1)) (Fq.ofNat r)
        (some rBlue) none with
    | none =>
      left
      rfl
    | some pid =>
      have hb := get_pid_at_sound pts (coordIndexOf pts) _ _ _ _ pid hol
      rcases abucket_mem_entry _ _ pid hb with ⟨L, hL, hmemL⟩
      obtain ⟨pd, hpd, hx, hy⟩ := coordIndexOf_sound pts _ L hL pid hmemL
      by_cases hreg : regionOf pts pid = rBlue
      · right
        refine ⟨pid, ?_, ?_⟩
        · show (if regionOf pts pid = rBlue then ids ++ [pid] else ids) = ids ++ [pid]
          rw [if_pos hreg]
        · show xOf pts pid = Fq.ofNat (c - 1)
          rw [xOf_eq pts hnk pid pd hpd]
          exact hx
      · left
        show (if regionOf pts pid = rBlue then ids ++ [pid] else ids) = ids
        rw [if_neg hreg]
  · rw [segIds]
    apply @foldl_preserve _ _ (fun ids : List PId => ∀ p ∈ ids,
      regionOf pts p = rBlue ∧ p ∈ keysOf pts)
    · intro p hp
      exact absurd hp (List.not_mem_nil _)
    · intro ids c hids hc
      cases hol : get_pid_at pts (coordIndexOf pts) (Fq.ofNat (c - 1)) (Fq.ofNat r)
          (some rBlue) none with
      | none =>
        exact hids
      | some pid =>
        show ∀ p ∈ (if regionOf pts pid = rBlue then ids ++ [pid] else ids),
          regionOf pts p = rBlue ∧ p ∈ keysOf pts
        split_ifs with hreg
        · intro p hp
          rcases List.mem_append.mp hp with h1 | h1
          · exact hids p h1
          · rw [List.mem_singleton.mp h1]
            refine ⟨hreg, ?_⟩
            have hb := get_pid_at_sound pts (coordIndexOf pts) _ _ _ _ pid hol
            rcases abucket_mem_entry _ _ pid hb with ⟨L, hL, hmemL⟩
            obtain ⟨pd, hpd, -, -⟩ := coordIndexOf_sound pts _ L hL pid hmemL
            exact mem_keysOf _ _ _ hpd
        · exact hids

theorem getLastD_mem {α : Type} : ∀ (l : List α) (d : α), ¬ l = [] → l.getLastD d ∈ l := by
  intro l
  induction l with
  | nil =>
    intro d h
    exact absurd rfl h
  | cons x t ih =>
    intro d h
    cases t with
    | nil =>
      rw [List.getLastD_cons]
      show x ∈ [x]
      exact List.mem_singleton_self x
    | cons y s =>
      rw [List.getLastD_cons]
      exact List.mem_cons_of_mem x (ih x (List.cons_ne_nil y s))

theorem headD_mem {α : Type} (l : List α) (d : α) (h : ¬ l = []) : l.headD d ∈ l := by
  cases l with
  | nil => exact absurd rfl h
  | cons x t =>
    show x ∈ x :: t
    exact List.mem_cons_self x t

theorem get_pid_at_keys (pts : Points) (x y : Fq) (pref excl : Option String) (p : PId)
    (h : get_pid_at pts (coordIndexOf pts) x y pref excl = some p) : p ∈ keysOf pts := by
  have hb := get_pid_at_sound pts (coordIndexOf pts) x y pref excl p h
  rcases abucket_mem_entry _ _ p hb with ⟨L, hL, hmemL⟩
  obtain ⟨pd, hpd, -, -⟩ := coordIndexOf_sound pts _ L hL p hmemL
  exact mem_keysOf pts p pd hpd

theorem good_chain_fold (pts : Points) (l : List (PId × PId)) (nm : NextMap)
    (hg : GoodNM pts nm) (hok : ∀ ab ∈ l, EdgeOK pts ab.1 ab.2) :
    GoodNM pts (l.foldl (fun nm ab => add_edge nm ab.1 (some ab.2)) nm) := by
  intro a b h
  rcases chain_fold_origin (fun p : PId => p) l nm a b h with h1 | ⟨ab, habl, ha, hb⟩
  · exact hg a b h1
  · rw [ha, hb]
    exact hok ab habl

theorem good_out_maybe (pts : Points) (F : NextMap) (o : PId) (tgt : Option PId)
    (S : List PId) (hgF : GoodNM pts F)
    (hmemS : ∀ p ∈ S, regionOf pts p = rBlue ∧ p ∈ keysOf pts)
    (hok : o ∈ keysOf pts) (htgt : ∀ b, tgt = some b → b ∈ S) :
    GoodNM pts (if ¬ regionOf pts o = rBlue then add_edge F o tgt else F) := by
  by_cases hro : regionOf pts o = rBlue
  · rw [if_neg (not_not_intro hro)]
    exact hgF
  · rw [if_pos hro]
    apply GoodNM_add_edge pts F o tgt hgF
    intro b hb
    obtain ⟨hrb, hkb⟩ := hmemS b (htgt b hb)
    exact ⟨fun hcon => hro (by rw [hcon]; exact hrb), hok, hkb⟩

theorem good_out_to (pts : Points) (F : NextMap) (o s : PId)
    (hgF : GoodNM pts F) (hs : regionOf pts s = rBlue ∧ s ∈ keysOf pts)
    (hok : o ∈ keysOf pts) :
    GoodNM pts (if ¬ regionOf pts o = rBlue then add_edge F s (some o) else F) := by
  by_cases hro : regionOf pts o = rBlue
  · rw [if_neg (not_not_intro hro)]
    exact hgF
  · rw [if_pos hro]
    apply GoodNM_add_edge pts F s (some o) hgF
    intro b hb
    rw [← Option.some_inj.mp hb]
    exact ⟨fun hcon => hro (by rw [← hcon]; exact hs.1), hs.2, hok⟩

theorem good_blueSegChain (pts : Points) (hnk : NodupKeys pts) (d : String) (r : ℕ)
    (nm : NextMap) (cseg : ℕ × ℕ) (hc1 : 1 ≤ cseg.1) (hg : GoodNM pts nm) :
    GoodNM pts (blueSegChain pts (coordIndexOf pts) d r nm cseg) := by
  obtain ⟨hnd, hall⟩ := segIds_facts pts hnk r cseg hc1
  simp only [blueSegChain]
  by_cases hlen : (segIds pts (coordIndexOf pts) r cseg).length < 2
  · rw [if_pos hlen]
    exact hg
  · rw [if_neg hlen]
    have hperm := List.perm_insertionSort (fun a b => Fq.le (xOf pts a) (xOf pts b))
      (segIds pts (coordIndexOf pts) r cseg)
    have hnds : (List.insertionSort (fun a b => Fq.le (xOf pts a) (xOf pts b))
        (segIds pts (coordIndexOf pts) r cseg)).Nodup :=
      (List.Perm.nodup_iff hperm).mpr hnd
    have hmemS : ∀ p ∈ List.insertionSort (fun a b => Fq.le (xOf pts a) (xOf pts b))
        (segIds pts (coordIndexOf pts) r cseg),
        regionOf pts p = rBlue ∧ p ∈ keysOf pts :=
      fun p hp => hall p ((List.Perm.mem_iff hperm).mp hp)
    have hne : ¬ List.insertionSort (fun a b => Fq.le (xOf pts a) (xOf pts b))
        (segIds pts (coordIndexOf pts) r cseg) = [] := by
      intro hcon
      have hl := List.Perm.length_eq hperm
      rw [hcon] at hl
      simp only [List.length_nil] at hl
      omega
    by_cases hd : d = "right"
    · simp only [if_pos hd]
      have hgF : GoodNM pts (((List.insertionSort (fun a b => Fq.le (xOf pts a) (xOf pts b))
          (segIds pts (coordIndexOf pts) r cseg)).zip
          (List.insertionSort (fun a b => Fq.le (xOf pts a) (xOf pts b))
          (segIds pts (coordIndexOf pts) r cseg)).tail).foldl
          (fun nm ab => add_edge nm ab.1 (some ab.2)) nm) := by
        apply good_chain_fold pts _ nm hg
        intro ab hab
        have hadj : adjIn (List.insertionSort (fun a b => Fq.le (xOf pts a) (xOf pts b))
            (segIds pts (coordIndexOf pts) r cseg)) ab.1 ab.2 := hab
        obtain ⟨h1, h2⟩ := adjIn_mem _ _ _ hadj
        exact ⟨nodup_adjIn_ne _ hnds _ _ hadj, (hmemS _ h1).2, (hmemS _ h2).2⟩
      cases hol : get_pid_at pts (coordIndexOf pts) (Fq.ofInt ((cseg.1 : ℤ) - 1 - 1))
          (Fq.ofNat r) none (some rBlue) with
      | none =>
        cases horr : get_pid_at pts (coordIndexOf pts) (Fq.ofInt ((cseg.2 : ℤ) + 1 - 1))
            (Fq.ofNat r) none (some rBlue) with
        | none => exact hgF
        | some orr =>
          exact good_out_to pts _ orr _ hgF
            (hmemS _ (getLastD_mem _ (PId.BL 0 0) hne))
            (get_pid_at_keys pts _ _ _ _ orr horr)
      | some ol =>
        have hgML := good_out_maybe pts _ ol
          (List.insertionSort (fun a b => Fq.le (xOf pts a) (xOf pts b))
            (segIds pts (coordIndexOf pts) r cseg)).head? _ hgF hmemS
          (get_pid_at_keys pts _ _ _ _ ol hol) (fun b hb => head?_mem _ b hb)
        cases horr : get_pid_at pts (coordIndexOf pts) (Fq.ofInt ((cseg.2 : ℤ) + 1 - 1))
            (Fq.ofNat r) none (some rBlue) with
        | none => exact hgML
        | some orr =>
          exact good_out_to pts _ orr _ hgML
            (hmemS _ (getLastD_mem _ (PId.BL 0 0) hne))
            (get_pid_at_keys pts _ _ _ _ orr horr)
    · simp only [if_neg hd]
      have hgF : GoodNM pts (((List.insertionSort (fun a b => Fq.le (xOf pts a) (xOf pts b))
          (segIds pts (coordIndexOf pts) r cseg)).tail.zip
          (List.insertionSort (fun a b => Fq.le (xOf pts a) (xOf pts b))
          (segIds pts (coordIndexOf pts) r cseg))).foldl
          (fun nm ab => add_edge nm ab.1 (some ab.2)) nm) := by
        apply good_chain_fold pts _ nm hg
        intro ab hab
        have hadj : adjIn (List.insertionSort (fun a b => Fq.le (xOf pts a) (xOf pts b))
            (segIds pts (coordIndexOf pts) r cseg)) ab.2 ab.1 :=
          zip_tail_swap _ _ _ hab
        obtain ⟨h1, h2⟩ := adjIn_mem _ _ _ hadj
        refine ⟨fun hcon => nodup_adjIn_ne _ hnds _ _ hadj hcon.symm, (hmemS _ h2).2,
          (hmemS _ h1).2⟩
      cases horr : get_pid_at pts (coordIndexOf pts) (Fq.ofInt ((cseg.2 : ℤ) + 1 - 1))
          (Fq.ofNat r) none (some rBlue) with
      | none =>
        cases hol : get_pid_at pts (coordIndexOf pts) (Fq.ofInt ((cseg.1 : ℤ) - 1 - 1))
            (Fq.ofNat r) none (some rBlue) with
        | none => exact hgF
        | some ol =>
          exact good_out_to pts _ ol _ hgF
            (hmemS _ (headD_mem _ (PId.BL 0 0) hne))
            (get_pid_at_keys pts _ _ _ _ ol hol)
      | some orr =>
        have hgML := good_out_maybe pts _ orr
          (List.insertionSort (fun a b => Fq.le (xOf pts a) (xOf pts b))
            (segIds pts (coordIndexOf pts) r cseg)).getLast? _ hgF hmemS
          (get_pid_at_keys pts _ _ _ _ orr horr)
          (fun b hb => List.mem_of_getLast?_eq_some hb)
        cases hol : get_pid_at pts (coordIndexOf pts) (Fq.ofInt ((cseg.1 : ℤ) - 1 - 1))
            (Fq.ofNat r) none (some rBlue) with
        | none => exact hgML
        | some ol =>
          exact good_out_to pts _ ol _ hgML
            (hmemS _ (headD_mem _ (PId.BL 0 0) hne))
            (get_pid_at_keys pts _ _ _ _ ol hol)

theorem good_blueHorizRowStep (wb : Workbook) (pts : Points) (hnk : NodupKeys pts)
    (bsig : String) (nm : NextMap) (r : ℕ) (hg : GoodNM pts nm) :
    GoodNM pts (blueHorizRowStep wb pts (coordIndexOf pts) bsig nm r) := by
  simp only [blueHorizRowStep]
  by_cases hs : contiguous_segments_for_color wb r bsig 1 (min wb.maxCol colAIV) = []
  · rw [if_pos hs]
    exact hg
  · rw [if_neg hs]
    apply @foldl_preserve _ _ (fun nm2 => GoodNM pts nm2)
      (contiguous_segments_for_color wb r bsig 1 (min wb.maxCol colAIV))
      (blueSegChain pts (coordIndexOf pts) (row_lr_dir (r : ℤ)) r) nm hg
    intro nm2 cs hg2 hcs
    exact good_blueSegChain pts hnk _ r nm2 cs
      (contiguous_bound wb r bsig 1 (min wb.maxCol colAIV) cs hcs) hg2

theorem good_blueHorizBlock (wb : Workbook) (pts : Points) (hnk : NodupKeys pts)
    (bsig : String) (nm : NextMap) (hg : GoodNM pts nm) :
    GoodNM pts (blueHorizBlock wb pts (coordIndexOf pts) bsig nm) := by
  rw [blueHorizBlock]
  apply @foldl_preserve _ _ (fun nm2 => GoodNM pts nm2) (rangeIncl 1 wb.maxRow)
    (blueHorizRowStep wb pts (coordIndexOf pts) bsig) nm hg
  intro nm2 r hg2 hr
  exact good_blueHorizRowStep wb pts hnk bsig nm2 r hg2

theorem good_bidirAdd (pts : Points) (gid : PId) (nm : NextMap) (p : PId)
    (hg : GoodNM pts nm) (hok : EdgeOK pts gid p) : GoodNM pts (bidirAdd gid nm p) := by
  rw [bidirAdd]
  apply GoodNM_add_edge pts (add_edge nm gid (some p)) p (some gid)
  · apply GoodNM_add_edge pts nm gid (some p) hg
    intro b hb
    rw [← Option.some_inj.mp hb]
    exact hok
  · intro b hb
    rw [← Option.some_inj.mp hb]
    exact EdgeOK_symm pts gid p hok

theorem good_bidir_fold (pts : Points) (gid : PId) (l : List PId) (nm : NextMap)
    (hg : GoodNM pts nm) (hok : ∀ p ∈ l, EdgeOK pts gid p) :
    GoodNM pts (l.foldl (bidirAdd gid) nm) := by
  apply @foldl_preserve _ _ (fun nm2 => GoodNM pts nm2) l (bidirAdd gid) nm hg
  intro nm2 p hg2 hp
  exact good_bidirAdd pts gid nm2 p hg2 (hok p hp)

theorem aivAjb_sound (pts : Points) :
    (∀ e ∈ (aivAjbCandidates pts).1, ∃ pd, (e.1, pd) ∈ pts ∧
      (pd.region = rPurple ∨ pd.region = rBlue)) ∧
    (∀ e ∈ (aivAjbCandidates pts).2, ∃ pd, (e.1, pd) ∈ pts ∧ pd.region = rPurple) := by
  rw [aivAjbCandidates]
  apply @foldl_preserve _ _ (fun acc : List (PId × Fq × Fq) × List (PId × Fq × Fq) =>
    (∀ e ∈ acc.1, ∃ pd, (e.1, pd) ∈ pts ∧ (pd.region = rPurple ∨ pd.region = rBlue)) ∧
    (∀ e ∈ acc.2, ∃ pd, (e.1, pd) ∈ pts ∧ pd.region = rPurple)) pts _ ([], [])
  · constructor <;> (intro e he; exact absurd he (List.not_mem_nil _))
  · intro acc kp hacc hkp
    simp only []
    split_ifs <;>
      (constructor <;> intro e he <;>
        first
          | exact hacc.1 e he
          | exact hacc.2 e he
          | (rcases List.mem_append.mp he with h9 | h9
             <;> first
               | exact hacc.1 e h9
               | exact hacc.2 e h9
               | (rw [List.mem_singleton.mp h9]
                  exact ⟨kp.2, hkp, by tauto⟩)))

theorem greySplit_sound (pts : Points) :
    (∀ e ∈ (greySplit pts).1, ∃ pd, (e.1, pd) ∈ pts ∧ pd.region = rGrey) ∧
    (∀ e ∈ (greySplit pts).2, ∃ pd, (e.1, pd) ∈ pts ∧ pd.region = rGrey) := by
  rw [greySplit]
  apply @foldl_preserve _ _ (fun acc : List (PId × Fq × Fq) × List (PId × Fq × Fq) =>
    (∀ e ∈ acc.1, ∃ pd, (e.1, pd) ∈ pts ∧ pd.region = rGrey) ∧
    (∀ e ∈ acc.2, ∃ pd, (e.1, pd) ∈ pts ∧ pd.region = rGrey)) pts _ ([], [])
  · constructor <;> (intro e he; exact absurd he (List.not_mem_nil _))
  · intro acc kp hacc hkp
    simp only []
    split_ifs <;>
      (constructor <;> intro e he <;>
        first
          | exact hacc.1 e he
          | exact hacc.2 e he
          | (rcases List.mem_append.mp he with h9 | h9
             <;> first
               | exact hacc.1 e h9
               | exact hacc.2 e h9
               | (rw [List.mem_singleton.mp h9]
                  exact ⟨kp.2, hkp, by tauto⟩)))

theorem pbRows_sound (pts : Points) :
    (∀ e ∈ (pbRows pts).1, ∃ pd, (e.1, pd) ∈ pts ∧
      (pd.region = rPurple ∨ pd.region = rBlue)) ∧
    (∀ e ∈ (pbRows pts).2.1, ∃ pd, (e.1, pd) ∈ pts ∧
      (pd.region = rPurple ∨ pd.region = rBlue)) ∧
    (∀ e ∈ (pbRows pts).2.2.1, ∃ pd, (e.1, pd) ∈ pts ∧
      (pd.region = rPurple ∨ pd.region = rBlue)) ∧
    (∀ e ∈ (pbRows pts).2.2.2, ∃ pd, (e.1, pd) ∈ pts ∧
      (pd.region = rPurple ∨ pd.region = rBlue)) := by
  rw [pbRows]
  apply @foldl_preserve _ _ (fun acc : List (PId × Fq × Fq) × List (PId × Fq × Fq) ×
      List (PId × Fq × Fq) × List (PId × Fq × Fq) =>
    (∀ e ∈ acc.1, ∃ pd, (e.1, pd) ∈ pts ∧ (pd.region = rPurple ∨ pd.region = rBlue)) ∧
    (∀ e ∈ acc.2.1, ∃ pd, (e.1, pd) ∈ pts ∧ (pd.region = rPurple ∨ pd.region = rBlue)) ∧
    (∀ e ∈ acc.2.2.1, ∃ pd, (e.1, pd) ∈ pts ∧ (pd.region = rPurple ∨ pd.region = rBlue)) ∧
    (∀ e ∈ acc.2.2.2, ∃ pd, (e.1, pd) ∈ pts ∧ (pd.region = rPurple ∨ pd.region = rBlue)))
    pts _ ([], [], [], [])
  · refine ⟨?_, ?_, ?_, ?_⟩ <;> (intro e he; exact absurd he (List.not_mem_nil _))
  · intro acc kp hacc hkp
    simp only []
    split_ifs <;>
      (refine ⟨?_, ?_, ?_, ?_⟩ <;> intro e he <;>
        first
          | exact hacc.1 e he
          | exact hacc.2.1 e he
          | exact hacc.2.2.1 e he
          | exact hacc.2.2.2 e he
          | (rcases List.mem_append.mp he with h9 | h9
             <;> first
               | exact hacc.1 e h9
               | exact hacc.2.1 e h9
               | exact hacc.2.2.1 e h9
               | exact hacc.2.2.2 e h9
               | (rw [List.mem_singleton.mp h9]
                  exact ⟨kp.2, hkp, by tauto⟩)))

theorem grey_pb_distinct (pts : Points) (hnk : NodupKeys pts) (gid : PId)
    (pdg : PointData) (hgm : (gid, pdg) ∈ pts) (hrg : pdg.region = rGrey)
    (q : PId) (pd : PointData) (hpd : (q, pd) ∈ pts)
    (hr : pd.region = rPurple ∨ pd.region = rBlue) : EdgeOK pts gid q := by
  apply region_distinct_pids pts hnk gid q pdg pd hgm hpd
  intro hcon
  rw [hrg] at hcon
  rcases hr with h | h <;> (rw [h] at hcon; exact absurd hcon (by decide))

theorem blue_grey_distinct (pts : Points) (hnk : NodupKeys pts) (gid : PId)
    (pdb : PointData) (hgm : (gid, pdb) ∈ pts) (hrb : pdb.region = rBlue)
    (q : PId) (pd : PointData) (hpd : (q, pd) ∈ pts) (hr : pd.region = rGrey) :
    EdgeOK pts gid q := by
  apply region_distinct_pids pts hnk gid q pdb pd hgm hpd
  intro hcon
  rw [hrb, hr] at hcon
  exact absurd hcon (by decide)

theorem good_step1GreyV (pts : Points) (hnk : NodupKeys pts) (nm : NextMap)
    (hg : GoodNM pts nm) :
    GoodNM pts (step1GreyV (greySplit pts).1 (aivAjbCandidates pts).1
      (aivAjbCandidates pts).2 nm) := by
  rw [step1GreyV]
  apply @foldl_preserve _ _ (fun nm2 => GoodNM pts nm2) _ _ nm hg
  intro nm2 g hg2 hgmem
  simp only []
  obtain ⟨pdg, hpdg, hrg⟩ := (greySplit_sound pts).1 g hgmem
  have hstep : ∀ (cands : List (PId × Fq × Fq)) (nm3 : NextMap), GoodNM pts nm3 →
      (∀ e ∈ cands, ∃ pd, (e.1, pd) ∈ pts ∧
        (pd.region = rPurple ∨ pd.region = rBlue)) →
      GoodNM pts ((nearest_by_y_ids cands g.2.2 2).foldl (bidirAdd g.1) nm3) := by
    intro cands nm3 hg3 hsound
    apply good_bidir_fold pts g.1 _ nm3 hg3
    intro p hp
    rcases nearest_by_y_ids_sub cands g.2.2 2 p hp with ⟨t, ht, hpt⟩
    obtain ⟨pd, hpd, hr⟩ := hsound t ht
    rw [← hpt]
    exact grey_pb_distinct pts hnk g.1 pdg hpdg hrg t.1 pd hpd hr
  apply hstep _ _ (hstep _ _ hg2 (aivAjb_sound pts).1)
  intro e he
  obtain ⟨pd, hpd, hr⟩ := (aivAjb_sound pts).2 e he
  exact ⟨pd, hpd, Or.inl hr⟩

theorem good_greyHLinks (pts : Points) (hnk : NodupKeys pts) (nm : NextMap)
    (hg : GoodNM pts nm) :
    GoodNM pts (greyHLinks (greySplit pts).2 (pbRows pts).1 (pbRows pts).2.1
      (pbRows pts).2.2.1 (pbRows pts).2.2.2 nm) := by
  rw [greyHLinks]
  apply @foldl_preserve _ _ (fun nm2 => GoodNM pts nm2) _ _ nm hg
  intro nm2 g hg2 hgmem
  simp only []
  obtain ⟨pdg, hpdg, hrg⟩ := (greySplit_sound pts).2 g hgmem
  have hstep : ∀ (cands : List (PId × Fq × Fq)) (nm3 : NextMap), GoodNM pts nm3 →
      (∀ e ∈ cands, ∃ pd, (e.1, pd) ∈ pts ∧
        (pd.region = rPurple ∨ pd.region = rBlue)) →
      GoodNM pts ((nearest_by_x_ids cands g.2.1 2).foldl (bidirAdd g.1) nm3) := by
    intro cands nm3 hg3 hsound
    apply good_bidir_fold pts g.1 _ nm3 hg3
    intro p hp
    rcases nearest_by_x_ids_sub cands g.2.1 2 p hp with ⟨t, ht, hpt⟩
    obtain ⟨pd, hpd, hr⟩ := hsound t ht
    rw [← hpt]
    exact grey_pb_distinct pts hnk g.1 pdg hpdg hrg t.1 pd hpd hr
  split_ifs with hy
  · exact hstep _ _ (hstep _ _ hg2 (pbRows_sound pts).1) (pbRows_sound pts).2.1
  · exact hstep _ _ (hstep _ _ hg2 (pbRows_sound pts).2.2.1) (pbRows_sound pts).2.2.2

theorem good_forceRows (pts : Points) (hnk : NodupKeys pts) (nm : NextMap)
    (hg : GoodNM pts nm) :
    GoodNM pts (forceRows pts
      ((greySplit pts).2.filter (fun g => 17 ≤ pyRound g.2.2 ∧ pyRound g.2.2 ≤ 21))
      ((greySplit pts).2.filter (fun g => 230 ≤ pyRound g.2.2 ∧ pyRound g.2.2 ≤ 234))
      nm) := by
  rw [forceRows]
  apply @foldl_preserve _ _ (fun nm2 => GoodNM pts nm2) _ _ nm hg
  intro nm2 kp hg2 hkp
  simp only []
  have hstep : ∀ (band : List (PId × Fq × Fq)) (nm3 : NextMap), GoodNM pts nm3 →
      kp.2.region = rBlue →
      (∀ e ∈ band, ∃ pd, (e.1, pd) ∈ pts ∧ pd.region = rGrey) →
      GoodNM pts ((nearest_grey_by_x_in_band kp.2.x band 2).foldl (bidirAdd kp.1) nm3) := by
    intro band nm3 hg3 hrb hsound
    apply good_bidir_fold pts kp.1 _ nm3 hg3
    intro p hp
    rcases nearest_grey_sub kp.2.x band 2 p hp with ⟨t, ht, hpt⟩
    obtain ⟨pd, hpd, hr⟩ := hsound t ht
    rw [← hpt]
    exact blue_grey_distinct pts hnk kp.1 kp.2 hkp hrb t.1 pd hpd hr
  split_ifs with h1 h2 h3 h4 h5 <;>
    first
      | exact hg2
      | (apply hstep _ _ hg2 h1
         intro e he
         exact (greySplit_sound pts).2 e (List.mem_of_mem_filter he))

theorem good_step2Fallback (pts : Points) (hnk : NodupKeys pts) (nm : NextMap)
    (hg : GoodNM pts nm) :
    GoodNM pts (step2Fallback pts ((greySplit pts).1 ++ (greySplit pts).2) nm) := by
  rw [step2Fallback]
  apply @foldl_preserve _ _ (fun nm2 => GoodNM pts nm2) _ _ nm hg
  intro nm2 kp hg2 hkp
  simp only [step2One]
  split_ifs with h1 h2 h3 h4 h5 <;>
    first
      | exact hg2
      | (apply good_bidir_fold pts kp.1 _ nm2 hg2
         intro p hp
         have hp2 := pyDedup_sub _ p (List.take_subset 2 _ hp)
         rcases epsMinScan_sub _ _ _ p hp2 with ⟨t, ht, hpt⟩
         have ht2 : t ∈ (greySplit pts).1 ++ (greySplit pts).2 :=
           List.mem_of_mem_filter ht
         have hsg : ∃ pd, (t.1, pd) ∈ pts ∧ pd.region = rGrey := by
           rcases List.mem_append.mp ht2 with h9 | h9
           · exact (greySplit_sound pts).1 t h9
           · exact (greySplit_sound pts).2 t h9
         obtain ⟨pd, hpd, hr⟩ := hsg
         rw [← hpt]
         exact blue_grey_distinct pts hnk kp.1 kp.2 hkp h1 t.1 pd hpd hr)

theorem connectPhase_good (wb : Workbook) (blueSig : String) (pts : Points)
    (hnk : NodupKeys pts) : GoodNM pts (connectPhase wb blueSig pts) := by
  simp only [connectPhase]
  apply good_step2Fallback pts hnk
  apply good_forceRows pts hnk
  apply good_greyHLinks pts hnk
  apply good_step1GreyV pts hnk
  apply good_laneChangeColsBlock pts hnk
  apply good_adjBpBlock pts hnk
  apply good_blueVertUpDn pts hnk
  apply good_vertRangeChains pts hnk
  apply good_upsDnsBlock pts hnk
  apply good_aipAisBlock pts hnk
  apply good_blueHorizBlock wb pts hnk blueSig
  apply good_ogLaneBlock pts hnk
  apply good_connect_segments pts hnk rGreen og_dir
  apply good_connect_segments pts hnk rOrange og_dir
  apply good_purpleLaneBlock pts hnk
  apply good_connect_purple_rows pts hnk
  apply good_connect_purple_rows pts hnk
  apply good_connect_purple_rows pts hnk
  apply good_connect_purple_rows pts hnk
  exact GoodNM_nil pts

theorem charLeB_total : ∀ (a b : List Char), charLeB a b = true ∨ charLeB b a = true := by
  intro a
  induction a with
  | nil =>
    intro b
    exact Or.inl rfl
  | cons x as ih =>
    intro b
    cases b with
    | nil => exact Or.inr rfl
    | cons y bs =>
      by_cases hxy : x.toNat < y.toNat
      · left
        simp only [charLeB]
        rw [if_pos hxy]
      · by_cases hyx : y.toNat < x.toNat
        · right
          simp only [charLeB]
          rw [if_pos hyx]
        · rcases ih bs with h | h
          · left
            simp only [charLeB]
            rw [if_neg hxy, if_neg hyx]
            exact h
          · right
            simp only [charLeB]
            rw [if_neg hyx, if_neg hxy]
            exact h

theorem charLeB_trans : ∀ (a b c : List Char), charLeB a b = true → charLeB b c = true →
    charLeB a c = true := by
  intro a
  induction a with
  | nil =>
    intro b c h1 h2
    rfl
  | cons x as ih =>
    intro b c h1 h2
    cases b with
    | nil => cases h1
    | cons y bs =>
      cases c with
      | nil => cases h2
      | cons z cs =>
        have e1 : x.toNat < y.toNat ∨ (x.toNat = y.toNat ∧ charLeB as bs = true) := by
          simp only [charLeB] at h1
          by_cases hxy : x.toNat < y.toNat
          · exact Or.inl hxy
          · rw [if_neg hxy] at h1
            by_cases hyx : y.toNat < x.toNat
            · rw [if_pos hyx] at h1
              cases h1
            · rw [if_neg hyx] at h1
              exact Or.inr ⟨by omega, h1⟩
        have e2 : y.toNat < z.toNat ∨ (y.toNat = z.toNat ∧ charLeB bs cs = true) := by
          simp only [charLeB] at h2
          by_cases hyz : y.toNat < z.toNat
          · exact Or.inl hyz
          · rw [if_neg hyz] at h2
            by_cases hzy : z.toNat < y.toNat
            · rw [if_pos hzy] at h2
              cases h2
            · rw [if_neg hzy] at h2
              exact Or.inr ⟨by omega, h2⟩
        simp only [charLeB]
        rcases e1 with h | ⟨hxy, hrec1⟩ <;> rcases e2 with h2e | ⟨hyz, hrec2⟩
        · rw [if_pos (show x.toNat < z.toNat by omega)]
        · rw [if_pos (show x.toNat < z.toNat by omega)]
        · rw [if_pos (show x.toNat < z.toNat by omega)]
        · rw [if_neg (show ¬ x.toNat < z.toNat by omega),
            if_neg (show ¬ z.toNat < x.toNat by omega)]
          exact ih bs cs hrec1 hrec2

theorem pidLe_total (a b : PId) : pidLe a b ∨ pidLe b a :=
  charLeB_total (pidStr a).data (pidStr b).data

theorem pidLe_trans (a b c : PId) : pidLe a b → pidLe b c → pidLe a c :=
  charLeB_trans (pidStr a).data (pidStr b).data (pidStr c).data

instance : IsTotal PId pidLe := ⟨pidLe_total⟩

instance : IsTrans PId pidLe := ⟨pidLe_trans⟩

theorem keysOf_attachNext (pts : Points) (nm : NextMap) :
    keysOf (attachNext pts nm) = keysOf pts := by
  rw [attachNext, keysOf, keysOf, List.map_map]
  rfl

theorem keysOf_inoutStep (pts : Points) :
    keysOf (inoutStep pts) = keysOf pts := by
  rw [inoutStep, keysOf, keysOf, List.map_map]
  rfl

theorem attachNext_no_self (ptsG ptsA : Points) (nm : NextMap) (hgood : GoodNM ptsG nm) :
    noSelfLoopB (attachNext ptsA nm) = true := by
  rw [noSelfLoopB, attachNext, List.all_eq_true]
  intro kp hkp
  rcases List.mem_map.mp hkp with ⟨kq, hkq, heq⟩
  rw [← heq]
  simp only [decide_eq_true_eq]
  intro hcon
  have hcon2 : kq.1 ∈ List.insertionSort pidLe (nmGet nm kq.1) := hcon
  have hmem : nmMem nm kq.1 kq.1 :=
    (List.Perm.mem_iff (List.perm_insertionSort pidLe _)).mp hcon2
  exact (hgood kq.1 kq.1 hmem).1 rfl

theorem attachNext_sorted (ptsA : Points) (nm : NextMap) :
    sortedNextB (attachNext ptsA nm) = true := by
  rw [sortedNextB, attachNext, List.all_eq_true]
  intro kp hkp
  rcases List.mem_map.mp hkp with ⟨kq, hkq, heq⟩
  rw [← heq]
  simp only [decide_eq_true_eq]
  show List.Chain' pidLe (List.insertionSort pidLe (nmGet nm kq.1))
  exact List.Pairwise.chain' (List.sorted_insertionSort pidLe _)

theorem attachNext_refinteg (ptsG ptsA : Points) (nm : NextMap) (hgood : GoodNM ptsG nm)
    (hkeys : keysOf ptsA = keysOf ptsG) :
    refIntegB (attachNext ptsA nm) = true := by
  rw [refIntegB, List.all_eq_true]
  intro kp hkp
  simp only [List.all_eq_true, decide_eq_true_eq]
  intro t ht
  rw [attachNext] at hkp
  rcases List.mem_map.mp hkp with ⟨kq, hkq, heq⟩
  rw [← heq] at ht
  have ht2 : t ∈ List.insertionSort pidLe (nmGet nm kq.1) := ht
  have hmem : nmMem nm kq.1 t :=
    (List.Perm.mem_iff (List.perm_insertionSort pidLe _)).mp ht2
  rw [keysOf_attachNext, hkeys]
  exact (hgood kq.1 t hmem).2.2

/-- C8: no self-loops — for every input workbook (and any choice of the four
anchor color signatures), every node of the generated output has an outgoing
next list that does not contain the node's own id: no rule of the connectivity
phase ever adds an edge from a node to itself. -/
theorem c8_no_self_loops (wb : Workbook) (ps bs os gs : String) :
    noSelfLoopB (pipeline wb ps bs os gs) = true :=
  attachNext_no_self (genPhase wb ps bs os gs).1 (inoutStep (genPhase wb ps bs os gs).1)
    (connectPhase wb bs (genPhase wb ps bs os gs).1)
    (connectPhase_good wb bs (genPhase wb ps bs os gs).1 (genPhase_inv wb ps bs os gs).2.2)

/-- C9: assembled output integrity — in the exported node list, every node's
next list is sorted by id (lexicographically, byte-wise on the formatted id
strings), and every id appearing in a next list is the id of a node present in
the exported node set. -/
theorem c9_output_integrity (wb : Workbook) (ps bs os gs : String) :
    sortedNextB (pipeline wb ps bs os gs) = true ∧
    refIntegB (pipeline wb ps bs os gs) = true :=
  ⟨attachNext_sorted (inoutStep (genPhase wb ps bs os gs).1)
      (connectPhase wb bs (genPhase wb ps bs os gs).1),
    attachNext_refinteg (genPhase wb ps bs os gs).1 (inoutStep (genPhase wb ps bs os gs).1)
      (connectPhase wb bs (genPhase wb ps bs os gs).1)
      (connectPhase_good wb bs (genPhase wb ps bs os gs).1 (genPhase_inv wb ps bs os gs).2.2)
      (keysOf_inoutStep (genPhase wb ps bs os gs).1)⟩
